import Mathlib

/-!
# chinese-decompose: clustering of characters by component and position

A shallow embedding of `main.go`: the data model, the component/position
extractor `getComponentsAndPositions`, the cluster builder `makeClusters`,
the sorter `sortClusters`, the vocabulary indexing loop of
`loadSourceVocabulary` and the record-building loop of `loadDecompositionDB`,
followed by theorems about them. Opening and reading the files is left out:
the two loaders start from the rows the CSV reader returns.

Modelling conventions.

* A Go `map[K]V` is an association list with pairwise distinct keys
  (`mapGet`, `mapSet`). Go leaves the order of a `range` over a map
  unspecified, so every `range` statement over a map receives its enumeration
  order from a `RangeOrder`, whose fields are arbitrary permutations.
* `*character` is an address (`Ptr`) into a `Heap`; `char.vocabulary = ...`
  and the in-place sort of `char.vocabulary` update the heap, so a character
  referenced from several clusters is shared, as in the source.
* `sort.Slice` belongs to the Go standard library. It is taken as a parameter
  (`SliceSort`) constrained by its documented contract: the result is a
  permutation of the input, ordered by `less`; stability is not promised.
  Two instances are given: `SliceSort.insertion`, a stable sort, and
  `SliceSort.pdq`, which follows the library of Go 1.19 and later on slices of
  at most 13 elements.
* Go `int`/`uint` values that are only stored and compared are `Int`/`Nat`;
  the conversion `uint(n)` is taken modulo `2 ^ 64` (`toUint`).
* `strconv.Atoi` belongs to the Go standard library too; `atoi` follows its
  documented behaviour (`ParseInt(s, 10, 0)`).
* A Go `string` is a `String`: the inputs are taken to be valid UTF-8, so that
  `strings.Split(s, "")` yields the characters of `s` one by one.
* A run-time panic (index out of range) is the result `none`.
-/

namespace ChineseDecompose

/-! ## Constants (main.go 13-37) -/

def compositionTypeGraphicalPrimitive : String := "一"
def compositionTypeHorizontal : String := "吅"
def compositionTypeVertical : String := "吕"
def compositionTypeInclusion : String := "回"
def compositionTypeVerticalRepetition : String := "咒"
def compositionTypeHorizontalOfThree : String := "弼"
def compositionTypeRepetitionOfThree : String := "品"
def compositionTypeRepetitionOfFour : String := "叕"
def compositionTypeVerticalSeparated : String := "冖"
def compositionTypeSuperposition : String := "+"

/- The position constants share the `const` block of the ten composition
types, so `iota` is 10 at `positionPrimitive`. -/
def positionPrimitive : Int := 10
def positionLeft : Int := 11
def positionRight : Int := 12
def positionTop : Int := 13
def positionBottom : Int := 14
def positionOuter : Int := 15
def positionInner : Int := 16
def positionMiddle : Int := 17
def positionTopRepeated : Int := 18
def positionBottomRepeated : Int := 19
def positionSuperPrimary : Int := 20
def positionSuperSecondary : Int := 21

/-! ## Data model (main.go 56-82) -/

structure vocabulary where
  term : String
  pinyin : String
  partOfSpeech : String
  translation : String
deriving DecidableEq, Repr, Inhabited

set_option linter.dupNamespace false in
structure character where
  character : String
  strokes : Nat
  compositionType : String
  leftComponent : String
  leftComponentStrokes : Nat
  rightComponent : String
  rightComponentStrokes : Nat
  signature : String
  notes : String
  section_ : String
  vocabulary : List vocabulary
deriving DecidableEq, Repr, Inhabited

/-- Address of a `character` record (`*character`). -/
abbrev Ptr := Nat

/-- The store of `character` records. -/
abbrev Heap := Ptr → character

/-- Store `c` at address `p`. -/
def Heap.set (h : Heap) (p : Ptr) (c : character) : Heap :=
  fun q => if q = p then c else h q

structure cluster where
  component : String
  position : Int
  characters : List Ptr
deriving DecidableEq, Repr, Inhabited

/-! ## Go maps as association lists -/

/-- Map read `m[k]` with the `ok` flag: `none` when the key is absent. -/
def mapGet {κ ν : Type} [DecidableEq κ] : List (κ × ν) → κ → Option ν
  | [], _ => none
  | (k', v') :: m, k => if k' = k then some v' else mapGet m k

/-- Map write `m[k] = v`: replaces the value of an existing key, otherwise adds
the entry. -/
def mapSet {κ ν : Type} [DecidableEq κ] : List (κ × ν) → κ → ν → List (κ × ν)
  | [], k, v => [(k, v)]
  | (k', v') :: m, k, v => if k' = k then (k', v) :: m else (k', v') :: mapSet m k v

/-- Go's `<` on strings: lexicographic comparison of the characters (the byte
order of UTF-8 is the order of the code points). -/
def stringLess (a b : String) : Bool := decide (a.toList < b.toList)

/-- Keys of a map. -/
def mapKeys {κ ν : Type} (m : List (κ × ν)) : List κ := m.map Prod.fst

/-! ## getComponentsAndPositions (main.go 278-326) -/

def getComponentsAndPositions (char : character) : List (String × List Int) :=
  let components : List (String × List Int) := []
  let components :=
    if char.compositionType = compositionTypeGraphicalPrimitive then
      mapSet components char.leftComponent [positionPrimitive]
    else if char.compositionType = compositionTypeHorizontal then
      mapSet components char.leftComponent [positionLeft]
    else if char.compositionType = compositionTypeVertical then
      mapSet components char.leftComponent [positionTop]
    else if char.compositionType = compositionTypeInclusion then
      mapSet components char.leftComponent [positionOuter]
    else if char.compositionType = compositionTypeVerticalRepetition then
      mapSet components char.leftComponent [positionTopRepeated]
    else if char.compositionType = compositionTypeHorizontalOfThree then
      mapSet components char.leftComponent [positionLeft, positionRight]
    else if char.compositionType = compositionTypeRepetitionOfThree then
      mapSet components char.leftComponent [positionTop]
    else if char.compositionType = compositionTypeRepetitionOfFour then
      mapSet components char.leftComponent [positionTopRepeated]
    else if char.compositionType = compositionTypeVerticalSeparated then
      mapSet components char.leftComponent [positionTop]
    else if char.compositionType = compositionTypeSuperposition then
      mapSet components char.leftComponent [positionSuperPrimary]
    else components
  if char.rightComponent = "*" then components
  else if char.compositionType = compositionTypeHorizontal then
    mapSet components char.rightComponent [positionRight]
  else if char.compositionType = compositionTypeVertical then
    mapSet components char.rightComponent [positionBottom]
  else if char.compositionType = compositionTypeInclusion then
    mapSet components char.rightComponent [positionInner]
  else if char.compositionType = compositionTypeVerticalRepetition then
    mapSet components char.rightComponent [positionBottom]
  else if char.compositionType = compositionTypeHorizontalOfThree then
    mapSet components char.rightComponent [positionMiddle]
  else if char.compositionType = compositionTypeVerticalSeparated then
    mapSet components char.rightComponent [positionBottom]
  else if char.compositionType = compositionTypeSuperposition then
    mapSet components char.rightComponent [positionSuperSecondary]
  else components

/-! ## Enumeration order of maps and the library sort -/

/-- The enumeration orders of the `range` statements over maps: one field per
statement, each an arbitrary permutation of the entries of the map it ranges
over. A nested statement also receives the key of the enclosing iteration (a
row number for `splitCharacters`), so that each execution of it may choose its
own order. -/
structure RangeOrder where
  /-- `range characterDB`, main.go 237 -/
  characterDB : List (String × Ptr) → List (String × Ptr)
  /-- `range knownCharacterDB`, main.go 245 -/
  knownCharacterDB : List (String × Ptr) → List (String × Ptr)
  /-- `range getComponentsAndPositions(char)`, main.go 247 -/
  components : String → List (String × List Int) → List (String × List Int)
  /-- `range componentToPositionToCharacterMap`, main.go 265 -/
  componentMap : List (String × List (Int × List Ptr)) → List (String × List (Int × List Ptr))
  /-- `range positionCharacters`, main.go 266 -/
  positionCharacters : String → List (Int × List Ptr) → List (Int × List Ptr)
  /-- `range charMap`, main.go 359 -/
  charMap : Nat → List (String × Bool) → List (String × Bool)
  characterDB_perm : ∀ m, (characterDB m).Perm m
  knownCharacterDB_perm : ∀ m, (knownCharacterDB m).Perm m
  components_perm : ∀ k m, (components k m).Perm m
  componentMap_perm : ∀ m, (componentMap m).Perm m
  positionCharacters_perm : ∀ k m, (positionCharacters k m).Perm m
  charMap_perm : ∀ i m, (charMap i m).Perm m

/-- Every map is enumerated in insertion order. -/
def RangeOrder.insertion : RangeOrder where
  characterDB := fun m => m
  knownCharacterDB := fun m => m
  components := fun _ m => m
  componentMap := fun m => m
  positionCharacters := fun _ m => m
  charMap := fun _ m => m
  characterDB_perm := fun _ => List.Perm.refl _
  knownCharacterDB_perm := fun _ => List.Perm.refl _
  components_perm := fun _ _ => List.Perm.refl _
  componentMap_perm := fun _ => List.Perm.refl _
  positionCharacters_perm := fun _ _ => List.Perm.refl _
  charMap_perm := fun _ _ => List.Perm.refl _

/-- Every map is enumerated in reverse insertion order. -/
def RangeOrder.reversed : RangeOrder where
  characterDB := fun m => m.reverse
  knownCharacterDB := fun m => m.reverse
  components := fun _ m => m.reverse
  componentMap := fun m => m.reverse
  positionCharacters := fun _ m => m.reverse
  charMap := fun _ m => m.reverse
  characterDB_perm := fun _ => List.reverse_perm _
  knownCharacterDB_perm := fun _ => List.reverse_perm _
  components_perm := fun _ _ => List.reverse_perm _
  componentMap_perm := fun _ => List.reverse_perm _
  positionCharacters_perm := fun _ _ => List.reverse_perm _
  charMap_perm := fun _ _ => List.reverse_perm _

/-- The requirement `sort.Slice` puts on `less`: a strict weak ordering. -/
def StrictWeak {α : Type} (less : α → α → Bool) : Prop :=
  (∀ a b, less a b = true → less b a = false) ∧
  (∀ a b c, less a b = false → less b c = false → less a c = false)

/-- The contract of `sort.Slice(x, less)`: the slice is rearranged (`perm`) so
that no element is `less` than one before it (`sorted`). Nothing is promised
about the relative order of elements neither of which is `less` than the
other. -/
structure SliceSort where
  sort : {α : Type} → (α → α → Bool) → List α → List α
  perm : ∀ {α : Type} (less : α → α → Bool) (x : List α), (sort less x).Perm x
  sorted : ∀ {α : Type} (less : α → α → Bool) (x : List α), StrictWeak less →
    (sort less x).Pairwise (fun a b => less b a = false)

/-! ## splitCharacters and the indexing loop of loadSourceVocabulary
(main.go 349-364, 141-167) -/

/-- The `order` argument is the enumeration order of `range charMap`.
`strings.Split(term, "")` cuts `term` after each character. -/
def splitCharacters (order : List (String × Bool) → List (String × Bool)) (term : String) :
    List String :=
  let charMap : List (String × Bool) := []
  let allCharacters := term.toList.map String.singleton
  let charMap := allCharacters.foldl (fun charMap char => mapSet charMap char true) charMap
  let characters : List String := []
  (order charMap).foldl (fun characters e => characters ++ [e.1]) characters

/-- The entry built from one row (main.go 145-155); only called on a row with
at least one field. -/
def rowVocabulary (row : List String) : vocabulary :=
  let vocab : vocabulary :=
    { term := row.getD 0 "", pinyin := "", partOfSpeech := "", translation := "" }
  let vocab := { vocab with term := row.getD 0 "" }
  if row.length > 1 then
    let vocab := { vocab with pinyin := row.getD 1 "" }
    if row.length > 2 then
      let vocab := { vocab with partOfSpeech := row.getD 2 "" }
      if row.length > 3 then
        { vocab with translation := row.getD 3 "" }
      else vocab
    else vocab
  else vocab

/-- The body of main.go 159-165 for one character of the row. -/
def indexCharacter (vocab : vocabulary) (charactersToVocabulary : List (String × List vocabulary))
    (char : String) : List (String × List vocabulary) :=
  let charactersToVocabulary :=
    if (mapGet charactersToVocabulary char).isNone then mapSet charactersToVocabulary char []
    else charactersToVocabulary
  mapSet charactersToVocabulary char ((mapGet charactersToVocabulary char).getD [] ++ [vocab])

/-- The body of the loop over rows (main.go 143-167); `r.1` is the row number
and `r.2` the row. -/
def indexRow (ro : RangeOrder)
    (st : List vocabulary × List (String × List vocabulary)) (r : Nat × List String) :
    List vocabulary × List (String × List vocabulary) :=
  let row := r.2
  if row.length > 0 then
    let vocab := rowVocabulary row
    let inputVocabulary := st.1 ++ [vocab]
    let characters := splitCharacters (ro.charMap r.1) (row.getD 0 "")
    (inputVocabulary, characters.foldl (indexCharacter vocab) st.2)
  else st

/-- The indexing loop of `loadSourceVocabulary` over the rows `values` read
from the file (main.go 141-169). -/
def loadSourceVocabulary (ro : RangeOrder) (values : List (List String)) :
    List (String × List vocabulary) :=
  (values.enum.foldl (indexRow ro) ([], [])).2

/-! ## strconv.Atoi and the record-building loop of loadDecompositionDB
(main.go 186-232) -/

/-- Width in bits of `int` and `uint`: a 64-bit platform. -/
def intSize : Nat := 64

/-- The error of `strconv.Atoi` (a `*strconv.NumError`): the string that failed
to parse, with the reason, `invalid syntax` or `value out of range`. -/
inductive NumError where
  | invalid (num : String)
  | range (num : String)
deriving DecidableEq, Repr

/-- The digit loop of `strconv.ParseUint` in base 10: `s0` is the whole input,
`n` the value read so far. A character that is no decimal digit is a syntax
error; a value above the largest `uint64` is a range error. -/
def parseUint (s0 : String) : List Char → Nat → Except NumError Nat
  | [], n => .ok n
  | c :: cs, n =>
    if c.isDigit then
      if n * 10 + (c.toNat - 48) > 2 ^ 64 - 1 then .error (.range s0)
      else parseUint s0 cs (n * 10 + (c.toNat - 48))
    else .error (.invalid s0)

/-- `strconv.Atoi` of the Go standard library, which is `ParseInt(s, 10, 0)`: an
optional sign `+` or `-`, then one or more decimal digits, the value being
within the range of `int`. -/
def atoi (s : String) : Except NumError Int :=
  let neg := s.toList.head? = some '-'
  let digits :=
    if s.toList.head? = some '-' ∨ s.toList.head? = some '+' then s.toList.tail else s.toList
  if digits = [] then .error (.invalid s)
  else
    match parseUint s digits 0 with
    | .error err => .error err
    | .ok un =>
      if ¬ neg ∧ un ≥ 2 ^ (intSize - 1) then .error (.range s)
      else if neg ∧ un > 2 ^ (intSize - 1) then .error (.range s)
      else if neg then .ok (-(un : Int)) else .ok (un : Int)

/-- The conversion `uint(n)` of an `int`: the value modulo `2 ^ intSize`. -/
def toUint (n : Int) : Nat := (n % 2 ^ intSize).toNat

/-- The errors `loadDecompositionDB` returns from its loop: the one it builds
with `fmt.Errorf` for a wrong number of fields (main.go 189), which carries the
row number and the number of fields, and the error of `strconv.Atoi`, returned
as it is (main.go 205, 210, 215). -/
inductive LoadError where
  | fieldCount (row : Nat) (count : Nat)
  | atoi (err : NumError)
deriving DecidableEq, Repr

/-- The text of the error (`Error()`); the string of a `NumError` is quoted. -/
def LoadError.message : LoadError → String
  | .fieldCount row count =>
    "unexpected number of values on row " ++ toString row ++ ": " ++ toString count
  | .atoi (.invalid num) => "strconv.Atoi: parsing " ++ num.quote ++ ": invalid syntax"
  | .atoi (.range num) => "strconv.Atoi: parsing " ++ num.quote ++ ": value out of range"

/-- The record built from a row of ten fields (main.go 192-229); the field
`vocabulary` is left nil. -/
def parseRecord (row : List String) : Except LoadError character :=
  let characterStr := row.getD 0 ""
  let strokesStr := row.getD 1 ""
  let compositionTypeStr := row.getD 2 ""
  let leftComponentStr := row.getD 3 ""
  let leftComponentStrokesStr := row.getD 4 ""
  let rightComponentStr := row.getD 5 ""
  let rightComponentStrokesStr := row.getD 6 ""
  let signatureStr := row.getD 7 ""
  let notesStr := row.getD 8 ""
  let sectionStr := row.getD 9 ""
  match atoi strokesStr with
  | .error err => .error (.atoi err)
  | .ok strokesInt =>
    match atoi leftComponentStrokesStr with
    | .error err => .error (.atoi err)
    | .ok leftComponentStrokesInt =>
      match atoi rightComponentStrokesStr with
      | .error err => .error (.atoi err)
      | .ok rightComponentStrokesInt =>
        .ok
          { character := characterStr,
            strokes := toUint strokesInt,
            compositionType := compositionTypeStr,
            leftComponent := leftComponentStr,
            leftComponentStrokes := toUint leftComponentStrokesInt,
            rightComponent := rightComponentStr,
            rightComponentStrokes := toUint rightComponentStrokesInt,
            signature := signatureStr,
            notes := notesStr,
            section_ := sectionStr,
            vocabulary := [] }

/-- The body of the loop main.go 187-230 for row number `r.1` with fields
`r.2`. The record allocated by `&character{...}` for row `i` is given the
address `i`, so every row has a record of its own. -/
def loadRow (st : List (String × Ptr) × Heap) (r : Nat × List String) :
    Except LoadError (List (String × Ptr) × Heap) :=
  if r.2.length ≠ 10 then .error (.fieldCount r.1 r.2.length)
  else
    match parseRecord r.2 with
    | .error err => .error err
    | .ok char => .ok (mapSet st.1 (r.2.getD 0 "") r.1, st.2.set r.1 char)

/-- The record-building loop of `loadDecompositionDB` over the rows `values`
read from the file (main.go 186-232): the catalog and the store of its records,
or the error. -/
def loadDecompositionDB (values : List (List String)) :
    Except LoadError (List (String × Ptr) × Heap) :=
  values.enum.foldlM loadRow ([], fun _ => default)

/-! ### Well-formed rows, after the specification -/

/-- The number written by a list of decimal digits. -/
def decimalValue (digits : List Char) : Nat :=
  digits.foldl (fun n c => n * 10 + (c.toNat - 48)) 0

/-- A stroke-count field as the specification wants it: a non-negative integer
written in decimal digits, small enough for an `int`. -/
def IsStrokeCount (s : String) : Prop :=
  s.toList ≠ [] ∧ (∀ c ∈ s.toList, c.isDigit = true) ∧ decimalValue s.toList < 2 ^ 63

/-- A well-formed decomposition row as the specification describes it: exactly
10 fields, of which `strokes`, `leftComponentStrokes` and
`rightComponentStrokes` are non-negative integers. -/
def RowWellFormed (row : List String) : Prop :=
  row.length = 10 ∧ IsStrokeCount (row.getD 1 "") ∧ IsStrokeCount (row.getD 4 "") ∧
    IsStrokeCount (row.getD 6 "")

/-- The record a well-formed row describes: each field taken as it is written,
the three stroke counts as the numbers they write. -/
def recordOf (row : List String) : character :=
  { character := row.getD 0 "",
    strokes := decimalValue (row.getD 1 "").toList,
    compositionType := row.getD 2 "",
    leftComponent := row.getD 3 "",
    leftComponentStrokes := decimalValue (row.getD 4 "").toList,
    rightComponent := row.getD 5 "",
    rightComponentStrokes := decimalValue (row.getD 6 "").toList,
    signature := row.getD 7 "",
    notes := row.getD 8 "",
    section_ := row.getD 9 "",
    vocabulary := [] }

/-! ## makeClusters (main.go 235-276) -/

/-- The body of the loop main.go 237-242. -/
def retainKnown (charactersToVocabulary : List (String × List vocabulary))
    (st : List (String × Ptr) × Heap) (e : String × Ptr) : List (String × Ptr) × Heap :=
  match mapGet charactersToVocabulary e.1 with
  | some charVocab =>
    (mapSet st.1 e.1 e.2, st.2.set e.2 { st.2 e.2 with vocabulary := charVocab })
  | none => st

/-- The body of the loop main.go 252-258. The inner map `m[component]` exists
when this runs (main.go 248-250 creates it). -/
def addPosition (char : Ptr) (component : String)
    (m : List (String × List (Int × List Ptr))) (position : Int) :
    List (String × List (Int × List Ptr)) :=
  let inner := (mapGet m component).getD []
  let inner := if (mapGet inner position).isNone then mapSet inner position [] else inner
  mapSet m component (mapSet inner position ((mapGet inner position).getD [] ++ [char]))

/-- The body of the loop main.go 247-259. -/
def addComponent (char : Ptr) (m : List (String × List (Int × List Ptr)))
    (e : String × List Int) : List (String × List (Int × List Ptr)) :=
  let m := if (mapGet m e.1).isNone then mapSet m e.1 [] else m
  e.2.foldl (addPosition char e.1) m

/-- The body of the loop main.go 245-260. -/
def addCharacter (ro : RangeOrder) (heap : Heap) (m : List (String × List (Int × List Ptr)))
    (e : String × Ptr) : List (String × List (Int × List Ptr)) :=
  (ro.components e.1 (getComponentsAndPositions (heap e.2))).foldl (addComponent e.2) m

/-- The body of the loop main.go 266-272; `characters[0]` panics on an empty
slice. -/
def emitGroup (component : String) (st : List cluster × List Ptr) (e : Int × List Ptr) :
    Option (List cluster × List Ptr) :=
  if e.2.length < 2 then
    match e.2.head? with
    | some char => some (st.1, st.2 ++ [char])
    | none => none
  else
    some (st.1 ++ [{ component := component, position := e.1, characters := e.2 }], st.2)

/-- The body of the loop main.go 265-273. -/
def emitComponent (ro : RangeOrder) (st : List cluster × List Ptr)
    (e : String × List (Int × List Ptr)) : Option (List cluster × List Ptr) :=
  (ro.positionCharacters e.1 e.2).foldlM (emitGroup e.1) st

/-- What `makeClusters` leaves behind: its two return values and the store, in
which the retained characters carry their vocabulary. -/
structure Built where
  clusters : List cluster
  isolatedCharacters : List Ptr
  heap : Heap

def makeClusters (ro : RangeOrder) (charactersToVocabulary : List (String × List vocabulary))
    (characterDB : List (String × Ptr)) (heap : Heap) : Option Built :=
  let known := (ro.characterDB characterDB).foldl (retainKnown charactersToVocabulary) ([], heap)
  let knownCharacterDB := known.1
  let heap := known.2
  let componentToPositionToCharacterMap :=
    (ro.knownCharacterDB knownCharacterDB).foldl (addCharacter ro heap) []
  match (ro.componentMap componentToPositionToCharacterMap).foldlM (emitComponent ro) ([], []) with
  | some out => some { clusters := out.1, isolatedCharacters := out.2, heap := heap }
  | none => none

/-! ## sortClusters (main.go 328-347) -/

/-- The body of the loop main.go 341-345 for one character. -/
def sortVocabulary (ss : SliceSort) (heap : Heap) (char : Ptr) : Heap :=
  heap.set char { heap char with
    vocabulary := ss.sort (fun a b => stringLess a.term b.term) (heap char).vocabulary }

/-- The body of the loop main.go 335-346 for one cluster. -/
def sortCluster (ss : SliceSort) (st : List cluster × Heap) (c : cluster) : List cluster × Heap :=
  let heap := st.2
  let characters :=
    ss.sort (fun a b => decide ((heap a).strokes < (heap b).strokes)) c.characters
  (st.1 ++ [{ c with characters := characters }], characters.foldl (sortVocabulary ss) heap)

/-- Each cluster owns its `characters` slice (as `makeClusters` builds them);
the characters themselves are shared through the store. Returns the slice
`clusters` and the store after the call. -/
def sortClusters (ss : SliceSort) (clusters : List cluster) (heap : Heap) : List cluster × Heap :=
  let clusters :=
    ss.sort (fun a b => decide (a.characters.length > b.characters.length)) clusters
  clusters.foldl (sortCluster ss) ([], heap)

/-! ## Sample data -/

/-- A record with the given composition type and component slots; the other
fields take no part in the extraction. -/
def sampleRecord (char compositionType leftComponent rightComponent : String) (strokes : Nat) :
    character :=
  { character := char, strokes := strokes, compositionType := compositionType,
    leftComponent := leftComponent, leftComponentStrokes := 0,
    rightComponent := rightComponent, rightComponentStrokes := 0,
    signature := "", notes := "", section_ := "", vocabulary := [] }

/-- The store of the round-trip scenario: 材 and 树 are Horizontal with left
component 木, and 木 itself is a Primitive. -/
def sampleHeap : Heap := fun p =>
  match p with
  | 0 => sampleRecord "材" compositionTypeHorizontal "木" "才" 7
  | 1 => sampleRecord "树" compositionTypeHorizontal "木" "对" 9
  | _ => sampleRecord "木" compositionTypeGraphicalPrimitive "木" "*" 4

/-- The catalog of the round-trip scenario. -/
def sampleCatalog : List (String × Ptr) := [("材", 0), ("树", 1), ("木", 2)]

/-- The vocabulary rows of the round-trip scenario. -/
def sampleRows : List (List String) :=
  [["木材", "mucai", "n", "lumber"], ["树木", "shumu", "n", "tree"]]

/-- A decomposition row of ten fields for 木 with the given strokes field. -/
def sampleRow (strokes : String) : List String :=
  ["木", strokes, "一", "木", "4", "*", "0", "", "", ""]

/-- The rows of the malformed-row scenario: an accepted row, then a row of nine
fields. -/
def malformedRows : List (List String) :=
  [sampleRow "4", ["材", "7", "吅", "木", "4", "才", "3", "", ""]]

/-- Two accepted rows with the same character. -/
def duplicateRows : List (List String) := [sampleRow "4", sampleRow "5"]

/-- Insertion sort as an instance of `sort.Slice`. -/
def SliceSort.insertion : SliceSort where
  sort := fun less x => List.insertionSort (fun a b => less b a = false) x
  perm := fun less x => List.perm_insertionSort _ x
  sorted := by
    intro α less x h
    haveI : IsTotal α (fun a b => less b a = false) :=
      ⟨fun a b => by
        cases hba : less b a
        · exact Or.inl rfl
        · exact Or.inr (h.1 b a hba)⟩
    haveI : IsTrans α (fun a b => less b a = false) :=
      ⟨fun a b c hab hbc => h.2 c b a hbc hab⟩
    exact List.sorted_insertionSort (fun a b => less b a = false) x

/-- How `sortCluster` relates a cluster before and after, the stroke counts
being read from `heap0`. -/
def SortedFrom (heap0 : Heap) (c c' : cluster) : Prop :=
  c'.component = c.component ∧ c'.position = c.position ∧
    c'.characters.Perm c.characters ∧
    c'.characters.Pairwise (fun p q => (heap0 p).strokes ≤ (heap0 q).strokes)

/-! ## The library sort on thirteen elements

`sort.Slice` of the Go distribution, releases 1.19 and later, is
`pdqsort_func` of `sort/zsortfunc.go` with `limit = bits.Len(length)`. Up to 12
elements it is `insertionSort_func`. On 13 elements it runs the steps below
once and then sorts both sides of the pivot by insertion; the branches for
longer slices (`breakPatterns_func`, `heapSort_func`, `partitionEqual_func`, the
ninther of `choosePivot_func`, the shifting of `partialInsertionSort_func`) are
not reached. -/

/-- `data.Less(i, j)` on the slice `x`. -/
def lessAt {α : Type} (less : α → α → Bool) (x : List α) (i j : Nat) : Bool :=
  match x[i]?, x[j]? with
  | some a, some b => less a b
  | _, _ => false

/-- `data.Swap(i, j)` on the slice `x`. The sort calls it within the slice
only. -/
def swapAt {α : Type} (x : List α) (i j : Nat) : List α :=
  match x[i]?, x[j]? with
  | some a, some b => (x.set i b).set j a
  | _, _ => x

/-- `order2_func(data, a, b, &swaps)`: the places `a` and `b`, exchanged when
the element at `b` is less than the one at `a`, and the new count of swaps. -/
def order2_func (lt : Nat → Nat → Bool) (a b swaps : Nat) : Nat × Nat × Nat :=
  if lt b a then (b, a, swaps + 1) else (a, b, swaps)

/-- `median_func(data, a, b, c, &swaps)`: the place of the median of the three
elements, and the new count of swaps. -/
def median_func (lt : Nat → Nat → Bool) (a b c swaps : Nat) : Nat × Nat :=
  let ab := order2_func lt a b swaps
  let bc := order2_func lt ab.2.1 c ab.2.2
  let ab := order2_func lt ab.1 bc.1 bc.2.2
  (ab.2.1, ab.2.2)

/-- `choosePivot_func(data, a, b)` on a slice of 8 to 49 elements: the median of
the elements at `a + l/4`, `a + l/4*2` and `a + l/4*3`, and the count of swaps;
the hint is `increasingHint` when the count is 0. -/
def choosePivot_func (lt : Nat → Nat → Bool) (a b : Nat) : Nat × Nat :=
  let l := b - a
  median_func lt (a + l / 4 * 1) (a + l / 4 * 2) (a + l / 4 * 3) 0

/-- `partialInsertionSort_func(data, a, b)` on a slice of fewer than 50
elements: nothing is moved, and the result is `true` when no element is less
than the one before it. -/
def partialInsertionSort_func (lt : Nat → Nat → Bool) (a b : Nat) : Bool :=
  (List.range (b - a - 1)).all (fun k => !lt (a + 1 + k) (a + k))

/-- The loop `for i <= j && data.Less(i, a) { i++ }` of `partition_func`. -/
def scanUp (lt : Nat → Nat → Bool) (a j : Nat) : Nat → Nat → Nat
  | 0, i => i
  | fuel + 1, i => if i ≤ j ∧ lt i a = true then scanUp lt a j fuel (i + 1) else i

/-- The loop `for i <= j && !data.Less(j, a) { j-- }` of `partition_func`. -/
def scanDown (lt : Nat → Nat → Bool) (a i : Nat) : Nat → Nat → Nat
  | 0, j => j
  | fuel + 1, j => if i ≤ j ∧ lt j a = false then scanDown lt a i fuel (j - 1) else j

/-- The `for` loop that ends `partition_func`: the slice and `j` when it
breaks. -/
def partitionLoop {α : Type} (less : α → α → Bool) (a : Nat) :
    Nat → List α → Nat → Nat → List α × Nat
  | 0, x, _, j => (x, j)
  | fuel + 1, x, i, j =>
    let i := scanUp (lessAt less x) a j x.length i
    let j := scanDown (lessAt less x) a i x.length j
    if i > j then (x, j)
    else partitionLoop less a fuel (swapAt x i j) (i + 1) (j - 1)

/-- `partition_func(data, a, b, pivot)`: the slice afterwards and the new place
of the pivot. -/
def partition_func {α : Type} (less : α → α → Bool) (x : List α) (a b pivot : Nat) :
    List α × Nat :=
  let x := swapAt x a pivot
  let i := scanUp (lessAt less x) a (b - 1) x.length (a + 1)
  let j := scanDown (lessAt less x) a i x.length (b - 1)
  if i > j then (swapAt x j a, j)
  else
    let x := swapAt x i j
    let r := partitionLoop less a x.length x (i + 1) (j - 1)
    (swapAt r.1 r.2 a, r.2)

/-- `insertionSort_func` on a whole segment: an element moves down as long as it
is less than the one before it, so elements of which neither is less than the
other keep their order. -/
def insertionSort_func {α : Type} (less : α → α → Bool) (segment : List α) : List α :=
  List.insertionSort (fun a b => less b a = false) segment

/-- `pdqsort_func(data, 0, 13, limit)` on a slice `x` of 13 elements. A slice
that `choosePivot_func` takes for increasing and `partialInsertionSort_func`
finds in order is left as it is; otherwise the slice is partitioned and the two
sides of the pivot, of at most 12 elements and apart from each other, are
sorted by insertion. -/
def pdqsort13 {α : Type} (less : α → α → Bool) (x : List α) : List α :=
  let chosen := choosePivot_func (lessAt less x) 0 x.length
  if chosen.2 = 0 ∧ partialInsertionSort_func (lessAt less x) 0 x.length = true then x
  else
    let r := partition_func less x 0 x.length chosen.1
    insertionSort_func less (r.1.take r.2) ++ (r.1.drop r.2).take 1 ++
      insertionSort_func less (r.1.drop (r.2 + 1))

/-- The `sort.Slice` of Go 1.19 and later on slices of at most 13 elements:
insertion sort up to 12 elements, `pdqsort13` on 13. The result of `pdqsort13`
is taken when it is in the order of `less`, which it is for every strict weak
ordering (`pdqsort13_sorted`); otherwise, and on longer slices, the instance
sorts by insertion. -/
def SliceSort.pdq : SliceSort where
  sort := fun less x =>
    if x.length = 13 ∧ (pdqsort13 less x).Pairwise (fun a b => less b a = false) then
      pdqsort13 less x
    else List.insertionSort (fun a b => less b a = false) x
  perm := by
    intro α less x
    have hcons : ∀ (l : List α) (k : Nat) (h v : α), l[k]? = some v →
        (v :: l.set k h).Perm (h :: l) := by
      intro l
      induction l with
      | nil => intro k h v hv; simp at hv
      | cons w t ih =>
        intro k h v hv
        cases k with
        | zero =>
          simp only [List.getElem?_cons_zero, Option.some.injEq] at hv
          subst hv
          exact List.Perm.swap _ _ _
        | succ k =>
          simp only [List.getElem?_cons_succ] at hv
          simp only [List.set_cons_succ]
          exact (List.Perm.swap _ _ _).trans (((ih k h v hv).cons w).trans (List.Perm.swap _ _ _))
    have hswap : ∀ (l : List α) (i j : Nat), (swapAt l i j).Perm l := by
      intro l
      induction l with
      | nil => intro i j; simp [swapAt]
      | cons h t ih =>
        intro i j
        unfold swapAt
        cases hi : (h :: t)[i]? with
        | none => exact List.Perm.refl _
        | some a =>
          cases hj : (h :: t)[j]? with
          | none => exact List.Perm.refl _
          | some b =>
            simp only
            cases i with
            | zero =>
              simp only [List.getElem?_cons_zero, Option.some.injEq] at hi
              subst hi
              cases j with
              | zero =>
                simp only [List.getElem?_cons_zero, Option.some.injEq] at hj
                subst hj
                simp
              | succ j =>
                simp only [List.getElem?_cons_succ] at hj
                simp only [List.set_cons_zero, List.set_cons_succ]
                exact hcons t j h b hj
            | succ i =>
              simp only [List.getElem?_cons_succ] at hi
              cases j with
              | zero =>
                simp only [List.getElem?_cons_zero, Option.some.injEq] at hj
                subst hj
                simp only [List.set_cons_zero, List.set_cons_succ]
                exact hcons t i h a hi
              | succ j =>
                simp only [List.getElem?_cons_succ] at hj
                simp only [List.set_cons_succ]
                have := ih i j
                unfold swapAt at this
                rw [hi, hj] at this
                exact this.cons h
    have hloop : ∀ (a fuel : Nat) (l : List α) (i j : Nat),
        (partitionLoop less a fuel l i j).1.Perm l := by
      intro a fuel
      induction fuel with
      | zero => intro l i j; exact List.Perm.refl _
      | succ fuel ih =>
        intro l i j
        simp only [partitionLoop]
        split
        · exact List.Perm.refl _
        · exact (ih _ _ _).trans (hswap _ _ _)
    have hpart : ∀ (l : List α) (a b pivot : Nat),
        (partition_func less l a b pivot).1.Perm l := by
      intro l a b pivot
      simp only [partition_func]
      split
      · exact (hswap _ _ _).trans (hswap _ _ _)
      · exact (hswap _ _ _).trans ((hloop _ _ _ _ _).trans ((hswap _ _ _).trans (hswap _ _ _)))
    have hsides : ∀ r : List α × Nat,
        (insertionSort_func less (r.1.take r.2) ++ (r.1.drop r.2).take 1 ++
          insertionSort_func less (r.1.drop (r.2 + 1))).Perm r.1 := by
      intro r
      have h1 : (insertionSort_func less (r.1.take r.2)).Perm (r.1.take r.2) :=
        List.perm_insertionSort _ _
      have h2 : (insertionSort_func less (r.1.drop (r.2 + 1))).Perm (r.1.drop (r.2 + 1)) :=
        List.perm_insertionSort _ _
      have h3 : r.1.take r.2 ++ (r.1.drop r.2).take 1 ++ r.1.drop (r.2 + 1) = r.1 := by
        rw [List.append_assoc]
        have : (r.1.drop r.2).take 1 ++ r.1.drop (r.2 + 1) = r.1.drop r.2 := by
          rw [← List.drop_drop]
          exact List.take_append_drop 1 _
        rw [this, List.take_append_drop]
      exact ((h1.append_right _).append h2).trans (List.Perm.of_eq h3)
    have hpdq : (pdqsort13 less x).Perm x := by
      simp only [pdqsort13]
      split
      · exact List.Perm.refl _
      · exact (hsides _).trans (hpart x 0 x.length _)
    beta_reduce
    split
    · exact hpdq
    · exact List.perm_insertionSort _ x
  sorted := by
    intro α less x hsw
    beta_reduce
    split
    · rename_i h
      exact h.2
    · exact SliceSort.insertion.sorted less x hsw

/-- The state of the slice while `partition_func` runs around the pivot `p`,
which stands at place 0: the elements at the places 1 to `i - 1` are less than
`p`, those above `j` are not. -/
def PartitionInv {α : Type} (less : α → α → Bool) (p : α) (l : List α) (i j : Nat) : Prop :=
  l[0]? = some p ∧ 1 ≤ i ∧ i ≤ j + 1 ∧ j < l.length ∧
    (∀ t u, 1 ≤ t → t < i → l[t]? = some u → less u p = true) ∧
    (∀ t u, j < t → l[t]? = some u → less u p = false)

/-! ## Sample data with ties -/

/-- An entry with the given term and pinyin. -/
def sampleEntry (term pinyin : String) : vocabulary :=
  { term := term, pinyin := pinyin, partOfSpeech := "", translation := "" }

/-- A store with ties: the characters 0 to 5 have five strokes and character 6
has four; character 0 carries six entries of term "b" followed by one of term
"a". -/
def tieHeap : Heap := fun p =>
  { sampleRecord "" "" "" "" (if p = 6 then 4 else 5) with
    vocabulary :=
      if p = 0 then
        [sampleEntry "b" "0", sampleEntry "b" "1", sampleEntry "b" "2", sampleEntry "b" "3",
         sampleEntry "b" "4", sampleEntry "b" "5", sampleEntry "a" "6"]
      else [] }

/-- Seven clusters with ties: six clusters of two members followed by one of
seven members. -/
def tieClusters : List cluster :=
  [⟨"一", positionLeft, [7, 8]⟩, ⟨"二", positionLeft, [7, 8]⟩, ⟨"三", positionLeft, [7, 8]⟩,
   ⟨"四", positionLeft, [7, 8]⟩, ⟨"五", positionLeft, [7, 8]⟩, ⟨"六", positionLeft, [7, 8]⟩,
   ⟨"七", positionLeft, [0, 1, 2, 3, 4, 5, 6]⟩]

/-- A decomposition row of ten fields: `char` is Horizontal with `component` on
the left and no right component. -/
def thirteenRow (char strokes component : String) : List String :=
  [char, strokes, "吅", component, "1", "*", "0", "", "", ""]

/-- The decomposition rows of the scenario with ties: the components A to L each
have two characters of one stroke, and M has thirteen, N to Y of five strokes
and Z of four. -/
def thirteenRows : List (List String) :=
  [thirteenRow "a" "1" "A", thirteenRow "b" "1" "A", thirteenRow "c" "1" "B",
   thirteenRow "d" "1" "B", thirteenRow "e" "1" "C", thirteenRow "f" "1" "C",
   thirteenRow "g" "1" "D", thirteenRow "h" "1" "D", thirteenRow "i" "1" "E",
   thirteenRow "j" "1" "E", thirteenRow "k" "1" "F", thirteenRow "l" "1" "F",
   thirteenRow "m" "1" "G", thirteenRow "n" "1" "G", thirteenRow "o" "1" "H",
   thirteenRow "p" "1" "H", thirteenRow "q" "1" "I", thirteenRow "r" "1" "I",
   thirteenRow "s" "1" "J", thirteenRow "t" "1" "J", thirteenRow "u" "1" "K",
   thirteenRow "v" "1" "K", thirteenRow "w" "1" "L", thirteenRow "x" "1" "L",
   thirteenRow "N" "5" "M", thirteenRow "O" "5" "M", thirteenRow "P" "5" "M",
   thirteenRow "Q" "5" "M", thirteenRow "R" "5" "M", thirteenRow "S" "5" "M",
   thirteenRow "T" "5" "M", thirteenRow "U" "5" "M", thirteenRow "V" "5" "M",
   thirteenRow "W" "5" "M", thirteenRow "X" "5" "M", thirteenRow "Y" "5" "M",
   thirteenRow "Z" "4" "M"]

/-- The vocabulary rows of the scenario with ties: N occurs in twelve rows of
term "NO", then in one of term "N". -/
def thirteenVocabulary : List (List String) :=
  [["abcdefghijklmnopqrstuvwxPQRSTUVWXYZ", "", "", "the other characters"],
   ["NO", "no", "", "sense 1"], ["NO", "no", "", "sense 2"], ["NO", "no", "", "sense 3"],
   ["NO", "no", "", "sense 4"], ["NO", "no", "", "sense 5"], ["NO", "no", "", "sense 6"],
   ["NO", "no", "", "sense 7"], ["NO", "no", "", "sense 8"], ["NO", "no", "", "sense 9"],
   ["NO", "no", "", "sense 10"], ["NO", "no", "", "sense 11"], ["NO", "no", "", "sense 12"],
   ["N", "n", "", "letter"]]

/-- The entries are in non-decreasing order of term. -/
def TermSorted (v : List vocabulary) : Prop :=
  v.Pairwise (fun a b => stringLess b.term a.term = false)

/-! ## Vocabulary of the statements about makeClusters -/

/-- The (component, position) pairs of a mapping from components to position
lists. -/
def pairsOf (components : List (String × List Int)) : List (String × Int) :=
  components.flatMap (fun e => e.2.map (fun position => (e.1, position)))

/-- The mapping `components` maps `component` to a list that holds `position`. -/
def hasPair (components : List (String × List Int)) (component : String) (position : Int) :
    Bool :=
  match mapGet components component with
  | some positions => decide (position ∈ positions)
  | none => false

/-- The catalog entries that take part in the group of (component, position):
their key is in the vocabulary index and their extraction holds the pair. -/
def contributors (charactersToVocabulary : List (String × List vocabulary))
    (characterDB : List (String × Ptr)) (heap : Heap) (component : String) (position : Int) :
    List (String × Ptr) :=
  characterDB.filter (fun e =>
    (mapGet charactersToVocabulary e.1).isSome &&
      hasPair (getComponentsAndPositions (heap e.2)) component position)

/-- The catalog is well formed: its keys are pairwise distinct (it is a map) and
so are the records they point to (`loadDecompositionDB` allocates a record of
its own for every key). -/
def CatalogWF (characterDB : List (String × Ptr)) : Prop :=
  (characterDB.map Prod.fst).Nodup ∧ (characterDB.map Prod.snd).Nodup

/-- The group stored for (component, position), `none` when there is none. -/
def groupOf (m : List (String × List (Int × List Ptr))) (component : String) (position : Int) :
    Option (List Ptr) :=
  match mapGet m component with
  | some inner => mapGet inner position
  | none => none

/-- Appending `char` to the group of (component, position), seen on groups. -/
def addTo (G : String → Int → Option (List Ptr)) (component : String) (position : Int)
    (char : Ptr) : String → Int → Option (List Ptr) :=
  fun c p => if c = component ∧ p = position then some ((G component position).getD [] ++ [char])
    else G c p

/-- Appending a list of contributions in order. -/
def addAll (G : String → Int → Option (List Ptr)) (T : List ((String × Int) × Ptr)) :
    String → Int → Option (List Ptr) :=
  T.foldl (fun G t => addTo G t.1.1 t.1.2 t.2) G

/-- Keys distinct at both levels of the grouping map. -/
def GroupsWF (m : List (String × List (Int × List Ptr))) : Prop :=
  (mapKeys m).Nodup ∧ ∀ e ∈ m, (mapKeys e.2).Nodup

/-- No group of the grouping map is empty. -/
def GroupsNonempty (m : List (String × List (Int × List Ptr))) : Prop :=
  ∀ e ∈ m, ∀ g ∈ e.2, g.2 ≠ []

/-- The groups of the grouping map, flattened. -/
def triples (m : List (String × List (Int × List Ptr))) : List (String × Int × List Ptr) :=
  m.flatMap (fun e => e.2.map (fun g => (e.1, g.1, g.2)))

/-- The groups in the order in which main.go 265-266 visits them. -/
def visited (ro : RangeOrder) (m : List (String × List (Int × List Ptr))) :
    List (String × Int × List Ptr) :=
  (ro.componentMap m).flatMap (fun e =>
    (ro.positionCharacters e.1 e.2).map (fun g => (e.1, g.1, g.2)))

/-- The contributions in the order in which main.go 245-257 makes them. -/
def contributions (ro : RangeOrder) (heap : Heap) (L : List (String × Ptr)) :
    List ((String × Int) × Ptr) :=
  L.flatMap (fun e =>
    (pairsOf (ro.components e.1 (getComponentsAndPositions (heap e.2)))).map
      (fun cp => (cp, e.2)))

/-- The store after main.go 237-242. -/
def attachedHeap (ro : RangeOrder) (charactersToVocabulary : List (String × List vocabulary))
    (characterDB : List (String × Ptr)) (heap : Heap) : Heap :=
  ((ro.characterDB characterDB).foldl (retainKnown charactersToVocabulary) ([], heap)).2

/-- The grouping map after main.go 244-260. -/
def groupingMap (ro : RangeOrder) (charactersToVocabulary : List (String × List vocabulary))
    (characterDB : List (String × Ptr)) (heap : Heap) : List (String × List (Int × List Ptr)) :=
  let known := (ro.characterDB characterDB).foldl (retainKnown charactersToVocabulary) ([], heap)
  (ro.knownCharacterDB known.1).foldl (addCharacter ro known.2) []

/-- The clusters emitted for a list of groups (main.go 270). -/
def bigGroups (T : List (String × Int × List Ptr)) : List cluster :=
  (T.filter (fun t => !decide (t.2.2.length < 2))).map
    (fun t => { component := t.1, position := t.2.1, characters := t.2.2 })

/-- The isolated characters emitted for a list of groups (main.go 268). -/
def smallGroups (T : List (String × Int × List Ptr)) : List Ptr :=
  T.filterMap (fun t => if t.2.2.length < 2 then t.2.2.head? else none)

/-- A mapping from components to position lists without repeated component and
without repeated position in a list. -/
def PairsWF (components : List (String × List Int)) : Prop :=
  (mapKeys components).Nodup ∧ ∀ e ∈ components, e.2.Nodup

/-- Two results of `makeClusters` hold the same groups: every cluster of one has
a cluster of the other with the same component, the same position and the same
members up to order, there are as many clusters in both, and the isolated
characters are the same up to order. -/
def SameGroups (a b : Built) : Prop :=
  (∀ cl ∈ a.clusters, ∃ cl' ∈ b.clusters, cl'.component = cl.component ∧
    cl'.position = cl.position ∧ cl'.characters.Perm cl.characters) ∧
  (∀ cl' ∈ b.clusters, ∃ cl ∈ a.clusters, cl.component = cl'.component ∧
    cl.position = cl'.position ∧ cl.characters.Perm cl'.characters) ∧
  a.clusters.length = b.clusters.length ∧
  a.isolatedCharacters.Perm b.isolatedCharacters

/-! # Theorems -/

/-! ## Maps -/

section MapLemmas
variable {κ ν : Type} [DecidableEq κ]

theorem mapGet_mapSet (m : List (κ × ν)) (k k' : κ) (v : ν) :
    mapGet (mapSet m k v) k' = if k = k' then some v else mapGet m k' := by
  induction m with
  | nil => simp [mapSet, mapGet]
  | cons e m ih =>
    obtain ⟨a, b⟩ := e
    by_cases h : a = k
    · subst h
      by_cases h2 : a = k' <;> simp [mapSet, mapGet, h2]
    · by_cases h2 : a = k'
      · subst h2
        have : ¬ k = a := fun h' => h h'.symm
        simp [mapSet, mapGet, h, this]
      · simp [mapSet, mapGet, h, h2, ih]

theorem mapSet_mapSet (m : List (κ × ν)) (k : κ) (v v' : ν) :
    mapSet (mapSet m k v) k v' = mapSet m k v' := by
  induction m with
  | nil => simp [mapSet]
  | cons e m ih =>
    obtain ⟨a, b⟩ := e
    by_cases h : a = k <;> simp [mapSet, h, ih]

theorem mem_mapSet {m : List (κ × ν)} {k : κ} {v : ν} {e : κ × ν}
    (h : e ∈ mapSet m k v) : e = (k, v) ∨ e ∈ m := by
  induction m with
  | nil => simpa [mapSet] using h
  | cons x m ih =>
    obtain ⟨a, b⟩ := x
    by_cases hk : a = k
    · subst hk
      simp only [mapSet, if_true, List.mem_cons] at h
      rcases h with h | h
      · exact Or.inl h
      · exact Or.inr (List.mem_cons_of_mem _ h)
    · simp only [mapSet, hk, if_false, List.mem_cons] at h
      rcases h with h | h
      · exact Or.inr (h ▸ List.mem_cons_self _ _)
      · rcases ih h with h' | h'
        · exact Or.inl h'
        · exact Or.inr (List.mem_cons_of_mem _ h')

theorem mapGet_eq_none_iff (m : List (κ × ν)) (k : κ) :
    mapGet m k = none ↔ k ∉ mapKeys m := by
  induction m with
  | nil => simp [mapGet, mapKeys]
  | cons e m ih =>
    obtain ⟨a, b⟩ := e
    by_cases h : a = k
    · simp [mapGet, mapKeys, h]
    · have h' : ¬ k = a := fun h' => h h'.symm
      simp only [mapGet, h, if_false, ih]
      simp [mapKeys, h']

theorem mapKeys_mapSet (m : List (κ × ν)) (k : κ) (v : ν) :
    mapKeys (mapSet m k v) = if k ∈ mapKeys m then mapKeys m else mapKeys m ++ [k] := by
  induction m with
  | nil => simp [mapSet, mapKeys]
  | cons e m ih =>
    obtain ⟨a, b⟩ := e
    by_cases h : a = k
    · simp [mapSet, mapKeys, h]
    · have h' : ¬ k = a := fun h' => h h'.symm
      simp only [mapKeys] at ih
      simp only [mapSet, h, if_false, mapKeys, List.map_cons, List.mem_cons, h', false_or, ih]
      split <;> simp

theorem mapKeys_mapSet_nodup {m : List (κ × ν)} (k : κ) (v : ν) (h : (mapKeys m).Nodup) :
    (mapKeys (mapSet m k v)).Nodup := by
  rw [mapKeys_mapSet]
  split
  · exact h
  · rename_i hk
    rw [List.nodup_append]
    refine ⟨h, List.nodup_singleton _, ?_⟩
    intro a ha hb
    simp only [List.mem_singleton] at hb
    exact hk (hb ▸ ha)

theorem mapSet_of_not_mem {m : List (κ × ν)} {k : κ} (v : ν) (h : k ∉ mapKeys m) :
    mapSet m k v = m ++ [(k, v)] := by
  induction m with
  | nil => simp [mapSet]
  | cons e m ih =>
    obtain ⟨a, b⟩ := e
    simp only [mapKeys, List.map_cons, List.mem_cons, not_or] at h
    have h' : ¬ a = k := fun h' => h.1 h'.symm
    simp only [mapSet, h', if_false, List.cons_append]
    rw [ih h.2]

theorem mem_of_mapGet {m : List (κ × ν)} {k : κ} {v : ν} (h : mapGet m k = some v) :
    (k, v) ∈ m := by
  induction m with
  | nil => simp [mapGet] at h
  | cons e m ih =>
    obtain ⟨a, b⟩ := e
    by_cases hk : a = k
    · simp only [mapGet, hk, if_true, Option.some.injEq] at h
      simp [hk, h]
    · simp only [mapGet, hk, if_false] at h
      exact List.mem_cons_of_mem _ (ih h)

theorem mapGet_of_mem {m : List (κ × ν)} {k : κ} {v : ν} (hn : (mapKeys m).Nodup)
    (h : (k, v) ∈ m) : mapGet m k = some v := by
  induction m with
  | nil => cases h
  | cons e m ih =>
    obtain ⟨a, b⟩ := e
    simp only [mapKeys, List.map_cons, List.nodup_cons] at hn
    rcases List.mem_cons.1 h with h | h
    · cases h; simp [mapGet]
    · have : ¬ a = k := by
        intro hak
        apply hn.1
        rw [hak]
        exact List.mem_map_of_mem Prod.fst h
      simp only [mapGet, this, if_false]
      exact ih hn.2 h

end MapLemmas

/-! ## The grouping map of makeClusters -/

theorem addPosition_eq (char : Ptr) (component : String)
    (m : List (String × List (Int × List Ptr))) (position : Int) :
    addPosition char component m position =
      mapSet m component (mapSet ((mapGet m component).getD []) position
        ((mapGet ((mapGet m component).getD []) position).getD [] ++ [char])) := by
  unfold addPosition
  cases h : mapGet ((mapGet m component).getD []) position with
  | none => simp [h, mapSet_mapSet, mapGet_mapSet]
  | some v => simp [h]

theorem groupOf_addPosition (char : Ptr) (component : String)
    (m : List (String × List (Int × List Ptr))) (position : Int) :
    groupOf (addPosition char component m position)
      = addTo (groupOf m) component position char := by
  funext c p
  rw [addPosition_eq]
  unfold groupOf addTo
  rw [mapGet_mapSet]
  by_cases hc : component = c
  · subst hc
    simp only [if_true, true_and]
    rw [mapGet_mapSet]
    by_cases hp : position = p
    · subst hp
      cases mapGet m component <;> simp [mapGet]
    · have hp' : ¬ p = position := fun h => hp h.symm
      simp only [hp, hp', if_false]
      cases mapGet m component <;> simp [mapGet]
  · have hc' : ¬ c = component := fun h => hc h.symm
    simp [hc, hc']

theorem groupOf_mapSet_nil (m : List (String × List (Int × List Ptr))) (component : String)
    (h : mapGet m component = none) : groupOf (mapSet m component []) = groupOf m := by
  funext c p
  unfold groupOf
  rw [mapGet_mapSet]
  by_cases hc : component = c
  · subst hc; simp [h, mapGet]
  · simp [hc]

theorem groupOf_foldl_addPosition (char : Ptr) (component : String) (positions : List Int)
    (m : List (String × List (Int × List Ptr))) :
    groupOf (positions.foldl (addPosition char component) m)
      = addAll (groupOf m) (positions.map (fun position => ((component, position), char))) := by
  induction positions generalizing m with
  | nil => rfl
  | cons p ps ih =>
    rw [List.foldl_cons, ih, groupOf_addPosition]
    rfl

theorem groupOf_addComponent (char : Ptr) (m : List (String × List (Int × List Ptr)))
    (e : String × List Int) :
    groupOf (addComponent char m e)
      = addAll (groupOf m) (e.2.map (fun position => ((e.1, position), char))) := by
  unfold addComponent
  rw [groupOf_foldl_addPosition]
  cases h : mapGet m e.1 with
  | none => simp [groupOf_mapSet_nil m e.1 h]
  | some v => simp

theorem addAll_append (G : String → Int → Option (List Ptr)) (T T' : List ((String × Int) × Ptr)) :
    addAll G (T ++ T') = addAll (addAll G T) T' := by
  unfold addAll
  rw [List.foldl_append]

theorem groupOf_foldl_addComponent (char : Ptr) (components : List (String × List Int))
    (m : List (String × List (Int × List Ptr))) :
    groupOf (components.foldl (addComponent char) m)
      = addAll (groupOf m) ((pairsOf components).map (fun cp => (cp, char))) := by
  induction components generalizing m with
  | nil => rfl
  | cons e es ih =>
    rw [List.foldl_cons, ih, groupOf_addComponent]
    simp only [pairsOf, List.flatMap_cons, List.map_append, List.map_map]
    rw [addAll_append]
    rfl

theorem groupOf_foldl_addCharacter (ro : RangeOrder) (heap : Heap) (L : List (String × Ptr))
    (m : List (String × List (Int × List Ptr))) :
    groupOf (L.foldl (addCharacter ro heap) m)
      = addAll (groupOf m) (contributions ro heap L) := by
  induction L generalizing m with
  | nil => rfl
  | cons e es ih =>
    rw [List.foldl_cons, ih]
    unfold addCharacter
    rw [groupOf_foldl_addComponent]
    simp only [contributions, List.flatMap_cons]
    rw [addAll_append]

theorem addAll_apply (T : List ((String × Int) × Ptr)) (G : String → Int → Option (List Ptr))
    (c : String) (p : Int) :
    addAll G T c p =
      if (T.filter (fun t => t.1 = (c, p))).map Prod.snd = [] then G c p
      else some ((G c p).getD [] ++ (T.filter (fun t => t.1 = (c, p))).map Prod.snd) := by
  induction T generalizing G with
  | nil => simp [addAll]
  | cons t ts ih =>
    obtain ⟨⟨c', p'⟩, q⟩ := t
    have hstep : addAll G (((c', p'), q) :: ts) = addAll (addTo G c' p' q) ts := rfl
    rw [hstep, ih]
    by_cases h : (c', p') = (c, p)
    · have h1 : c' = c := (Prod.mk.inj h).1
      have h2 : p' = p := (Prod.mk.inj h).2
      subst h1; subst h2
      simp [addTo, List.filter_cons]
    · have h' : ¬ (c = c' ∧ p = p') := by
        rintro ⟨h1, h2⟩; exact h (by rw [h1, h2])
      have hf : List.filter (fun t : (String × Int) × Ptr => decide (t.1 = (c, p)))
          (((c', p'), q) :: ts) = List.filter (fun t => decide (t.1 = (c, p))) ts :=
        List.filter_cons_of_neg (by simpa using h)
      rw [hf]
      simp [addTo, h']

theorem groupOf_nil : groupOf [] = fun _ _ => none := by
  funext c p; simp [groupOf, mapGet]

theorem inner_wf {m : List (String × List (Int × List Ptr))} (h : GroupsWF m) (c : String) :
    (mapKeys ((mapGet m c).getD [])).Nodup := by
  cases hc : mapGet m c with
  | none => simp [mapKeys]
  | some inner => exact h.2 _ (mem_of_mapGet hc)

theorem inner_nonempty {m : List (String × List (Int × List Ptr))} (h : GroupsNonempty m)
    (c : String) : ∀ g ∈ (mapGet m c).getD [], g.2 ≠ [] := by
  cases hc : mapGet m c with
  | none => simp
  | some inner => exact h _ (mem_of_mapGet hc)

theorem groupsWF_mapSet {m : List (String × List (Int × List Ptr))} (h : GroupsWF m)
    (c : String) (inner : List (Int × List Ptr)) (hi : (mapKeys inner).Nodup) :
    GroupsWF (mapSet m c inner) := by
  refine ⟨mapKeys_mapSet_nodup _ _ h.1, ?_⟩
  intro e he
  rcases mem_mapSet he with rfl | he
  · exact hi
  · exact h.2 e he

theorem groupsNonempty_mapSet {m : List (String × List (Int × List Ptr))}
    (h : GroupsNonempty m) (c : String) (inner : List (Int × List Ptr))
    (hi : ∀ g ∈ inner, g.2 ≠ []) : GroupsNonempty (mapSet m c inner) := by
  intro e he
  rcases mem_mapSet he with rfl | he
  · exact hi
  · exact h e he

theorem groupsWF_addPosition (char : Ptr) (component : String) (position : Int)
    {m : List (String × List (Int × List Ptr))} (h : GroupsWF m) :
    GroupsWF (addPosition char component m position) := by
  rw [addPosition_eq]
  exact groupsWF_mapSet h _ _ (mapKeys_mapSet_nodup _ _ (inner_wf h component))

theorem groupsNonempty_addPosition (char : Ptr) (component : String) (position : Int)
    {m : List (String × List (Int × List Ptr))} (h : GroupsNonempty m) :
    GroupsNonempty (addPosition char component m position) := by
  rw [addPosition_eq]
  refine groupsNonempty_mapSet h _ _ ?_
  intro g hg
  rcases mem_mapSet hg with rfl | hg
  · simp
  · exact inner_nonempty h component g hg

theorem groups_foldl_addPosition (char : Ptr) (component : String) (positions : List Int)
    {m : List (String × List (Int × List Ptr))} (h : GroupsWF m ∧ GroupsNonempty m) :
    GroupsWF (positions.foldl (addPosition char component) m) ∧
      GroupsNonempty (positions.foldl (addPosition char component) m) := by
  induction positions generalizing m with
  | nil => exact h
  | cons p ps ih =>
    rw [List.foldl_cons]
    exact ih ⟨groupsWF_addPosition _ _ _ h.1, groupsNonempty_addPosition _ _ _ h.2⟩

theorem groups_addComponent (char : Ptr) (e : String × List Int)
    {m : List (String × List (Int × List Ptr))} (h : GroupsWF m ∧ GroupsNonempty m) :
    GroupsWF (addComponent char m e) ∧ GroupsNonempty (addComponent char m e) := by
  unfold addComponent
  apply groups_foldl_addPosition
  split
  · exact ⟨groupsWF_mapSet h.1 _ _ (by simp [mapKeys]),
      groupsNonempty_mapSet h.2 _ _ (by simp)⟩
  · exact h

theorem groups_foldl_addComponent (char : Ptr) (components : List (String × List Int))
    {m : List (String × List (Int × List Ptr))} (h : GroupsWF m ∧ GroupsNonempty m) :
    GroupsWF (components.foldl (addComponent char) m) ∧
      GroupsNonempty (components.foldl (addComponent char) m) := by
  induction components generalizing m with
  | nil => exact h
  | cons e es ih =>
    rw [List.foldl_cons]
    exact ih (groups_addComponent _ _ h)

theorem groups_foldl_addCharacter (ro : RangeOrder) (heap : Heap) (L : List (String × Ptr))
    {m : List (String × List (Int × List Ptr))} (h : GroupsWF m ∧ GroupsNonempty m) :
    GroupsWF (L.foldl (addCharacter ro heap) m) ∧
      GroupsNonempty (L.foldl (addCharacter ro heap) m) := by
  induction L generalizing m with
  | nil => exact h
  | cons e es ih =>
    rw [List.foldl_cons]
    exact ih (groups_foldl_addComponent _ _ h)

theorem groups_nil : GroupsWF [] ∧ GroupsNonempty [] := by
  refine ⟨⟨by simp [mapKeys], ?_⟩, ?_⟩
  · intro e he; cases he
  · intro e he; cases he

theorem mem_triples {m : List (String × List (Int × List Ptr))} {c : String} {p : Int}
    {chars : List Ptr} :
    (c, p, chars) ∈ triples m ↔ ∃ inner, (c, inner) ∈ m ∧ (p, chars) ∈ inner := by
  unfold triples
  simp only [List.mem_flatMap, List.mem_map, Prod.mk.injEq]
  constructor
  · rintro ⟨⟨c', inner⟩, he, ⟨p', chars'⟩, hg, h1, h2, h3⟩
    simp only at h1 h2 h3
    subst h1; subst h2; subst h3
    exact ⟨inner, he, hg⟩
  · rintro ⟨inner, he, hg⟩
    exact ⟨(c, inner), he, (p, chars), hg, rfl, rfl, rfl⟩

theorem mem_triples_iff {m : List (String × List (Int × List Ptr))} (h : GroupsWF m)
    {c : String} {p : Int} {chars : List Ptr} :
    (c, p, chars) ∈ triples m ↔ groupOf m c p = some chars := by
  rw [mem_triples]
  unfold groupOf
  constructor
  · rintro ⟨inner, he, hg⟩
    rw [mapGet_of_mem h.1 he]
    exact mapGet_of_mem (h.2 _ he) hg
  · intro hg
    cases hc : mapGet m c with
    | none => simp [hc] at hg
    | some inner =>
      simp only [hc] at hg
      exact ⟨inner, mem_of_mapGet hc, mem_of_mapGet hg⟩

theorem triples_nonempty {m : List (String × List (Int × List Ptr))} (h : GroupsNonempty m) :
    ∀ t ∈ triples m, t.2.2 ≠ [] := by
  rintro ⟨c, p, chars⟩ ht
  obtain ⟨inner, he, hg⟩ := mem_triples.1 ht
  exact h _ he _ hg

theorem triples_keys_nodup {m : List (String × List (Int × List Ptr))} (h : GroupsWF m) :
    ((triples m).map (fun t => (t.1, t.2.1))).Nodup := by
  induction m with
  | nil => simp [triples]
  | cons e m ih =>
    obtain ⟨c, inner⟩ := e
    have hk : (mapKeys ((c, inner) :: m)).Nodup := h.1
    simp only [mapKeys, List.map_cons, List.nodup_cons] at hk
    have hm : GroupsWF m := ⟨hk.2, fun e he => h.2 e (List.mem_cons_of_mem _ he)⟩
    have hi : (mapKeys inner).Nodup := h.2 (c, inner) (List.mem_cons_self _ _)
    have hcons : triples ((c, inner) :: m)
        = inner.map (fun g => (c, g.1, g.2)) ++ triples m := by
      simp [triples]
    rw [hcons, List.map_append, List.nodup_append]
    refine ⟨?_, ih hm, ?_⟩
    · rw [List.map_map]
      have : (inner.map ((fun t : String × Int × List Ptr => (t.1, t.2.1)) ∘
          fun g : Int × List Ptr => (c, g.1, g.2))) = (mapKeys inner).map (fun p => (c, p)) := by
        simp [mapKeys, List.map_map, Function.comp]
      rw [this]
      exact hi.map (fun a b hab => (Prod.mk.inj hab).2)
    · intro k hk1 hk2
      simp only [List.mem_map] at hk1 hk2
      obtain ⟨t1, ht1, rfl⟩ := hk1
      obtain ⟨g, _, rfl⟩ := ht1
      obtain ⟨⟨c2, p2, chars2⟩, ht2, heq⟩ := hk2
      simp only [Prod.mk.injEq] at heq
      obtain ⟨inner2, he2, _⟩ := mem_triples.1 ht2
      apply hk.1
      rw [← heq.1]
      exact List.mem_map_of_mem Prod.fst he2

theorem visited_perm (ro : RangeOrder) (m : List (String × List (Int × List Ptr))) :
    (visited ro m).Perm (triples m) := by
  unfold visited triples
  refine List.Perm.trans (List.Perm.flatMap_left _ ?_)
    (List.Perm.flatMap_right _ (ro.componentMap_perm m))
  intro e _
  exact (ro.positionCharacters_perm e.1 e.2).map _

theorem bigGroups_append (T T' : List (String × Int × List Ptr)) :
    bigGroups (T ++ T') = bigGroups T ++ bigGroups T' := by
  simp [bigGroups]

theorem smallGroups_append (T T' : List (String × Int × List Ptr)) :
    smallGroups (T ++ T') = smallGroups T ++ smallGroups T' := by
  simp [smallGroups]

theorem emitGroup_eq (c : String) (st : List cluster × List Ptr) (g : Int × List Ptr)
    (hg : g.2 ≠ []) :
    emitGroup c st g
      = some (st.1 ++ bigGroups [(c, g.1, g.2)], st.2 ++ smallGroups [(c, g.1, g.2)]) := by
  obtain ⟨p, chars⟩ := g
  cases chars with
  | nil => exact absurd rfl hg
  | cons x xs =>
    by_cases h : xs.length + 1 < 2
    · simp [emitGroup, bigGroups, smallGroups, h, List.filter_cons]
    · simp [emitGroup, bigGroups, smallGroups, h, List.filter_cons]

theorem foldlM_emitGroup (c : String) (gs : List (Int × List Ptr))
    (st : List cluster × List Ptr) (hg : ∀ g ∈ gs, g.2 ≠ []) :
    gs.foldlM (emitGroup c) st
      = some (st.1 ++ bigGroups (gs.map (fun g => (c, g.1, g.2))),
          st.2 ++ smallGroups (gs.map (fun g => (c, g.1, g.2)))) := by
  induction gs generalizing st with
  | nil => simp [bigGroups, smallGroups]
  | cons g gs ih =>
    rw [List.foldlM_cons, emitGroup_eq c st g (hg g (List.mem_cons_self _ _))]
    simp only [Option.bind_eq_bind, Option.some_bind]
    rw [ih _ (fun g' hg' => hg g' (List.mem_cons_of_mem _ hg'))]
    simp only [List.map_cons, List.append_assoc]
    rw [← bigGroups_append, ← smallGroups_append]
    rfl

theorem foldlM_emitComponent (ro : RangeOrder) (es : List (String × List (Int × List Ptr)))
    (st : List cluster × List Ptr) (hg : ∀ e ∈ es, ∀ g ∈ e.2, g.2 ≠ []) :
    es.foldlM (emitComponent ro) st
      = some (st.1 ++ bigGroups (es.flatMap (fun e =>
            (ro.positionCharacters e.1 e.2).map (fun g => (e.1, g.1, g.2)))),
          st.2 ++ smallGroups (es.flatMap (fun e =>
            (ro.positionCharacters e.1 e.2).map (fun g => (e.1, g.1, g.2))))) := by
  induction es generalizing st with
  | nil => simp [bigGroups, smallGroups]
  | cons e es ih =>
    rw [List.foldlM_cons]
    have he : emitComponent ro st e = _ :=
      foldlM_emitGroup e.1 (ro.positionCharacters e.1 e.2) st (by
        intro g hg'
        exact hg e (List.mem_cons_self _ _) g
          ((ro.positionCharacters_perm e.1 e.2).mem_iff.1 hg'))
    rw [he]
    simp only [Option.bind_eq_bind, Option.some_bind]
    rw [ih _ (fun e' he' => hg e' (List.mem_cons_of_mem _ he'))]
    simp only [List.flatMap_cons, List.append_assoc, bigGroups_append, smallGroups_append]

theorem groupingMap_groups (ro : RangeOrder)
    (charactersToVocabulary : List (String × List vocabulary))
    (characterDB : List (String × Ptr)) (heap : Heap) :
    GroupsWF (groupingMap ro charactersToVocabulary characterDB heap) ∧
      GroupsNonempty (groupingMap ro charactersToVocabulary characterDB heap) :=
  groups_foldl_addCharacter ro _ _ groups_nil

theorem makeClusters_eq (ro : RangeOrder)
    (charactersToVocabulary : List (String × List vocabulary))
    (characterDB : List (String × Ptr)) (heap : Heap) :
    makeClusters ro charactersToVocabulary characterDB heap
      = some
        { clusters := bigGroups (visited ro
            (groupingMap ro charactersToVocabulary characterDB heap)),
          isolatedCharacters := smallGroups (visited ro
            (groupingMap ro charactersToVocabulary characterDB heap)),
          heap := attachedHeap ro charactersToVocabulary characterDB heap } := by
  have hne := (groupingMap_groups ro charactersToVocabulary characterDB heap).2
  have h := foldlM_emitComponent ro
    (ro.componentMap (groupingMap ro charactersToVocabulary characterDB heap)) ([], [])
    (fun e he => hne e ((ro.componentMap_perm _).mem_iff.1 he))
  unfold makeClusters
  simp only [groupingMap] at h
  simp only [h, List.nil_append]
  rfl

theorem pairsWF_nil : PairsWF [] := by
  refine ⟨by simp [mapKeys], ?_⟩
  intro e he; cases he

theorem pairsWF_mapSet {m : List (String × List Int)} (h : PairsWF m) (k : String)
    (v : List Int) (hv : v.Nodup) : PairsWF (mapSet m k v) := by
  refine ⟨mapKeys_mapSet_nodup _ _ h.1, ?_⟩
  intro e he
  rcases mem_mapSet he with rfl | he
  · exact hv
  · exact h.2 e he

theorem nodup1 (a : Int) : [a].Nodup := List.nodup_singleton a
theorem nodupLR : [positionLeft, positionRight].Nodup := by decide

theorem pairsWF_ite {c : Prop} [Decidable c] {a b : List (String × List Int)}
    (ha : PairsWF a) (hb : PairsWF b) : PairsWF (if c then a else b) := by
  split <;> assumption

theorem getComponentsAndPositions_pairsWF (char : character) :
    PairsWF (getComponentsAndPositions char) := by
  unfold getComponentsAndPositions
  lift_lets
  intro c0 c1
  have h0 : PairsWF c0 := pairsWF_nil
  have h1 : PairsWF c1 := by
    repeat' first
      | apply pairsWF_ite
      | exact pairsWF_mapSet h0 _ _ (nodup1 _)
      | exact pairsWF_mapSet h0 _ _ nodupLR
      | exact h0
  clear_value c1
  repeat' first
    | apply pairsWF_ite
    | exact pairsWF_mapSet h1 _ _ (nodup1 _)
    | exact h1

theorem mem_pairsOf {components : List (String × List Int)} {c : String} {p : Int} :
    (c, p) ∈ pairsOf components ↔ ∃ ps, (c, ps) ∈ components ∧ p ∈ ps := by
  unfold pairsOf
  simp only [List.mem_flatMap, List.mem_map, Prod.mk.injEq]
  constructor
  · rintro ⟨⟨c', ps⟩, he, p', hp, h1, h2⟩
    simp only at h1 h2
    subst h1; subst h2
    exact ⟨ps, he, hp⟩
  · rintro ⟨ps, he, hp⟩
    exact ⟨(c, ps), he, p, hp, rfl, rfl⟩

theorem mem_pairsOf_iff_hasPair {components : List (String × List Int)}
    (h : PairsWF components) (c : String) (p : Int) :
    (c, p) ∈ pairsOf components ↔ hasPair components c p = true := by
  rw [mem_pairsOf]
  unfold hasPair
  constructor
  · rintro ⟨ps, he, hp⟩
    rw [mapGet_of_mem h.1 he]
    simpa using hp
  · intro hh
    cases hc : mapGet components c with
    | none => simp [hc] at hh
    | some ps =>
      simp only [hc, decide_eq_true_eq] at hh
      exact ⟨ps, mem_of_mapGet hc, hh⟩

theorem pairsOf_nodup {components : List (String × List Int)} (h : PairsWF components) :
    (pairsOf components).Nodup := by
  induction components with
  | nil => simp [pairsOf]
  | cons e m ih =>
    obtain ⟨c, ps⟩ := e
    have hk : (mapKeys ((c, ps) :: m)).Nodup := h.1
    simp only [mapKeys, List.map_cons, List.nodup_cons] at hk
    have hm : PairsWF m := ⟨hk.2, fun e he => h.2 e (List.mem_cons_of_mem _ he)⟩
    have hps : ps.Nodup := h.2 (c, ps) (List.mem_cons_self _ _)
    have hcons : pairsOf ((c, ps) :: m) = ps.map (fun p => (c, p)) ++ pairsOf m := by
      simp [pairsOf]
    rw [hcons, List.nodup_append]
    refine ⟨hps.map (fun a b hab => (Prod.mk.inj hab).2), ih hm, ?_⟩
    intro k hk1 hk2
    simp only [List.mem_map] at hk1
    obtain ⟨p, _, rfl⟩ := hk1
    obtain ⟨ps2, he2, _⟩ := mem_pairsOf.1 hk2
    exact hk.1 (List.mem_map_of_mem Prod.fst he2)

theorem pairsOf_perm {m m' : List (String × List Int)} (h : m.Perm m') :
    (pairsOf m).Perm (pairsOf m') :=
  List.Perm.flatMap_right _ h

/-- A list without repetition holds `a` once or not at all. -/
theorem filter_eq_of_nodup {α : Type} [DecidableEq α] {l : List α} (h : l.Nodup) (a : α) :
    l.filter (fun x => decide (x = a)) = if a ∈ l then [a] else [] := by
  induction l with
  | nil => simp
  | cons x xs ih =>
    rw [List.nodup_cons] at h
    by_cases hx : x = a
    · subst hx
      have : xs.filter (fun y => decide (y = x)) = [] := by
        rw [ih h.2]; simp [h.1]
      simp [List.filter_cons, this]
    · have hx' : ¬ a = x := fun h' => hx h'.symm
      simp [List.filter_cons, hx, hx', ih h.2]

theorem contributions_filter (ro : RangeOrder) (heap : Heap) (L : List (String × Ptr))
    (c : String) (p : Int) :
    ((contributions ro heap L).filter (fun t => t.1 = (c, p))).map Prod.snd
      = (L.filter (fun e => hasPair (getComponentsAndPositions (heap e.2)) c p)).map Prod.snd := by
  induction L with
  | nil => simp [contributions]
  | cons e es ih =>
    have hcons : contributions ro heap (e :: es)
        = (pairsOf (ro.components e.1 (getComponentsAndPositions (heap e.2)))).map
            (fun cp => (cp, e.2)) ++ contributions ro heap es := by
      simp [contributions]
    rw [hcons, List.filter_append, List.map_append, ih]
    have hperm := pairsOf_perm (ro.components_perm e.1 (getComponentsAndPositions (heap e.2)))
    have hnd : (pairsOf (ro.components e.1 (getComponentsAndPositions (heap e.2)))).Nodup :=
      hperm.nodup_iff.2 (pairsOf_nodup (getComponentsAndPositions_pairsWF _))
    have hmem : (c, p) ∈ pairsOf (ro.components e.1 (getComponentsAndPositions (heap e.2)))
        ↔ hasPair (getComponentsAndPositions (heap e.2)) c p = true := by
      rw [hperm.mem_iff]
      exact mem_pairsOf_iff_hasPair (getComponentsAndPositions_pairsWF _) c p
    have hhead : (((pairsOf (ro.components e.1 (getComponentsAndPositions (heap e.2)))).map
        (fun cp => (cp, e.2))).filter (fun t => t.1 = (c, p))).map Prod.snd
        = if hasPair (getComponentsAndPositions (heap e.2)) c p = true then [e.2] else [] := by
      rw [List.filter_map, List.map_map]
      have : ((fun t : (String × Int) × Ptr => decide (t.1 = (c, p))) ∘
          fun cp : String × Int => (cp, e.2)) = fun x => decide (x = (c, p)) := rfl
      rw [this, filter_eq_of_nodup hnd]
      by_cases hh : hasPair (getComponentsAndPositions (heap e.2)) c p = true
      · simp [hh, hmem.2 hh]
      · have : (c, p) ∉ pairsOf (ro.components e.1 (getComponentsAndPositions (heap e.2))) :=
          fun h' => hh (hmem.1 h')
        simp [hh, this]
    rw [hhead]
    by_cases hh : hasPair (getComponentsAndPositions (heap e.2)) c p = true
    · simp [hh, List.filter_cons]
    · simp [hh, List.filter_cons]

theorem retainKnown_fst (index : List (String × List vocabulary)) (L : List (String × Ptr))
    (acc : List (String × Ptr)) (h : Heap) (hnd : (mapKeys L).Nodup)
    (hdisj : ∀ e ∈ L, e.1 ∉ mapKeys acc) :
    (L.foldl (retainKnown index) (acc, h)).1
      = acc ++ L.filter (fun e => (mapGet index e.1).isSome) := by
  induction L generalizing acc h with
  | nil => simp
  | cons e es ih =>
    simp only [mapKeys, List.map_cons, List.nodup_cons] at hnd
    rw [List.foldl_cons]
    cases hv : mapGet index e.1 with
    | none =>
      have : retainKnown index (acc, h) e = (acc, h) := by simp [retainKnown, hv]
      rw [this, ih acc h hnd.2 (fun e' he' => hdisj e' (List.mem_cons_of_mem _ he'))]
      simp [List.filter_cons, hv]
    | some v =>
      have : retainKnown index (acc, h) e
          = (acc ++ [e], h.set e.2 { h e.2 with vocabulary := v }) := by
        simp only [retainKnown, hv]
        rw [mapSet_of_not_mem _ (hdisj e (List.mem_cons_self _ _))]
      rw [this, ih _ _ hnd.2]
      · simp [List.filter_cons, hv]
      · intro e' he'
        simp only [mapKeys, List.map_append, List.map_cons, List.map_nil, List.mem_append,
          List.mem_singleton, not_or]
        refine ⟨hdisj e' (List.mem_cons_of_mem _ he'), ?_⟩
        intro heq
        exact hnd.1 (heq ▸ List.mem_map_of_mem Prod.fst he')

theorem retainKnown_heap_shape (index : List (String × List vocabulary))
    (L : List (String × Ptr)) (acc : List (String × Ptr)) (h : Heap) (p : Ptr) :
    ∃ v, (L.foldl (retainKnown index) (acc, h)).2 p = { h p with vocabulary := v } := by
  induction L generalizing acc h with
  | nil => exact ⟨(h p).vocabulary, rfl⟩
  | cons e es ih =>
    rw [List.foldl_cons]
    cases hv : mapGet index e.1 with
    | none =>
      have : retainKnown index (acc, h) e = (acc, h) := by simp [retainKnown, hv]
      rw [this]; exact ih acc h
    | some v =>
      have : retainKnown index (acc, h) e
          = (mapSet acc e.1 e.2, h.set e.2 { h e.2 with vocabulary := v }) := by
        simp only [retainKnown, hv]
      rw [this]
      obtain ⟨w, hw⟩ := ih (mapSet acc e.1 e.2) (h.set e.2 { h e.2 with vocabulary := v })
      refine ⟨w, ?_⟩
      rw [hw]
      unfold Heap.set
      by_cases hp : p = e.2
      · simp [hp]
      · simp [hp]

theorem retainKnown_heap_untouched (index : List (String × List vocabulary))
    (L : List (String × Ptr)) (acc : List (String × Ptr)) (h : Heap) (p : Ptr)
    (hp : ∀ e ∈ L, e.2 = p → mapGet index e.1 = none) :
    (L.foldl (retainKnown index) (acc, h)).2 p = h p := by
  induction L generalizing acc h with
  | nil => rfl
  | cons e es ih =>
    rw [List.foldl_cons]
    cases hv : mapGet index e.1 with
    | none =>
      have : retainKnown index (acc, h) e = (acc, h) := by simp [retainKnown, hv]
      rw [this]; exact ih acc h (fun e' he' => hp e' (List.mem_cons_of_mem _ he'))
    | some v =>
      have : retainKnown index (acc, h) e
          = (mapSet acc e.1 e.2, h.set e.2 { h e.2 with vocabulary := v }) := by
        simp only [retainKnown, hv]
      rw [this, ih _ _ (fun e' he' => hp e' (List.mem_cons_of_mem _ he'))]
      have hne : ¬ p = e.2 := by
        intro heq
        have := hp e (List.mem_cons_self _ _) heq.symm
        rw [hv] at this; cases this
      simp [Heap.set, hne]

theorem retainKnown_heap_vocabulary (index : List (String × List vocabulary))
    (L : List (String × Ptr)) (acc : List (String × Ptr)) (h : Heap)
    (hnd : (L.map Prod.snd).Nodup) {k : String} {p : Ptr} {v : List vocabulary}
    (hmem : (k, p) ∈ L) (hv : mapGet index k = some v) :
    ((L.foldl (retainKnown index) (acc, h)).2 p).vocabulary = v := by
  induction L generalizing acc h with
  | nil => cases hmem
  | cons e es ih =>
    rw [List.map_cons, List.nodup_cons] at hnd
    rw [List.foldl_cons]
    rcases List.mem_cons.1 hmem with heq | hmem'
    · subst heq
      have : retainKnown index (acc, h) (k, p)
          = (mapSet acc k p, h.set p { h p with vocabulary := v }) := by
        simp only [retainKnown, hv]
      rw [this, retainKnown_heap_untouched]
      · simp [Heap.set]
      · intro e' he' hp'
        have hmem2 : e'.2 ∈ es.map Prod.snd := List.mem_map_of_mem Prod.snd he'
        rw [hp'] at hmem2
        exact absurd hmem2 hnd.1
    · exact ih _ _ hnd.2 hmem'

theorem getComponentsAndPositions_vocabulary (c : character) (v : List vocabulary) :
    getComponentsAndPositions { c with vocabulary := v } = getComponentsAndPositions c := rfl

theorem attachedHeap_extraction (ro : RangeOrder) (index : List (String × List vocabulary))
    (db : List (String × Ptr)) (heap : Heap) (p : Ptr) :
    getComponentsAndPositions (attachedHeap ro index db heap p)
      = getComponentsAndPositions (heap p) := by
  obtain ⟨v, hv⟩ := retainKnown_heap_shape index (ro.characterDB db) [] heap p
  unfold attachedHeap
  rw [hv]
  rfl

theorem groupOf_groupingMap (ro : RangeOrder) (index : List (String × List vocabulary))
    (db : List (String × Ptr)) (heap : Heap) (hk : (db.map Prod.fst).Nodup)
    (c : String) (p : Int) :
    ∃ g : List Ptr, g.Perm ((contributors index db heap c p).map Prod.snd) ∧
      groupOf (groupingMap ro index db heap) c p = if g = [] then none else some g := by
  have hL1 : (mapKeys (ro.characterDB db)).Nodup :=
    ((ro.characterDB_perm db).map Prod.fst).nodup_iff.2 hk
  have hknown := retainKnown_fst index (ro.characterDB db) [] heap hL1
    (fun e _ => by simp [mapKeys])
  rw [List.nil_append] at hknown
  refine ⟨((ro.knownCharacterDB
      ((ro.characterDB db).filter (fun e => (mapGet index e.1).isSome))).filter
      (fun e => hasPair (getComponentsAndPositions (heap e.2)) c p)).map Prod.snd, ?_, ?_⟩
  · have hc : contributors index db heap c p
        = (db.filter (fun e => (mapGet index e.1).isSome)).filter
            (fun e => hasPair (getComponentsAndPositions (heap e.2)) c p) := by
      unfold contributors
      rw [List.filter_filter]
      congr 1
      funext e
      rw [Bool.and_comm]
    rw [hc]
    exact ((((ro.knownCharacterDB_perm _).trans
      ((ro.characterDB_perm db).filter _)).filter _).map _)
  · unfold groupingMap
    simp only []
    rw [groupOf_foldl_addCharacter, groupOf_nil, addAll_apply, contributions_filter, hknown]
    have hext : ∀ e : String × Ptr,
        hasPair (getComponentsAndPositions
          (((ro.characterDB db).foldl (retainKnown index) ([], heap)).2 e.2)) c p
        = hasPair (getComponentsAndPositions (heap e.2)) c p := by
      intro e
      have := attachedHeap_extraction ro index db heap e.2
      unfold attachedHeap at this
      rw [this]
    simp only [hext, Option.getD_none, List.nil_append]

theorem mem_bigGroups {T : List (String × Int × List Ptr)} {cl : cluster} :
    cl ∈ bigGroups T ↔
      (cl.component, cl.position, cl.characters) ∈ T ∧ 2 ≤ cl.characters.length := by
  unfold bigGroups
  simp only [List.mem_map, List.mem_filter, Bool.not_eq_true', decide_eq_false_iff_not, not_lt]
  constructor
  · rintro ⟨⟨c, p, chars⟩, ⟨ht, hlen⟩, rfl⟩
    exact ⟨ht, hlen⟩
  · rintro ⟨ht, hlen⟩
    exact ⟨(cl.component, cl.position, cl.characters), ⟨ht, hlen⟩, rfl⟩

theorem mem_smallGroups {T : List (String × Int × List Ptr)} {char : Ptr}
    (h : char ∈ smallGroups T) : ∃ t ∈ T, t.2.2 = [char] := by
  unfold smallGroups at h
  simp only [List.mem_filterMap] at h
  obtain ⟨⟨c, p, chars⟩, ht, hf⟩ := h
  refine ⟨(c, p, chars), ht, ?_⟩
  cases chars with
  | nil => simp at hf
  | cons x xs =>
    cases xs with
    | nil => simpa using hf
    | cons y ys =>
      simp only [List.length_cons, List.head?_cons, ite_eq_left_iff] at hf
      have : ¬ (ys.length + 1 + 1 < 2) := by omega
      simp [this] at hf

theorem mem_visited (ro : RangeOrder) (index : List (String × List vocabulary))
    (db : List (String × Ptr)) (heap : Heap) (hk : (db.map Prod.fst).Nodup)
    {c : String} {p : Int} {chars : List Ptr} :
    (c, p, chars) ∈ visited ro (groupingMap ro index db heap) ↔
      chars ≠ [] ∧ ∃ g : List Ptr, g.Perm ((contributors index db heap c p).map Prod.snd) ∧
        chars = g ∧ groupOf (groupingMap ro index db heap) c p = some g := by
  rw [(visited_perm ro _).mem_iff, mem_triples_iff (groupingMap_groups ro index db heap).1]
  obtain ⟨g, hg, hgo⟩ := groupOf_groupingMap ro index db heap hk c p
  rw [hgo]
  by_cases hnil : g = []
  · simp [hnil]
  · simp only [hnil, if_false, Option.some.injEq]
    constructor
    · intro h; subst h; exact ⟨hnil, g, hg, rfl, rfl⟩
    · rintro ⟨_, g', _, h1, h2⟩
      rw [h1, h2]

theorem visited_group (ro : RangeOrder) (index : List (String × List vocabulary))
    (db : List (String × Ptr)) (heap : Heap) (hk : (db.map Prod.fst).Nodup)
    {c : String} {p : Int} {chars : List Ptr}
    (h : (c, p, chars) ∈ visited ro (groupingMap ro index db heap)) :
    chars ≠ [] ∧ chars.Perm ((contributors index db heap c p).map Prod.snd) := by
  obtain ⟨hne, g, hg, h1, _⟩ := (mem_visited ro index db heap hk).1 h
  exact ⟨hne, h1 ▸ hg⟩

theorem visited_of_contributors (ro : RangeOrder) (index : List (String × List vocabulary))
    (db : List (String × Ptr)) (heap : Heap) (hk : (db.map Prod.fst).Nodup)
    (c : String) (p : Int) (h : contributors index db heap c p ≠ []) :
    ∃ chars, (c, p, chars) ∈ visited ro (groupingMap ro index db heap) := by
  obtain ⟨g, hg, hgo⟩ := groupOf_groupingMap ro index db heap hk c p
  have hnil : g ≠ [] := by
    intro h0
    rw [h0] at hg
    have := hg.symm.eq_nil
    exact h (List.map_eq_nil_iff.1 this)
  refine ⟨g, (mem_visited ro index db heap hk).2 ⟨hnil, g, hg, rfl, ?_⟩⟩
  rw [hgo]; simp [hnil]

theorem visited_keys_nodup (ro : RangeOrder) (m : List (String × List (Int × List Ptr)))
    (h : GroupsWF m) : ((visited ro m).map (fun t => (t.1, t.2.1))).Nodup :=
  (((visited_perm ro m).map _).nodup_iff).2 (triples_keys_nodup h)

/-- In a list whose keys are pairwise distinct, an element is the only one with
its key. -/
theorem filter_key_eq_singleton {α κ : Type} [DecidableEq κ] (key : α → κ) {l : List α}
    (hnd : (l.map key).Nodup) {x : α} (hx : x ∈ l) :
    l.filter (fun y => decide (key y = key x)) = [x] := by
  induction l with
  | nil => cases hx
  | cons a as ih =>
    rw [List.map_cons, List.nodup_cons] at hnd
    rcases List.mem_cons.1 hx with rfl | hx'
    · have : as.filter (fun y => decide (key y = key x)) = [] := by
        rw [List.filter_eq_nil_iff]
        intro y hy hkey
        simp only [decide_eq_true_eq] at hkey
        exact hnd.1 (hkey ▸ List.mem_map_of_mem key hy)
      simp [List.filter_cons, this]
    · have hne : ¬ key a = key x := by
        intro hkey
        exact hnd.1 (hkey ▸ List.mem_map_of_mem key hx')
      simp [List.filter_cons, hne, ih hnd.2 hx']

theorem bigGroups_keys_nodup {T : List (String × Int × List Ptr)}
    (h : (T.map (fun t => (t.1, t.2.1))).Nodup) :
    ((bigGroups T).map (fun cl => (cl.component, cl.position))).Nodup := by
  unfold bigGroups
  rw [List.map_map]
  exact (List.Sublist.map _ (List.filter_sublist _)).nodup h

theorem eq_of_snd_eq {db : List (String × Ptr)} (h : (db.map Prod.snd).Nodup)
    {e e' : String × Ptr} (he : e ∈ db) (he' : e' ∈ db) (heq : e.2 = e'.2) : e = e' :=
  List.inj_on_of_nodup_map h he he' heq

theorem forall₂_mem_right {α β : Type} {R : α → β → Prop} {l : List α} {l' : List β}
    (h : List.Forall₂ R l l') {b : β} (hb : b ∈ l') : ∃ a ∈ l, R a b := by
  induction h with
  | nil => cases hb
  | cons hab _ ih =>
    rcases List.mem_cons.1 hb with rfl | hm
    · exact ⟨_, List.mem_cons_self _ _, hab⟩
    · obtain ⟨a, ha, hR⟩ := ih hm
      exact ⟨a, List.mem_cons_of_mem _ ha, hR⟩

theorem mem_smallGroups_of_singleton {T : List (String × Int × List Ptr)}
    {t : String × Int × List Ptr} {char : Ptr} (ht : t ∈ T) (h : t.2.2 = [char]) :
    char ∈ smallGroups T := by
  unfold smallGroups
  rw [List.mem_filterMap]
  exact ⟨t, ht, by simp [h]⟩

theorem smallGroups_length {T : List (String × Int × List Ptr)} (h : ∀ t ∈ T, t.2.2 ≠ []) :
    (smallGroups T).length = (T.filter (fun t => decide (t.2.2.length < 2))).length := by
  induction T with
  | nil => rfl
  | cons t ts ih =>
    have ih' := ih (fun t' ht' => h t' (List.mem_cons_of_mem _ ht'))
    have hne := h t (List.mem_cons_self _ _)
    obtain ⟨c, p, chars⟩ := t
    cases chars with
    | nil => exact absurd rfl hne
    | cons x xs =>
      unfold smallGroups at ih' ⊢
      by_cases hlt : xs.length + 1 < 2
      · simp [List.filterMap_cons, List.filter_cons, hlt, ih']
      · simp [List.filterMap_cons, List.filter_cons, hlt, ih']

/-! ## loadSourceVocabulary -/

theorem indexCharacter_eq (vocab : vocabulary) (m : List (String × List vocabulary))
    (char : String) :
    indexCharacter vocab m char = mapSet m char ((mapGet m char).getD [] ++ [vocab]) := by
  unfold indexCharacter
  cases h : mapGet m char with
  | none => simp [h, mapSet_mapSet, mapGet_mapSet]
  | some v => simp [h]

theorem indexCharacter_nonempty (vocab : vocabulary) (m : List (String × List vocabulary))
    (char : String) (h : ∀ e ∈ m, e.2 ≠ []) :
    ∀ e ∈ indexCharacter vocab m char, e.2 ≠ [] := by
  rw [indexCharacter_eq]
  intro e he
  rcases mem_mapSet he with rfl | he
  · simp
  · exact h e he

theorem foldl_indexCharacter_nonempty (vocab : vocabulary) (characters : List String)
    (m : List (String × List vocabulary)) (h : ∀ e ∈ m, e.2 ≠ []) :
    ∀ e ∈ characters.foldl (indexCharacter vocab) m, e.2 ≠ [] := by
  induction characters generalizing m with
  | nil => exact h
  | cons c cs ih =>
    rw [List.foldl_cons]
    exact ih _ (indexCharacter_nonempty vocab m c h)

theorem indexRow_nonempty (ro : RangeOrder)
    (st : List vocabulary × List (String × List vocabulary)) (r : Nat × List String)
    (h : ∀ e ∈ st.2, e.2 ≠ []) : ∀ e ∈ (indexRow ro st r).2, e.2 ≠ [] := by
  unfold indexRow
  simp only []
  split
  · exact foldl_indexCharacter_nonempty _ _ _ h
  · exact h

theorem foldl_indexRow_nonempty (ro : RangeOrder) (rows : List (Nat × List String))
    (st : List vocabulary × List (String × List vocabulary))
    (h : ∀ e ∈ st.2, e.2 ≠ []) : ∀ e ∈ (rows.foldl (indexRow ro) st).2, e.2 ≠ [] := by
  induction rows generalizing st with
  | nil => exact h
  | cons r rs ih =>
    rw [List.foldl_cons]
    exact ih _ (indexRow_nonempty ro st r h)

theorem loadSourceVocabulary_nonempty (ro : RangeOrder) (values : List (List String)) :
    ∀ e ∈ loadSourceVocabulary ro values, e.2 ≠ [] :=
  foldl_indexRow_nonempty ro _ _ (fun e he => by cases he)

/-! ## getComponentsAndPositions -/

/-- C2: for a record whose right component is neither the sentinel nor the left
component, the extractor returns the mapping of the table for its composition
type, and the empty mapping for any other composition type. -/
theorem getComponentsAndPositions_table (char : character)
    (hstar : char.rightComponent ≠ "*") (hne : char.rightComponent ≠ char.leftComponent) :
    (char.compositionType = compositionTypeGraphicalPrimitive →
      getComponentsAndPositions char = [(char.leftComponent, [positionPrimitive])]) ∧
    (char.compositionType = compositionTypeHorizontal →
      getComponentsAndPositions char =
        [(char.leftComponent, [positionLeft]), (char.rightComponent, [positionRight])]) ∧
    (char.compositionType = compositionTypeVertical →
      getComponentsAndPositions char =
        [(char.leftComponent, [positionTop]), (char.rightComponent, [positionBottom])]) ∧
    (char.compositionType = compositionTypeVerticalSeparated →
      getComponentsAndPositions char =
        [(char.leftComponent, [positionTop]), (char.rightComponent, [positionBottom])]) ∧
    (char.compositionType = compositionTypeInclusion →
      getComponentsAndPositions char =
        [(char.leftComponent, [positionOuter]), (char.rightComponent, [positionInner])]) ∧
    (char.compositionType = compositionTypeVerticalRepetition →
      getComponentsAndPositions char =
        [(char.leftComponent, [positionTopRepeated]), (char.rightComponent, [positionBottom])]) ∧
    (char.compositionType = compositionTypeHorizontalOfThree →
      getComponentsAndPositions char =
        [(char.leftComponent, [positionLeft, positionRight]),
         (char.rightComponent, [positionMiddle])]) ∧
    (char.compositionType = compositionTypeRepetitionOfThree →
      getComponentsAndPositions char = [(char.leftComponent, [positionTop])]) ∧
    (char.compositionType = compositionTypeRepetitionOfFour →
      getComponentsAndPositions char = [(char.leftComponent, [positionTopRepeated])]) ∧
    (char.compositionType = compositionTypeSuperposition →
      getComponentsAndPositions char =
        [(char.leftComponent, [positionSuperPrimary]),
         (char.rightComponent, [positionSuperSecondary])]) ∧
    (char.compositionType ∉
        [compositionTypeGraphicalPrimitive, compositionTypeHorizontal, compositionTypeVertical,
         compositionTypeInclusion, compositionTypeVerticalRepetition,
         compositionTypeHorizontalOfThree, compositionTypeRepetitionOfThree,
         compositionTypeRepetitionOfFour, compositionTypeVerticalSeparated,
         compositionTypeSuperposition] →
      getComponentsAndPositions char = []) := by
  have hne' : ¬ char.leftComponent = char.rightComponent := fun h => hne h.symm
  refine ⟨?_, ?_, ?_, ?_, ?_, ?_, ?_, ?_, ?_, ?_, ?_⟩ <;> intro h
  all_goals
    simp [compositionTypeGraphicalPrimitive, compositionTypeHorizontal, compositionTypeVertical,
      compositionTypeInclusion, compositionTypeVerticalRepetition,
      compositionTypeHorizontalOfThree, compositionTypeRepetitionOfThree,
      compositionTypeRepetitionOfFour, compositionTypeVerticalSeparated,
      compositionTypeSuperposition] at h
  all_goals
    simp [getComponentsAndPositions, h, hstar, hne', mapSet,
      compositionTypeGraphicalPrimitive, compositionTypeHorizontal, compositionTypeVertical,
      compositionTypeInclusion, compositionTypeVerticalRepetition,
      compositionTypeHorizontalOfThree, compositionTypeRepetitionOfThree,
      compositionTypeRepetitionOfFour, compositionTypeVerticalSeparated,
      compositionTypeSuperposition]

/-- Witness of C2 on the HorizontalOfThree record of the specification. -/
theorem getComponentsAndPositions_table_witness :
    getComponentsAndPositions (sampleRecord "彬" compositionTypeHorizontalOfThree "木" "二" 11)
      = [("木", [positionLeft, positionRight]), ("二", [positionMiddle])] :=
  (getComponentsAndPositions_table
    (sampleRecord "彬" compositionTypeHorizontalOfThree "木" "二" 11)
    (by decide) (by decide)).2.2.2.2.2.2.1 rfl

/-- C3 (failing input): on a Horizontal record whose two slots both hold "木" the
write for the right slot replaces the entry of the left slot, so "木" is mapped
to Right only and the position Left is lost. -/
theorem getComponentsAndPositions_same_slots :
    getComponentsAndPositions (sampleRecord "林" compositionTypeHorizontal "木" "木" 8)
        = [("木", [positionRight])] ∧
      positionLeft ∉ (mapGet (getComponentsAndPositions
        (sampleRecord "林" compositionTypeHorizontal "木" "木" 8)) "木").getD [] := by
  decide

/-- C4: when the right component is the sentinel "*", nothing is contributed
for the right slot: the result is empty for an unrecognised composition type and
otherwise maps the left component alone to the left-column positions of the
table. -/
theorem getComponentsAndPositions_sentinel (char : character)
    (hstar : char.rightComponent = "*") :
    (char.compositionType = compositionTypeGraphicalPrimitive →
      getComponentsAndPositions char = [(char.leftComponent, [positionPrimitive])]) ∧
    (char.compositionType = compositionTypeHorizontal →
      getComponentsAndPositions char = [(char.leftComponent, [positionLeft])]) ∧
    (char.compositionType = compositionTypeVertical →
      getComponentsAndPositions char = [(char.leftComponent, [positionTop])]) ∧
    (char.compositionType = compositionTypeVerticalSeparated →
      getComponentsAndPositions char = [(char.leftComponent, [positionTop])]) ∧
    (char.compositionType = compositionTypeInclusion →
      getComponentsAndPositions char = [(char.leftComponent, [positionOuter])]) ∧
    (char.compositionType = compositionTypeVerticalRepetition →
      getComponentsAndPositions char = [(char.leftComponent, [positionTopRepeated])]) ∧
    (char.compositionType = compositionTypeHorizontalOfThree →
      getComponentsAndPositions char = [(char.leftComponent, [positionLeft, positionRight])]) ∧
    (char.compositionType = compositionTypeRepetitionOfThree →
      getComponentsAndPositions char = [(char.leftComponent, [positionTop])]) ∧
    (char.compositionType = compositionTypeRepetitionOfFour →
      getComponentsAndPositions char = [(char.leftComponent, [positionTopRepeated])]) ∧
    (char.compositionType = compositionTypeSuperposition →
      getComponentsAndPositions char = [(char.leftComponent, [positionSuperPrimary])]) ∧
    (char.compositionType ∉
        [compositionTypeGraphicalPrimitive, compositionTypeHorizontal, compositionTypeVertical,
         compositionTypeInclusion, compositionTypeVerticalRepetition,
         compositionTypeHorizontalOfThree, compositionTypeRepetitionOfThree,
         compositionTypeRepetitionOfFour, compositionTypeVerticalSeparated,
         compositionTypeSuperposition] →
      getComponentsAndPositions char = []) := by
  refine ⟨?_, ?_, ?_, ?_, ?_, ?_, ?_, ?_, ?_, ?_, ?_⟩ <;> intro h
  all_goals
    simp [compositionTypeGraphicalPrimitive, compositionTypeHorizontal, compositionTypeVertical,
      compositionTypeInclusion, compositionTypeVerticalRepetition,
      compositionTypeHorizontalOfThree, compositionTypeRepetitionOfThree,
      compositionTypeRepetitionOfFour, compositionTypeVerticalSeparated,
      compositionTypeSuperposition] at h
  all_goals
    simp [getComponentsAndPositions, h, hstar, mapSet,
      compositionTypeGraphicalPrimitive, compositionTypeHorizontal, compositionTypeVertical,
      compositionTypeInclusion, compositionTypeVerticalRepetition,
      compositionTypeHorizontalOfThree, compositionTypeRepetitionOfThree,
      compositionTypeRepetitionOfFour, compositionTypeVerticalSeparated,
      compositionTypeSuperposition]

/-- Witness of C4 on a Horizontal record without right component. -/
theorem getComponentsAndPositions_sentinel_witness :
    getComponentsAndPositions (sampleRecord "亻" compositionTypeHorizontal "人" "*" 2)
      = [("人", [positionLeft])] :=
  (getComponentsAndPositions_sentinel
    (sampleRecord "亻" compositionTypeHorizontal "人" "*" 2) rfl).2.1 rfl

/-- C5: a Primitive record yields exactly the pair (leftComponent, Primitive),
whatever its right component. -/
theorem getComponentsAndPositions_primitive (char : character)
    (h : char.compositionType = compositionTypeGraphicalPrimitive) :
    getComponentsAndPositions char = [(char.leftComponent, [positionPrimitive])] := by
  simp [getComponentsAndPositions, h, mapSet,
      compositionTypeGraphicalPrimitive, compositionTypeHorizontal, compositionTypeVertical,
      compositionTypeInclusion, compositionTypeVerticalRepetition,
      compositionTypeHorizontalOfThree, compositionTypeRepetitionOfThree,
      compositionTypeRepetitionOfFour, compositionTypeVerticalSeparated,
      compositionTypeSuperposition]

/-- Witness of C5 on a Primitive record whose right component is not the
sentinel and equals the left component. -/
theorem getComponentsAndPositions_primitive_witness :
    getComponentsAndPositions (sampleRecord "木" compositionTypeGraphicalPrimitive "木" "木" 4)
      = [("木", [positionPrimitive])] :=
  getComponentsAndPositions_primitive
    (sampleRecord "木" compositionTypeGraphicalPrimitive "木" "木" 4) rfl


/-! ## sortClusters -/

theorem strictWeak_lt_key {α β : Type} [LinearOrder β] (f : α → β) :
    StrictWeak (fun a b => decide (f a < f b)) := by
  constructor
  · intro a b h
    simp only [decide_eq_true_eq, decide_eq_false_iff_not, not_lt] at h ⊢
    exact le_of_lt h
  · intro a b c h1 h2
    simp only [decide_eq_false_iff_not, not_lt] at h1 h2 ⊢
    exact le_trans h2 h1

theorem strictWeak_gt_key {α β : Type} [LinearOrder β] (f : α → β) :
    StrictWeak (fun a b => decide (f a > f b)) := by
  constructor
  · intro a b h
    simp only [gt_iff_lt, decide_eq_true_eq, decide_eq_false_iff_not, not_lt] at h ⊢
    exact le_of_lt h
  · intro a b c h1 h2
    simp only [gt_iff_lt, decide_eq_false_iff_not, not_lt] at h1 h2 ⊢
    exact le_trans h1 h2

theorem sortVocabulary_strokes (ss : SliceSort) (heap : Heap) (char p : Ptr) :
    (sortVocabulary ss heap char p).strokes = (heap p).strokes := by
  unfold sortVocabulary Heap.set
  by_cases h : p = char
  · simp [h]
  · simp [h]

theorem foldl_sortVocabulary_strokes (ss : SliceSort) (chars : List Ptr) (heap : Heap) (p : Ptr) :
    (chars.foldl (sortVocabulary ss) heap p).strokes = (heap p).strokes := by
  induction chars generalizing heap with
  | nil => rfl
  | cons c cs ih => rw [List.foldl_cons, ih, sortVocabulary_strokes]

theorem foldl_sortCluster (ss : SliceSort) (heap0 : Heap) (cs : List cluster)
    (acc : List cluster) (heap : Heap) (hs : ∀ p, (heap p).strokes = (heap0 p).strokes) :
    ∃ rest, (cs.foldl (sortCluster ss) (acc, heap)).1 = acc ++ rest ∧
      List.Forall₂ (SortedFrom heap0) cs rest ∧
      ∀ p, ((cs.foldl (sortCluster ss) (acc, heap)).2 p).strokes = (heap0 p).strokes := by
  induction cs generalizing acc heap with
  | nil => exact ⟨[], by simp, List.Forall₂.nil, hs⟩
  | cons c cs ih =>
    rw [List.foldl_cons]
    have hs' : ∀ p, ((sortCluster ss (acc, heap) c).2 p).strokes = (heap0 p).strokes := by
      intro p
      simp only [sortCluster]
      rw [foldl_sortVocabulary_strokes, hs]
    obtain ⟨rest, h1, h2, h3⟩ := ih (sortCluster ss (acc, heap) c).1 (sortCluster ss (acc, heap) c).2 hs'
    refine ⟨(cluster.mk c.component c.position
        (ss.sort (fun a b => decide ((heap a).strokes < (heap b).strokes)) c.characters)) :: rest,
      ?_, List.Forall₂.cons ?_ h2, h3⟩
    · rw [h1]; simp [sortCluster]
    · refine ⟨rfl, rfl, ss.perm _ _, ?_⟩
      have := ss.sorted (fun a b => decide ((heap a).strokes < (heap b).strokes)) c.characters
        (strictWeak_lt_key (fun a => (heap a).strokes))
      refine this.imp ?_
      intro a b hab
      simp only [decide_eq_false_iff_not, not_lt] at hab
      rw [← hs a, ← hs b]; exact hab

theorem sortClusters_spec (ss : SliceSort) (clusters : List cluster) (heap : Heap) :
    ∃ l, l.Perm clusters ∧
      l.Pairwise (fun a b => b.characters.length ≤ a.characters.length) ∧
      List.Forall₂ (SortedFrom heap) l (sortClusters ss clusters heap).1 ∧
      ∀ p, ((sortClusters ss clusters heap).2 p).strokes = (heap p).strokes := by
  obtain ⟨rest, h1, h2, h3⟩ := foldl_sortCluster ss heap
    (ss.sort (fun a b => decide (a.characters.length > b.characters.length)) clusters) []
    heap (fun _ => rfl)
  refine ⟨ss.sort (fun a b => decide (a.characters.length > b.characters.length)) clusters,
    ss.perm _ _, ?_, ?_, h3⟩
  · have := ss.sorted (fun a b : cluster => decide (a.characters.length > b.characters.length))
      clusters (strictWeak_gt_key (fun a : cluster => a.characters.length))
    refine this.imp ?_
    intro a b hab
    simpa using hab
  · simp only [sortClusters]
    rw [h1]; simpa using h2

theorem forall₂_pairwise_length {heap : Heap} {l l' : List cluster}
    (h : List.Forall₂ (SortedFrom heap) l l')
    (hp : l.Pairwise (fun a b => b.characters.length ≤ a.characters.length)) :
    l'.Pairwise (fun a b => b.characters.length ≤ a.characters.length) := by
  induction h with
  | nil => exact List.Pairwise.nil
  | cons hab _ ih =>
    rename_i a b l l' hrest
    rw [List.pairwise_cons] at hp ⊢
    refine ⟨?_, ih hp.2⟩
    intro b' hb'
    obtain ⟨a', ha', hR⟩ : ∃ a' ∈ l, SortedFrom heap a' b' := by
      clear ih hp
      induction hrest with
      | nil => cases hb'
      | cons hxy _ ih2 =>
        rcases List.mem_cons.1 hb' with rfl | hm
        · exact ⟨_, List.mem_cons_self _ _, hxy⟩
        · obtain ⟨a', ha', hR⟩ := ih2 hm
          exact ⟨a', List.mem_cons_of_mem _ ha', hR⟩
    rw [hR.2.2.1.length_eq, hab.2.2.1.length_eq]
    exact hp.1 a' ha'

/-- C9: after `sortClusters` the cluster list is a rearrangement of the input
list (each cluster keeping its component, position and members) in which the
member counts are non-increasing. -/
theorem sortClusters_clusters_by_size (ss : SliceSort) (clusters : List cluster) (heap : Heap) :
    (∃ l, l.Perm clusters ∧
      List.Forall₂ (fun c c' => c'.component = c.component ∧ c'.position = c.position ∧
        c'.characters.Perm c.characters) l (sortClusters ss clusters heap).1) ∧
    (sortClusters ss clusters heap).1.Pairwise
      (fun a b => b.characters.length ≤ a.characters.length) := by
  obtain ⟨l, h1, h2, h3, _⟩ := sortClusters_spec ss clusters heap
  refine ⟨⟨l, h1, h3.imp ?_⟩, forall₂_pairwise_length h3 h2⟩
  intro c c' h
  exact ⟨h.1, h.2.1, h.2.2.1⟩

/-- C10: after `sortClusters` each cluster has its component and position
unchanged and its character list is a permutation of the one before the call,
in non-decreasing stroke count; stroke counts themselves are not modified. -/
theorem sortClusters_characters_by_strokes (ss : SliceSort) (clusters : List cluster)
    (heap : Heap) :
    (∃ l, l.Perm clusters ∧
      List.Forall₂ (fun c c' => c'.component = c.component ∧ c'.position = c.position ∧
        c'.characters.Perm c.characters ∧
        c'.characters.Pairwise (fun p q => (heap p).strokes ≤ (heap q).strokes))
        l (sortClusters ss clusters heap).1) ∧
    ∀ p, ((sortClusters ss clusters heap).2 p).strokes = (heap p).strokes := by
  obtain ⟨l, h1, _, h3, h4⟩ := sortClusters_spec ss clusters heap
  exact ⟨⟨l, h1, h3⟩, h4⟩


/-! ## makeClusters -/

/-- C1: a cluster for (component, position) is returned exactly when at least
two catalog characters whose key is in the index contribute that pair; it is
then the only cluster for the pair, its members are those characters, each
once, and a catalog character that does not contribute the pair (such as the
character that merely is the component) is not among them. -/
theorem makeClusters_cluster_iff (ro : RangeOrder)
    (charactersToVocabulary : List (String × List vocabulary))
    (characterDB : List (String × Ptr)) (heap : Heap) (hwf : CatalogWF characterDB)
    (component : String) (position : Int) :
    ∃ out, makeClusters ro charactersToVocabulary characterDB heap = some out ∧
      ((∃ cl ∈ out.clusters, cl.component = component ∧ cl.position = position) ↔
        2 ≤ (contributors charactersToVocabulary characterDB heap component position).length) ∧
      (2 ≤ (contributors charactersToVocabulary characterDB heap component position).length →
        ∃ cl, out.clusters.filter
            (fun cl => decide (cl.component = component ∧ cl.position = position)) = [cl] ∧
          cl.characters.Perm
            ((contributors charactersToVocabulary characterDB heap component position).map
              Prod.snd) ∧
          cl.characters.Nodup) ∧
      (∀ cl ∈ out.clusters, cl.component = component → cl.position = position →
        ∀ e ∈ characterDB,
          e ∉ contributors charactersToVocabulary characterDB heap component position →
          e.2 ∉ cl.characters) := by
  refine ⟨_, makeClusters_eq ro charactersToVocabulary characterDB heap, ?_, ?_, ?_⟩
  · simp only []
    constructor
    · rintro ⟨cl, hcl, hc, hp⟩
      obtain ⟨hmem, hlen⟩ := mem_bigGroups.1 hcl
      rw [hc, hp] at hmem
      have := (visited_group ro charactersToVocabulary characterDB heap hwf.1 hmem).2
      rw [← List.length_map _ Prod.snd, ← this.length_eq]
      exact hlen
    · intro hlen
      have hne : contributors charactersToVocabulary characterDB heap component position ≠ [] := by
        intro h0; rw [h0] at hlen; simp at hlen
      obtain ⟨chars, hmem⟩ :=
        visited_of_contributors ro charactersToVocabulary characterDB heap hwf.1 _ _ hne
      have hperm := (visited_group ro charactersToVocabulary characterDB heap hwf.1 hmem).2
      refine ⟨⟨component, position, chars⟩, mem_bigGroups.2 ⟨hmem, ?_⟩, rfl, rfl⟩
      simp only [hperm.length_eq, List.length_map]
      exact hlen
  · intro hlen
    simp only []
    have hne : contributors charactersToVocabulary characterDB heap component position ≠ [] := by
      intro h0; rw [h0] at hlen; simp at hlen
    obtain ⟨chars, hmem⟩ :=
      visited_of_contributors ro charactersToVocabulary characterDB heap hwf.1 _ _ hne
    have hperm := (visited_group ro charactersToVocabulary characterDB heap hwf.1 hmem).2
    have hcl : (⟨component, position, chars⟩ : cluster) ∈ bigGroups
        (visited ro (groupingMap ro charactersToVocabulary characterDB heap)) := by
      refine mem_bigGroups.2 ⟨hmem, ?_⟩
      simp only [hperm.length_eq, List.length_map]
      exact hlen
    refine ⟨⟨component, position, chars⟩, ?_, hperm, ?_⟩
    · have hnd := bigGroups_keys_nodup (visited_keys_nodup ro _
        (groupingMap_groups ro charactersToVocabulary characterDB heap).1)
      have := filter_key_eq_singleton (fun cl : cluster => (cl.component, cl.position)) hnd hcl
      rw [← this]
      congr 1
      funext cl
      simp
    · refine hperm.nodup_iff.2 ?_
      exact (List.Sublist.map _ (List.filter_sublist _)).nodup hwf.2
  · intro cl hcl hc hp e he hhas hin
    simp only [] at hcl
    obtain ⟨hmem, _⟩ := mem_bigGroups.1 hcl
    rw [hc, hp] at hmem
    have hperm := (visited_group ro charactersToVocabulary characterDB heap hwf.1 hmem).2
    have := hperm.mem_iff.1 hin
    simp only [List.mem_map] at this
    obtain ⟨e', he', heq⟩ := this
    have hdb : e' ∈ characterDB := (List.mem_filter.1 he').1
    have hee : e' = e := eq_of_snd_eq hwf.2 hdb he heq
    rw [hee] at he'
    exact hhas he'

/-- Witness of C1 on the round-trip scenario, for the pair (木, Left). -/
theorem makeClusters_cluster_iff_witness :
    CatalogWF sampleCatalog ∧
      ∃ out, makeClusters RangeOrder.insertion
          (loadSourceVocabulary RangeOrder.insertion sampleRows) sampleCatalog sampleHeap
            = some out ∧
        ((∃ cl ∈ out.clusters, cl.component = "木" ∧ cl.position = positionLeft) ↔
          2 ≤ (contributors (loadSourceVocabulary RangeOrder.insertion sampleRows)
            sampleCatalog sampleHeap "木" positionLeft).length) :=
  ⟨⟨by decide, by decide⟩,
    (makeClusters_cluster_iff RangeOrder.insertion
      (loadSourceVocabulary RangeOrder.insertion sampleRows) sampleCatalog sampleHeap
      ⟨by decide, by decide⟩ "木" positionLeft).imp (fun _ h => ⟨h.1, h.2.1⟩)⟩

/-- C6: every cluster returned by `makeClusters` has at least two members, and
so has every cluster after `sortClusters`. -/
theorem makeClusters_cluster_size (ro : RangeOrder) (ss : SliceSort)
    (charactersToVocabulary : List (String × List vocabulary))
    (characterDB : List (String × Ptr)) (heap : Heap) :
    ∃ out, makeClusters ro charactersToVocabulary characterDB heap = some out ∧
      (∀ cl ∈ out.clusters, 2 ≤ cl.characters.length) ∧
      (∀ cl ∈ (sortClusters ss out.clusters out.heap).1, 2 ≤ cl.characters.length) := by
  refine ⟨_, makeClusters_eq ro charactersToVocabulary characterDB heap, ?_, ?_⟩
  · intro cl hcl
    exact (mem_bigGroups.1 hcl).2
  · intro cl hcl
    obtain ⟨l, hperm, _, hall, _⟩ := sortClusters_spec ss
      (bigGroups (visited ro (groupingMap ro charactersToVocabulary characterDB heap)))
      (attachedHeap ro charactersToVocabulary characterDB heap)
    obtain ⟨c, hc, hR⟩ := forall₂_mem_right hall hcl
    rw [hR.2.2.1.length_eq]
    exact (mem_bigGroups.1 (hperm.mem_iff.1 hc)).2

/-- C7: a pair contributed by exactly one catalog character with vocabulary has
no cluster and its character is in the isolated list; every isolated character
is the sole contributor of some pair; the isolated list is as long as the list
of the pairs that have exactly one contributor. -/
theorem makeClusters_isolated (ro : RangeOrder)
    (charactersToVocabulary : List (String × List vocabulary))
    (characterDB : List (String × Ptr)) (heap : Heap)
    (hk : (characterDB.map Prod.fst).Nodup) :
    ∃ out, makeClusters ro charactersToVocabulary characterDB heap = some out ∧
      (∀ component position e,
        contributors charactersToVocabulary characterDB heap component position = [e] →
        (∀ cl ∈ out.clusters, ¬ (cl.component = component ∧ cl.position = position)) ∧
          e.2 ∈ out.isolatedCharacters) ∧
      (∀ char ∈ out.isolatedCharacters, ∃ component position e,
        contributors charactersToVocabulary characterDB heap component position = [e] ∧
          e.2 = char) ∧
      (∃ pairs : List (String × Int), pairs.Nodup ∧
        (∀ component position, (component, position) ∈ pairs ↔
          (contributors charactersToVocabulary characterDB heap component position).length
            = 1) ∧
        out.isolatedCharacters.length = pairs.length) := by
  refine ⟨_, makeClusters_eq ro charactersToVocabulary characterDB heap, ?_, ?_, ?_⟩
  · intro component position e he
    simp only []
    constructor
    · rintro cl hcl ⟨hc, hp⟩
      obtain ⟨hmem, hlen⟩ := mem_bigGroups.1 hcl
      rw [hc, hp] at hmem
      have := (visited_group ro charactersToVocabulary characterDB heap hk hmem).2
      rw [this.length_eq, he] at hlen
      simp at hlen
    · have hne : contributors charactersToVocabulary characterDB heap component position ≠ [] := by
        rw [he]; simp
      obtain ⟨chars, hmem⟩ :=
        visited_of_contributors ro charactersToVocabulary characterDB heap hk _ _ hne
      have hperm := (visited_group ro charactersToVocabulary characterDB heap hk hmem).2
      rw [he] at hperm
      exact mem_smallGroups_of_singleton hmem (List.perm_singleton.1 hperm)
  · intro char hchar
    simp only [] at hchar
    obtain ⟨⟨c, p, chars⟩, ht, hsingle⟩ := mem_smallGroups hchar
    simp only at hsingle
    subst hsingle
    have hperm := (visited_group ro charactersToVocabulary characterDB heap hk ht).2
    have h1 := List.singleton_perm.1 hperm
    cases hcon : contributors charactersToVocabulary characterDB heap c p with
    | nil => rw [hcon] at h1; simp at h1
    | cons e es =>
      rw [hcon] at h1
      simp only [List.map_cons, List.cons.injEq] at h1
      have hes : es = [] := List.map_eq_nil_iff.1 h1.2.symm
      refine ⟨c, p, e, ?_, h1.1.symm⟩
      rw [hcon, hes]
  · refine ⟨((visited ro (groupingMap ro charactersToVocabulary characterDB heap)).filter
      (fun t => decide (t.2.2.length < 2))).map (fun t => (t.1, t.2.1)), ?_, ?_, ?_⟩
    · exact (List.Sublist.map _ (List.filter_sublist _)).nodup
        (visited_keys_nodup ro _
          (groupingMap_groups ro charactersToVocabulary characterDB heap).1)
    · intro component position
      simp only [List.mem_map, List.mem_filter, decide_eq_true_eq, Prod.mk.injEq]
      constructor
      · rintro ⟨⟨c, p, chars⟩, ⟨ht, hlt⟩, h1, h2⟩
        simp only at h1 h2 hlt
        subst h1; subst h2
        obtain ⟨hne, hperm⟩ := visited_group ro charactersToVocabulary characterDB heap hk ht
        have hlen := hperm.length_eq
        rw [List.length_map] at hlen
        have hpos : 0 < chars.length := List.length_pos.2 hne
        omega
      · intro hlen
        have hne : contributors charactersToVocabulary characterDB heap component position ≠ [] := by
          intro h0; rw [h0] at hlen; simp at hlen
        obtain ⟨chars, hmem⟩ :=
          visited_of_contributors ro charactersToVocabulary characterDB heap hk _ _ hne
        have hperm := (visited_group ro charactersToVocabulary characterDB heap hk hmem).2
        refine ⟨(component, position, chars), ⟨hmem, ?_⟩, rfl, rfl⟩
        simp only [hperm.length_eq, List.length_map, hlen]
        decide
    · simp only [List.length_map]
      refine smallGroups_length ?_
      intro t ht
      exact triples_nonempty (groupingMap_groups ro charactersToVocabulary characterDB heap).2 t
        ((visited_perm ro _).mem_iff.1 ht)

/-- Witness of C7 on the round-trip scenario. -/
theorem makeClusters_isolated_witness :
    (sampleCatalog.map Prod.fst).Nodup ∧
      ∃ out, makeClusters RangeOrder.insertion
          (loadSourceVocabulary RangeOrder.insertion sampleRows) sampleCatalog sampleHeap
            = some out ∧
        ∀ char ∈ out.isolatedCharacters, ∃ component position e,
          contributors (loadSourceVocabulary RangeOrder.insertion sampleRows)
            sampleCatalog sampleHeap component position = [e] ∧ e.2 = char :=
  ⟨by decide,
    (makeClusters_isolated RangeOrder.insertion
      (loadSourceVocabulary RangeOrder.insertion sampleRows) sampleCatalog sampleHeap
      (by decide)).imp (fun _ h => ⟨h.1, h.2.2.1⟩)⟩

/-- C8: with an index built by the indexing loop of `loadSourceVocabulary`,
every character placed in a cluster or in the isolated list has its catalog key
in the index, carries exactly the index's list for that key, and that list is
not empty; a catalog character whose key is absent from the index is placed
nowhere. -/
theorem makeClusters_vocabulary (ro order : RangeOrder) (values : List (List String))
    (characterDB : List (String × Ptr)) (heap : Heap) (hwf : CatalogWF characterDB) :
    ∃ out, makeClusters ro (loadSourceVocabulary order values) characterDB heap = some out ∧
      (∀ char, (char ∈ out.isolatedCharacters ∨ ∃ cl ∈ out.clusters, char ∈ cl.characters) →
        ∃ key entries, (key, char) ∈ characterDB ∧
          mapGet (loadSourceVocabulary order values) key = some entries ∧
          (out.heap char).vocabulary = entries ∧ entries ≠ []) ∧
      (∀ e ∈ characterDB, mapGet (loadSourceVocabulary order values) e.1 = none →
        e.2 ∉ out.isolatedCharacters ∧ ∀ cl ∈ out.clusters, e.2 ∉ cl.characters) := by
  have hgroup : ∀ char c p chars,
      (c, p, chars) ∈ visited ro
        (groupingMap ro (loadSourceVocabulary order values) characterDB heap) →
      char ∈ chars →
      ∃ key entries, (key, char) ∈ characterDB ∧
        mapGet (loadSourceVocabulary order values) key = some entries ∧
        (attachedHeap ro (loadSourceVocabulary order values) characterDB heap char).vocabulary
          = entries ∧ entries ≠ [] := by
    intro char c p chars ht hchar
    have hperm := (visited_group ro _ characterDB heap hwf.1 ht).2
    have := hperm.mem_iff.1 hchar
    simp only [List.mem_map] at this
    obtain ⟨⟨key, q⟩, he, heq⟩ := this
    simp only at heq
    subst heq
    unfold contributors at he
    rw [List.mem_filter] at he
    obtain ⟨hdb, hcond⟩ := he
    simp only [Bool.and_eq_true] at hcond
    cases hv : mapGet (loadSourceVocabulary order values) key with
    | none => rw [hv] at hcond; simp at hcond
    | some entries =>
      refine ⟨key, entries, hdb, hv, ?_, ?_⟩
      · unfold attachedHeap
        exact retainKnown_heap_vocabulary _ _ [] heap
          (((ro.characterDB_perm characterDB).map Prod.snd).nodup_iff.2 hwf.2)
          ((ro.characterDB_perm characterDB).mem_iff.2 hdb) hv
      · exact loadSourceVocabulary_nonempty order values _ (mem_of_mapGet hv)
  have hplaced : ∀ char,
      (char ∈ smallGroups (visited ro
          (groupingMap ro (loadSourceVocabulary order values) characterDB heap)) ∨
        ∃ cl ∈ bigGroups (visited ro
          (groupingMap ro (loadSourceVocabulary order values) characterDB heap)),
          char ∈ cl.characters) →
      ∃ key entries, (key, char) ∈ characterDB ∧
        mapGet (loadSourceVocabulary order values) key = some entries ∧
        (attachedHeap ro (loadSourceVocabulary order values) characterDB heap char).vocabulary
          = entries ∧ entries ≠ [] := by
    intro char hchar
    rcases hchar with hiso | ⟨cl, hcl, hmem⟩
    · obtain ⟨⟨c, p, chars⟩, ht, hsingle⟩ := mem_smallGroups hiso
      simp only at hsingle
      exact hgroup char c p chars ht (by rw [hsingle]; exact List.mem_singleton_self _)
    · exact hgroup char _ _ _ (mem_bigGroups.1 hcl).1 hmem
  refine ⟨_, makeClusters_eq ro _ characterDB heap, hplaced, ?_⟩
  intro e he hnone
  have key : ¬ (e.2 ∈ smallGroups (visited ro
          (groupingMap ro (loadSourceVocabulary order values) characterDB heap)) ∨
        ∃ cl ∈ bigGroups (visited ro
          (groupingMap ro (loadSourceVocabulary order values) characterDB heap)),
          e.2 ∈ cl.characters) := by
    intro h
    obtain ⟨k, entries, hdb, hv, _, _⟩ := hplaced e.2 h
    have hee : (k, e.2) = e := eq_of_snd_eq hwf.2 hdb he rfl
    rw [← hee] at hnone
    simp only at hnone
    rw [hnone] at hv
    cases hv
  exact ⟨fun h => key (Or.inl h), fun cl hcl hmem => key (Or.inr ⟨cl, hcl, hmem⟩)⟩

/-- Witness of C8 on the round-trip scenario. -/
theorem makeClusters_vocabulary_witness :
    CatalogWF sampleCatalog ∧
      ∃ out, makeClusters RangeOrder.insertion
          (loadSourceVocabulary RangeOrder.reversed sampleRows) sampleCatalog sampleHeap
            = some out ∧
        ∀ e ∈ sampleCatalog,
          mapGet (loadSourceVocabulary RangeOrder.reversed sampleRows) e.1 = none →
          e.2 ∉ out.isolatedCharacters ∧ ∀ cl ∈ out.clusters, e.2 ∉ cl.characters :=
  ⟨⟨by decide, by decide⟩,
    (makeClusters_vocabulary RangeOrder.insertion RangeOrder.reversed sampleRows sampleCatalog
      sampleHeap ⟨by decide, by decide⟩).imp (fun _ h => ⟨h.1, h.2.2⟩)⟩

/-! ## sortClusters: vocabulary and ties -/

theorem strictWeak_stringLess : StrictWeak (fun a b : vocabulary => stringLess a.term b.term) :=
  strictWeak_lt_key (fun a : vocabulary => a.term.toList)

theorem sortVocabulary_self (ss : SliceSort) (heap : Heap) (char : Ptr) :
    (sortVocabulary ss heap char char).vocabulary.Perm (heap char).vocabulary ∧
      TermSorted (sortVocabulary ss heap char char).vocabulary := by
  unfold sortVocabulary Heap.set
  simp only [if_true]
  exact ⟨ss.perm _ _, ss.sorted _ _ strictWeak_stringLess⟩

theorem sortVocabulary_other (ss : SliceSort) (heap : Heap) {char p : Ptr} (h : p ≠ char) :
    sortVocabulary ss heap char p = heap p := by
  unfold sortVocabulary Heap.set
  simp [h]

theorem sortVocabulary_perm (ss : SliceSort) (heap : Heap) (char p : Ptr) :
    (sortVocabulary ss heap char p).vocabulary.Perm (heap p).vocabulary := by
  by_cases h : p = char
  · subst h; exact (sortVocabulary_self ss heap p).1
  · rw [sortVocabulary_other ss heap h]

theorem sortVocabulary_sorted (ss : SliceSort) (heap : Heap) (char p : Ptr)
    (h : TermSorted (heap p).vocabulary) :
    TermSorted (sortVocabulary ss heap char p).vocabulary := by
  by_cases hp : p = char
  · subst hp; exact (sortVocabulary_self ss heap p).2
  · rw [sortVocabulary_other ss heap hp]; exact h

theorem foldl_sortVocabulary_vocabulary (ss : SliceSort) (chars : List Ptr) (heap : Heap)
    (p : Ptr) :
    (chars.foldl (sortVocabulary ss) heap p).vocabulary.Perm (heap p).vocabulary ∧
      (TermSorted (heap p).vocabulary ∨ p ∈ chars →
        TermSorted (chars.foldl (sortVocabulary ss) heap p).vocabulary) := by
  induction chars generalizing heap with
  | nil =>
    refine ⟨List.Perm.refl _, ?_⟩
    rintro (h | h)
    · exact h
    · cases h
  | cons c cs ih =>
    rw [List.foldl_cons]
    obtain ⟨h1, h2⟩ := ih (sortVocabulary ss heap c)
    refine ⟨h1.trans (sortVocabulary_perm ss heap c p), ?_⟩
    intro h
    apply h2
    rcases h with h | h
    · exact Or.inl (sortVocabulary_sorted ss heap c p h)
    · rcases List.mem_cons.1 h with rfl | h
      · exact Or.inl (sortVocabulary_self ss heap p).2
      · exact Or.inr h

theorem foldl_sortCluster_vocabulary (ss : SliceSort) (cs : List cluster)
    (acc : List cluster) (heap : Heap) (p : Ptr) :
    ((cs.foldl (sortCluster ss) (acc, heap)).2 p).vocabulary.Perm (heap p).vocabulary ∧
      (TermSorted (heap p).vocabulary ∨ (∃ c ∈ cs, p ∈ c.characters) →
        TermSorted ((cs.foldl (sortCluster ss) (acc, heap)).2 p).vocabulary) := by
  induction cs generalizing acc heap with
  | nil =>
    refine ⟨List.Perm.refl _, ?_⟩
    rintro (h | ⟨c, hc, _⟩)
    · exact h
    · cases hc
  | cons c cs ih =>
    rw [List.foldl_cons]
    obtain ⟨h1, h2⟩ := ih (sortCluster ss (acc, heap) c).1 (sortCluster ss (acc, heap) c).2
    have hstep := foldl_sortVocabulary_vocabulary ss
      (ss.sort (fun a b => decide ((heap a).strokes < (heap b).strokes)) c.characters) heap p
    have hheap : (sortCluster ss (acc, heap) c).2 =
        (ss.sort (fun a b => decide ((heap a).strokes < (heap b).strokes))
          c.characters).foldl (sortVocabulary ss) heap := rfl
    refine ⟨h1.trans (hheap ▸ hstep.1), ?_⟩
    intro h
    apply h2
    rw [hheap]
    rcases h with h | ⟨c', hc', hp⟩
    · exact Or.inl (hstep.2 (Or.inl h))
    · rcases List.mem_cons.1 hc' with rfl | hc'
      · exact Or.inl (hstep.2 (Or.inr ((ss.perm _ _).mem_iff.2 hp)))
      · exact Or.inr ⟨c', hc', hp⟩

theorem sortClusters_vocabulary (ss : SliceSort) (clusters : List cluster) (heap : Heap)
    (p : Ptr) :
    ((sortClusters ss clusters heap).2 p).vocabulary.Perm (heap p).vocabulary ∧
      ((∃ c ∈ clusters, p ∈ c.characters) →
        TermSorted ((sortClusters ss clusters heap).2 p).vocabulary) := by
  obtain ⟨h1, h2⟩ := foldl_sortCluster_vocabulary ss
    (ss.sort (fun a b => decide (a.characters.length > b.characters.length)) clusters)
    [] heap p
  refine ⟨h1, ?_⟩
  rintro ⟨c, hc, hp⟩
  exact h2 (Or.inr ⟨c, (ss.perm _ _).mem_iff.2 hc, hp⟩)

/-- C11: after `sortClusters` the vocabulary list of every character that is a
member of a cluster, of one or of several, is a permutation of its list before
the call, in non-decreasing order of term. -/
theorem sortClusters_vocabulary_by_term (ss : SliceSort) (clusters : List cluster)
    (heap : Heap) (c : cluster) (hc : c ∈ clusters) (p : Ptr) (hp : p ∈ c.characters) :
    ((sortClusters ss clusters heap).2 p).vocabulary.Perm (heap p).vocabulary ∧
      ((sortClusters ss clusters heap).2 p).vocabulary.Pairwise
        (fun a b => stringLess b.term a.term = false) :=
  ⟨(sortClusters_vocabulary ss clusters heap p).1,
    (sortClusters_vocabulary ss clusters heap p).2 ⟨c, hc, hp⟩⟩

/-- Witness of C11 on character 0 of the store with ties, a member of the
cluster 七. -/
theorem sortClusters_vocabulary_by_term_witness :
    ((sortClusters SliceSort.insertion tieClusters tieHeap).2 0).vocabulary.Perm
        (tieHeap 0).vocabulary ∧
      ((sortClusters SliceSort.insertion tieClusters tieHeap).2 0).vocabulary.Pairwise
        (fun a b => stringLess b.term a.term = false) :=
  sortClusters_vocabulary_by_term SliceSort.insertion tieClusters tieHeap
    ⟨"七", positionLeft, [0, 1, 2, 3, 4, 5, 6]⟩ (by decide) 0 (by decide)

/-! ## The library sort on thirteen elements: it sorts -/

theorem lessAt_eq {α : Type} (less : α → α → Bool) (l : List α) {i j : Nat} {u v : α}
    (hi : l[i]? = some u) (hj : l[j]? = some v) : lessAt less l i j = less u v := by
  simp only [lessAt, hi, hj]

theorem length_swapAt {α : Type} (l : List α) (i j : Nat) : (swapAt l i j).length = l.length := by
  unfold swapAt
  split <;> simp

theorem getElem?_swapAt {α : Type} (l : List α) {i j : Nat} (hi : i < l.length)
    (hj : j < l.length) (t : Nat) :
    (swapAt l i j)[t]? = if t = j then l[i]? else if t = i then l[j]? else l[t]? := by
  unfold swapAt
  rw [List.getElem?_eq_getElem hi, List.getElem?_eq_getElem hj]
  simp only
  rw [List.getElem?_set, List.getElem?_set]
  by_cases h1 : j = t
  · subst h1
    simp [hj]
  · by_cases h2 : i = t
    · subst h2
      simp [h1, hi, Ne.symm h1]
    · simp [h1, h2, Ne.symm h1, Ne.symm h2]

theorem scanUp_spec (lt : Nat → Nat → Bool) (a j : Nat) (fuel i : Nat) (hij : i ≤ j + 1)
    (hfuel : j + 1 - i ≤ fuel) :
    i ≤ scanUp lt a j fuel i ∧ scanUp lt a j fuel i ≤ j + 1 ∧
      (∀ t, i ≤ t → t < scanUp lt a j fuel i → lt t a = true) ∧
      (scanUp lt a j fuel i ≤ j → lt (scanUp lt a j fuel i) a = false) := by
  induction fuel generalizing i with
  | zero =>
    have : i = j + 1 := by omega
    subst this
    simp only [scanUp]
    exact ⟨le_refl _, le_refl _, fun t h1 h2 => by omega, fun h => by omega⟩
  | succ fuel ih =>
    simp only [scanUp]
    split
    · rename_i h
      obtain ⟨h1, h2, h3, h4⟩ := ih (i + 1) (by omega) (by omega)
      refine ⟨by omega, h2, ?_, h4⟩
      intro t ht1 ht2
      by_cases hti : t = i
      · rw [hti]; exact h.2
      · exact h3 t (by omega) ht2
    · rename_i h
      refine ⟨le_refl _, hij, fun t h1 h2 => by omega, ?_⟩
      intro hle
      cases hlt : lt i a
      · rfl
      · exact absurd ⟨hle, hlt⟩ h

theorem scanDown_spec (lt : Nat → Nat → Bool) (a i : Nat) (fuel j : Nat) (hij : i ≤ j + 1)
    (hi : 1 ≤ i) (hfuel : j + 1 - i ≤ fuel) :
    scanDown lt a i fuel j ≤ j ∧ i ≤ scanDown lt a i fuel j + 1 ∧
      (∀ t, scanDown lt a i fuel j < t → t ≤ j → lt t a = false) ∧
      (i ≤ scanDown lt a i fuel j → lt (scanDown lt a i fuel j) a = true) := by
  induction fuel generalizing j with
  | zero =>
    have : i = j + 1 := by omega
    subst this
    simp only [scanDown]
    exact ⟨le_refl _, le_refl _, fun t h1 h2 => by omega, fun h => by omega⟩
  | succ fuel ih =>
    simp only [scanDown]
    split
    · rename_i h
      obtain ⟨h1, h2, h3, h4⟩ := ih (j - 1) (by omega) (by omega)
      refine ⟨by omega, h2, ?_, h4⟩
      intro t ht1 ht2
      by_cases htj : t = j
      · rw [htj]; exact h.2
      · exact h3 t ht1 (by omega)
    · rename_i h
      refine ⟨le_refl _, hij, fun t h1 h2 => by omega, ?_⟩
      intro hle
      cases hlt : lt j a
      · exact absurd ⟨hle, hlt⟩ h
      · rfl

theorem partitionLoop_spec {α : Type} (less : α → α → Bool) (p : α) (fuel : Nat) (l : List α)
    (i j : Nat) (hinv : PartitionInv less p l i j) (hfuel : j + 1 - i ≤ fuel) :
    PartitionInv less p (partitionLoop less 0 fuel l i j).1
      ((partitionLoop less 0 fuel l i j).2 + 1) (partitionLoop less 0 fuel l i j).2 := by
  induction fuel generalizing l i j with
  | zero =>
    obtain ⟨h0, h1, h2, h3, h4, h5⟩ := hinv
    have : i = j + 1 := by omega
    subst this
    exact ⟨h0, by simp [partitionLoop], le_refl _, h3, h4, h5⟩
  | succ fuel ih =>
    obtain ⟨h0, h1, h2, h3, h4, h5⟩ := hinv
    simp only [partitionLoop]
    have hu := scanUp_spec (lessAt less l) 0 j l.length i h2 (by omega)
    generalize scanUp (lessAt less l) 0 j l.length i = i1 at hu ⊢
    obtain ⟨hu1, hu2, hu3, hu4⟩ := hu
    have hd := scanDown_spec (lessAt less l) 0 i1 l.length j hu2 (by omega) (by omega)
    generalize scanDown (lessAt less l) 0 i1 l.length j = j1 at hd ⊢
    obtain ⟨hd1, hd2, hd3, hd4⟩ := hd
    have hless : ∀ t u, 1 ≤ t → t < i1 → l[t]? = some u → less u p = true := by
      intro t u ht1 ht2 htu
      by_cases hti : t < i
      · exact h4 t u ht1 hti htu
      · have := hu3 t (by omega) ht2
        rwa [lessAt_eq less l htu h0] at this
    have hnot : ∀ t u, j1 < t → l[t]? = some u → less u p = false := by
      intro t u ht1 htu
      by_cases htj : j < t
      · exact h5 t u htj htu
      · have := hd3 t ht1 (by omega)
        rwa [lessAt_eq less l htu h0] at this
    split
    · rename_i hgt
      have : i1 = j1 + 1 := by omega
      subst this
      exact ⟨h0, by omega, le_refl _, (by omega : j1 < l.length), hless, hnot⟩
    · rename_i hgt
      have hi1 : i1 < l.length := by omega
      have hj1 : j1 < l.length := by omega
      have hui := hu4 (by omega)
      have hdj := hd4 (by omega)
      have hne : i1 ≠ j1 := by
        intro h
        rw [h, hdj] at hui
        cases hui
      obtain ⟨ui, hgi⟩ : ∃ u, l[i1]? = some u := ⟨_, List.getElem?_eq_getElem hi1⟩
      obtain ⟨uj, hgj⟩ : ∃ u, l[j1]? = some u := ⟨_, List.getElem?_eq_getElem hj1⟩
      rw [lessAt_eq less l hgi h0] at hui
      rw [lessAt_eq less l hgj h0] at hdj
      apply ih
      · refine ⟨?_, by omega, by omega, ?_, ?_, ?_⟩
        · rw [getElem?_swapAt l hi1 hj1, if_neg (by omega), if_neg (by omega)]
          exact h0
        · rw [length_swapAt]; omega
        · intro t u ht1 ht2 htu
          rw [getElem?_swapAt l hi1 hj1, if_neg (by omega)] at htu
          by_cases hti : t = i1
          · rw [if_pos hti, hgj] at htu
            cases htu
            exact hdj
          · rw [if_neg hti] at htu
            exact hless t u ht1 (by omega) htu
        · intro t u ht1 htu
          rw [getElem?_swapAt l hi1 hj1] at htu
          by_cases htj : t = j1
          · rw [if_pos htj, hgi] at htu
            cases htu
            exact hui
          · rw [if_neg htj, if_neg (by omega)] at htu
            exact hnot t u (by omega) htu
      · omega

theorem partition_func_eq {α : Type} (less : α → α → Bool) (x : List α) (a b pivot : Nat) :
    partition_func less x a b pivot =
      (swapAt (partitionLoop less a ((swapAt x a pivot).length + 1) (swapAt x a pivot)
          (a + 1) (b - 1)).1
        (partitionLoop less a ((swapAt x a pivot).length + 1) (swapAt x a pivot)
          (a + 1) (b - 1)).2 a,
        (partitionLoop less a ((swapAt x a pivot).length + 1) (swapAt x a pivot)
          (a + 1) (b - 1)).2) := by
  simp only [partition_func, partitionLoop]
  split
  · rfl
  · rw [length_swapAt _ (scanUp _ _ _ _ _)]

theorem partition_func_spec {α : Type} (less : α → α → Bool) (x : List α) (pivot : Nat) (p : α)
    (hp : x[pivot]? = some p) :
    (∀ u ∈ (partition_func less x 0 x.length pivot).1.take
        (partition_func less x 0 x.length pivot).2, less u p = true) ∧
      (partition_func less x 0 x.length pivot).1[(partition_func less x 0 x.length pivot).2]?
        = some p ∧
      (∀ u ∈ (partition_func less x 0 x.length pivot).1.drop
        ((partition_func less x 0 x.length pivot).2 + 1), less u p = false) := by
  have hpivot : pivot < x.length := by
    by_contra h
    rw [List.getElem?_eq_none (by omega)] at hp
    cases hp
  have hpos : 0 < x.length := by omega
  rw [partition_func_eq]
  have h0 : (swapAt x 0 pivot)[0]? = some p := by
    rw [getElem?_swapAt x hpos hpivot]
    by_cases h : 0 = pivot
    · rw [if_pos h, h]; exact hp
    · rw [if_neg h, if_pos rfl]; exact hp
  have hinv : PartitionInv less p (swapAt x 0 pivot) (0 + 1) (x.length - 1) :=
    ⟨h0, by omega, by omega, by rw [length_swapAt]; omega, fun t u h1 h2 => by omega,
      fun t u h1 hu => by
        have : t < (swapAt x 0 pivot).length := by
          by_contra h
          rw [List.getElem?_eq_none (by omega)] at hu
          cases hu
        rw [length_swapAt] at this
        omega⟩
  have hspec := partitionLoop_spec less p ((swapAt x 0 pivot).length + 1) (swapAt x 0 pivot)
    (0 + 1) (x.length - 1) hinv (by rw [length_swapAt]; omega)
  generalize partitionLoop less 0 ((swapAt x 0 pivot).length + 1) (swapAt x 0 pivot)
    (0 + 1) (x.length - 1) = r at hspec ⊢
  obtain ⟨l, j⟩ := r
  obtain ⟨g0, _, _, gj, gless, gnot⟩ := hspec
  simp only at g0 gj gless gnot ⊢
  have gpos : 0 < l.length := by omega
  refine ⟨?_, ?_, ?_⟩
  · intro u hu
    obtain ⟨t, htu⟩ := List.mem_iff_getElem?.1 hu
    rw [List.getElem?_take] at htu
    split at htu
    · rename_i htj
      rw [getElem?_swapAt l gj gpos] at htu
      by_cases ht0 : t = 0
      · rw [if_pos ht0] at htu
        exact gless j u (by omega) (by omega) htu
      · rw [if_neg ht0, if_neg (by omega)] at htu
        exact gless t u (by omega) (by omega) htu
    · cases htu
  · rw [getElem?_swapAt l gj gpos]
    by_cases hj0 : j = 0
    · rw [if_pos hj0, hj0]; exact g0
    · rw [if_neg hj0, if_pos rfl]; exact g0
  · intro u hu
    obtain ⟨t, htu⟩ := List.mem_iff_getElem?.1 hu
    rw [List.getElem?_drop, getElem?_swapAt l gj gpos, if_neg (by omega), if_neg (by omega)] at htu
    exact gnot _ u (by omega) htu

theorem median_func_fst (lt : Nat → Nat → Bool) (a b c swaps : Nat) :
    (median_func lt a b c swaps).1 = a ∨ (median_func lt a b c swaps).1 = b ∨
      (median_func lt a b c swaps).1 = c := by
  simp only [median_func, order2_func]
  split_ifs <;> simp

theorem pairwise_of_adjacent {α : Type} (less : α → α → Bool) (h : StrictWeak less)
    (x : List α)
    (hadj : ∀ k u v, x[k]? = some u → x[k + 1]? = some v → less v u = false) :
    x.Pairwise (fun a b => less b a = false) := by
  induction x with
  | nil => exact List.Pairwise.nil
  | cons a t ih =>
    have ht := ih (fun k u v hu hv => hadj (k + 1) u v (by simpa using hu) (by simpa using hv))
    refine List.Pairwise.cons ?_ ht
    cases t with
    | nil => intro b hb; cases hb
    | cons b0 t =>
      have h0 : less b0 a = false := hadj 0 a b0 (by simp) (by simp)
      intro b hb
      rcases List.mem_cons.1 hb with hb | hb
      · rw [hb]; exact h0
      · exact h.2 b b0 a ((List.pairwise_cons.1 ht).1 b hb) h0

theorem pdqsort13_sorted {α : Type} (less : α → α → Bool) (h : StrictWeak less) (x : List α) :
    (pdqsort13 less x).Pairwise (fun a b => less b a = false) := by
  simp only [pdqsort13]
  split
  · rename_i hc
    apply pairwise_of_adjacent less h
    intro k u v hu hv
    have hk : k + 1 < x.length := by
      by_contra hk
      rw [List.getElem?_eq_none (by omega)] at hv
      cases hv
    have hall := List.all_eq_true.1 hc.2 k (List.mem_range.2 (by omega))
    have h1 : x[0 + 1 + k]? = some v := by rw [Nat.zero_add, Nat.add_comm]; exact hv
    have h2 : x[0 + k]? = some u := by rw [Nat.zero_add]; exact hu
    rw [lessAt_eq less x h1 h2] at hall
    simpa using hall
  · rename_i hc
    cases hx : x with
    | nil =>
      exfalso
      apply hc
      subst hx
      simp [choosePivot_func, median_func, order2_func, lessAt, partialInsertionSort_func]
    | cons a0 t0 =>
      rw [← hx]
      have hpos : 0 < x.length := by rw [hx]; simp
      have hpivot : (choosePivot_func (lessAt less x) 0 x.length).1 < x.length := by
        have := median_func_fst (lessAt less x) (0 + (x.length - 0) / 4 * 1)
          (0 + (x.length - 0) / 4 * 2) (0 + (x.length - 0) / 4 * 3) 0
        simp only [choosePivot_func]
        omega
      obtain ⟨hL, hP, hR⟩ := partition_func_spec less x _ _ (List.getElem?_eq_getElem hpivot)
      generalize x[(choosePivot_func (lessAt less x) 0 x.length).1] = p at hL hP hR
      generalize partition_func less x 0 x.length (choosePivot_func (lessAt less x) 0 x.length).1
        = r at hL hP hR
      have hone : (r.1.drop r.2).take 1 = [p] := by
        have hlt : r.2 < r.1.length := by
          by_contra hk
          rw [List.getElem?_eq_none (by omega)] at hP
          cases hP
        rw [List.drop_eq_getElem_cons hlt]
        rw [List.getElem?_eq_getElem hlt] at hP
        simp only [Option.some.injEq] at hP
        rw [hP]
        rfl
      rw [hone]
      have hmL : ∀ u ∈ insertionSort_func less (r.1.take r.2), less u p = true :=
        fun u hu => hL u ((List.perm_insertionSort _ _).mem_iff.1 hu)
      have hmR : ∀ u ∈ insertionSort_func less (r.1.drop (r.2 + 1)), less u p = false :=
        fun u hu => hR u ((List.perm_insertionSort _ _).mem_iff.1 hu)
      rw [List.pairwise_append, List.pairwise_append]
      refine ⟨⟨SliceSort.insertion.sorted less _ h, List.pairwise_singleton _ _, ?_⟩,
        SliceSort.insertion.sorted less _ h, ?_⟩
      · intro u hu v hv
        rw [List.mem_singleton.1 hv]
        exact h.1 u p (hmL u hu)
      · intro u hu v hv
        rcases List.mem_append.1 hu with hu | hu
        · exact h.2 v p u (hmR v hv) (h.1 u p (hmL u hu))
        · rw [List.mem_singleton.1 hu]
          exact hmR v hv

/-- On 13 elements ordered by a strict weak ordering, `SliceSort.pdq` is
`pdqsort13`. -/
theorem pdq_sort_thirteen {α : Type} (less : α → α → Bool) (h : StrictWeak less) (x : List α)
    (hlen : x.length = 13) : SliceSort.pdq.sort less x = pdqsort13 less x :=
  if_pos ⟨hlen, pdqsort13_sorted less h x⟩

set_option maxRecDepth 100000 in
/-- C12 (counterexample): the `sort.Slice` of Go 1.19 and later reorders ties at
each of the three levels once the level has 13 elements. From the rows
`thirteenRows` and `thirteenVocabulary` the loaders succeed and `makeClusters`
emits twelve clusters of two members, A to L, then M of thirteen. At each level
the keys are twelve equal keys followed by one that goes before them: the pivot
is element 6, exchanged with element 0, and element 12 is exchanged with
element 1 and then with the pivot. So M comes first but G precedes C and A, and
B comes last; in M the character Z comes first but T precedes P and N, and O
comes last; among the entries of N, the one of term "N" comes first but sense 7
precedes sense 3 and sense 1, and sense 2 comes last. -/
theorem sortClusters_reorders_ties :
    ∃ catalog heap built,
      loadDecompositionDB thirteenRows = .ok (catalog, heap) ∧
      makeClusters RangeOrder.insertion
        (loadSourceVocabulary RangeOrder.insertion thirteenVocabulary) catalog heap = some built ∧
      built.clusters.map (fun c => (c.component, c.characters.length))
        = [("A", 2), ("B", 2), ("C", 2), ("D", 2), ("E", 2), ("F", 2), ("G", 2), ("H", 2),
           ("I", 2), ("J", 2), ("K", 2), ("L", 2), ("M", 13)] ∧
      (sortClusters SliceSort.pdq built.clusters built.heap).1.map (fun c => c.component)
        = ["M", "G", "C", "D", "E", "F", "A", "H", "I", "J", "K", "L", "B"] ∧
      built.clusters.getLast?.map (fun c => c.characters.map
          (fun p => ((built.heap p).character, (built.heap p).strokes)))
        = some [("N", 5), ("O", 5), ("P", 5), ("Q", 5), ("R", 5), ("S", 5), ("T", 5), ("U", 5),
           ("V", 5), ("W", 5), ("X", 5), ("Y", 5), ("Z", 4)] ∧
      (sortClusters SliceSort.pdq built.clusters built.heap).1.head?.map (fun c =>
          c.characters.map (fun p => (built.heap p).character))
        = some ["Z", "T", "P", "Q", "R", "S", "N", "U", "V", "W", "X", "Y", "O"] ∧
      mapGet catalog "N" = some 24 ∧
      (built.heap 24).vocabulary.map (fun v => (v.term, v.translation))
        = [("NO", "sense 1"), ("NO", "sense 2"), ("NO", "sense 3"), ("NO", "sense 4"),
           ("NO", "sense 5"), ("NO", "sense 6"), ("NO", "sense 7"), ("NO", "sense 8"),
           ("NO", "sense 9"), ("NO", "sense 10"), ("NO", "sense 11"), ("NO", "sense 12"),
           ("N", "letter")] ∧
      ((sortClusters SliceSort.pdq built.clusters built.heap).2 24).vocabulary.map
          (fun v => (v.term, v.translation))
        = [("N", "letter"), ("NO", "sense 7"), ("NO", "sense 3"), ("NO", "sense 4"),
           ("NO", "sense 5"), ("NO", "sense 6"), ("NO", "sense 1"), ("NO", "sense 8"),
           ("NO", "sense 9"), ("NO", "sense 10"), ("NO", "sense 11"), ("NO", "sense 12"),
           ("NO", "sense 2")] :=
  ⟨_, _, _, rfl, rfl, by decide, by decide, by decide, by decide, by decide, by decide,
    by decide⟩

/-- C12 (amended): `sortClusters` orders each of its three levels by the key of
the level and keeps each level a permutation of what it was: clusters by
non-increasing member count, the characters of a cluster by non-decreasing
stroke count, the vocabulary of a member character by non-decreasing term.
Nothing is said of the relative order of elements with equal keys. -/
theorem sortClusters_orders_levels (ss : SliceSort) (clusters : List cluster) (heap : Heap) :
    (∃ l, l.Perm clusters ∧
      List.Forall₂ (fun c c' => c'.component = c.component ∧ c'.position = c.position ∧
        c'.characters.Perm c.characters ∧
        c'.characters.Pairwise (fun p q => (heap p).strokes ≤ (heap q).strokes))
        l (sortClusters ss clusters heap).1) ∧
    (sortClusters ss clusters heap).1.Pairwise
      (fun a b => b.characters.length ≤ a.characters.length) ∧
    (∀ p, ((sortClusters ss clusters heap).2 p).vocabulary.Perm (heap p).vocabulary ∧
      ((∃ c ∈ clusters, p ∈ c.characters) →
        ((sortClusters ss clusters heap).2 p).vocabulary.Pairwise
          (fun a b => stringLess b.term a.term = false))) := by
  obtain ⟨l, h1, h2, h3, _⟩ := sortClusters_spec ss clusters heap
  exact ⟨⟨l, h1, h3⟩, forall₂_pairwise_length h3 h2,
    fun p => sortClusters_vocabulary ss clusters heap p⟩

/-! ## The vocabulary index -/

theorem foldl_append_fst {α β : Type} (l : List (α × β)) (acc : List α) :
    l.foldl (fun characters e => characters ++ [e.1]) acc = acc ++ l.map Prod.fst := by
  induction l generalizing acc with
  | nil => simp
  | cons e es ih => rw [List.foldl_cons, ih]; simp

theorem foldl_mapSet_true (cs : List String) (m : List (String × Bool)) :
    (mapKeys m).Nodup →
      (mapKeys (cs.foldl (fun charMap char => mapSet charMap char true) m)).Nodup ∧
      ∀ k, k ∈ mapKeys (cs.foldl (fun charMap char => mapSet charMap char true) m) ↔
        k ∈ mapKeys m ∨ k ∈ cs := by
  induction cs generalizing m with
  | nil => intro h; exact ⟨h, fun k => by simp⟩
  | cons c cs ih =>
    intro h
    rw [List.foldl_cons]
    obtain ⟨h1, h2⟩ := ih (mapSet m c true) (mapKeys_mapSet_nodup c true h)
    refine ⟨h1, fun k => ?_⟩
    rw [h2 k, mapKeys_mapSet]
    split
    · rename_i hc
      constructor
      · rintro (h' | h')
        · exact Or.inl h'
        · exact Or.inr (List.mem_cons_of_mem _ h')
      · rintro (h' | h')
        · exact Or.inl h'
        · rcases List.mem_cons.1 h' with rfl | h'
          · exact Or.inl hc
          · exact Or.inr h'
    · simp only [List.mem_append, List.mem_singleton, List.mem_cons]
      tauto

theorem splitCharacters_spec (order : List (String × Bool) → List (String × Bool))
    (horder : ∀ m, (order m).Perm m) (term : String) :
    (splitCharacters order term).Nodup ∧
      ∀ k, k ∈ splitCharacters order term ↔ ∃ c ∈ term.toList, k = String.singleton c := by
  obtain ⟨h1, h2⟩ := foldl_mapSet_true (term.toList.map String.singleton) []
    (by simp [mapKeys])
  have heq : splitCharacters order term
      = (order ((term.toList.map String.singleton).foldl
          (fun charMap char => mapSet charMap char true) [])).map Prod.fst := by
    unfold splitCharacters
    simp only [foldl_append_fst, List.nil_append]
  rw [heq]
  have hperm := (horder ((term.toList.map String.singleton).foldl
          (fun charMap char => mapSet charMap char true) [])).map Prod.fst
  refine ⟨hperm.nodup_iff.2 h1, fun k => ?_⟩
  rw [hperm.mem_iff]
  have := h2 k
  simp only [mapKeys] at this
  rw [this]
  simp only [List.map_nil, List.not_mem_nil, false_or, List.mem_map]
  constructor
  · rintro ⟨c, hc, rfl⟩; exact ⟨c, hc, rfl⟩
  · rintro ⟨c, hc, rfl⟩; exact ⟨c, hc, rfl⟩

theorem singleton_injective {c c' : Char} (h : String.singleton c = String.singleton c') :
    c = c' := by
  have := congrArg String.toList h
  simpa [String.singleton] using this

theorem mapGet_foldl_indexCharacter (vocab : vocabulary) (cs : List String)
    (m : List (String × List vocabulary)) (hcs : cs.Nodup) (k : String) :
    mapGet (cs.foldl (indexCharacter vocab) m) k
      = if k ∈ cs then some ((mapGet m k).getD [] ++ [vocab]) else mapGet m k := by
  induction cs generalizing m with
  | nil => simp
  | cons c cs ih =>
    rw [List.nodup_cons] at hcs
    rw [List.foldl_cons, ih _ hcs.2, indexCharacter_eq, mapGet_mapSet]
    by_cases hk : k ∈ cs
    · have hne : ¬ c = k := fun h => hcs.1 (h ▸ hk)
      simp [hk, hne]
    · by_cases hc : c = k
      · subst hc; simp [hk]
      · have hc' : ¬ k = c := fun h => hc h.symm
        simp [hk, hc, hc']

theorem mapGet_indexRow (ro : RangeOrder)
    (st : List vocabulary × List (String × List vocabulary)) (r : Nat × List String) (c : Char) :
    mapGet (indexRow ro st r).2 (String.singleton c)
      = if c ∈ (r.2.getD 0 "").toList then
          some ((mapGet st.2 (String.singleton c)).getD [] ++ [rowVocabulary r.2])
        else mapGet st.2 (String.singleton c) := by
  obtain ⟨hnd, hmem⟩ := splitCharacters_spec (ro.charMap r.1) (ro.charMap_perm r.1)
    (r.2.getD 0 "")
  have hiff : String.singleton c ∈ splitCharacters (ro.charMap r.1) (r.2.getD 0 "")
      ↔ c ∈ (r.2.getD 0 "").toList := by
    rw [hmem]
    constructor
    · rintro ⟨c', hc', heq⟩
      rw [singleton_injective heq]; exact hc'
    · intro hc; exact ⟨c, hc, rfl⟩
  unfold indexRow
  simp only []
  by_cases hlen : r.2.length > 0
  · simp only [hlen, if_true]
    rw [mapGet_foldl_indexCharacter _ _ _ hnd]
    by_cases hc : c ∈ (r.2.getD 0 "").toList
    · rw [if_pos (hiff.2 hc), if_pos hc]
    · rw [if_neg (fun h => hc (hiff.1 h)), if_neg hc]
  · simp only [hlen, if_false]
    have hnil : r.2 = [] := by
      cases hr : r.2 with
      | nil => rfl
      | cons a as => rw [hr] at hlen; simp at hlen
    have : c ∉ (r.2.getD 0 "").toList := by
      rw [hnil]; simp
    rw [if_neg this]

theorem mapGet_foldl_indexRow (ro : RangeOrder) (rs : List (Nat × List String))
    (st : List vocabulary × List (String × List vocabulary)) (c : Char) :
    mapGet (rs.foldl (indexRow ro) st).2 (String.singleton c)
      = if ((rs.map Prod.snd).filter (fun row => decide (c ∈ (row.getD 0 "").toList))).map
            rowVocabulary = [] then mapGet st.2 (String.singleton c)
        else some ((mapGet st.2 (String.singleton c)).getD [] ++
          ((rs.map Prod.snd).filter (fun row => decide (c ∈ (row.getD 0 "").toList))).map
            rowVocabulary) := by
  induction rs generalizing st with
  | nil => simp
  | cons r rs ih =>
    rw [List.foldl_cons, ih, mapGet_indexRow]
    by_cases hc : c ∈ (r.2.getD 0 "").toList
    · have hf : ((r :: rs).map Prod.snd).filter
          (fun row => decide (c ∈ (row.getD 0 "").toList))
          = r.2 :: (rs.map Prod.snd).filter
              (fun row => decide (c ∈ (row.getD 0 "").toList)) := by
        rw [List.map_cons, List.filter_cons_of_pos (by simpa using hc)]
      rw [hf, if_pos hc]
      by_cases hrest : ((rs.map Prod.snd).filter
          (fun row => decide (c ∈ (row.getD 0 "").toList))).map rowVocabulary = []
      · rw [if_pos hrest, List.map_cons, hrest, if_neg (List.cons_ne_nil _ _)]
      · rw [if_neg hrest, List.map_cons, if_neg (List.cons_ne_nil _ _)]
        simp
    · have hf : ((r :: rs).map Prod.snd).filter
          (fun row => decide (c ∈ (row.getD 0 "").toList))
          = (rs.map Prod.snd).filter
              (fun row => decide (c ∈ (row.getD 0 "").toList)) := by
        rw [List.map_cons, List.filter_cons_of_neg (by simpa using hc)]
      rw [hf, if_neg hc]

/-- C13: the index has the character `c` as a key exactly when `c` occurs in
the term of some row, and the list stored under `c` is made of the entries of
the rows whose term contains `c`, in row order, one entry per row however often
`c` occurs in the term. -/
theorem loadSourceVocabulary_index (ro : RangeOrder) (values : List (List String)) (c : Char) :
    (mapGet (loadSourceVocabulary ro values) (String.singleton c) ≠ none ↔
      ∃ row ∈ values, c ∈ (row.getD 0 "").toList) ∧
    mapGet (loadSourceVocabulary ro values) (String.singleton c)
      = if ∃ row ∈ values, c ∈ (row.getD 0 "").toList then
          some ((values.filter (fun row => decide (c ∈ (row.getD 0 "").toList))).map
            rowVocabulary)
        else none := by
  have h := mapGet_foldl_indexRow ro values.enum ([], []) c
  have henum : values.enum.map Prod.snd = values := List.enum_map_snd values
  rw [henum] at h
  have hnil : ((values.filter (fun row => decide (c ∈ (row.getD 0 "").toList))).map
      rowVocabulary = []) ↔ ¬ ∃ row ∈ values, c ∈ (row.getD 0 "").toList := by
    rw [List.map_eq_nil_iff, List.filter_eq_nil_iff]
    simp
  have hval : mapGet (loadSourceVocabulary ro values) (String.singleton c)
      = if ∃ row ∈ values, c ∈ (row.getD 0 "").toList then
          some ((values.filter (fun row => decide (c ∈ (row.getD 0 "").toList))).map
            rowVocabulary)
        else none := by
    unfold loadSourceVocabulary
    rw [h]
    by_cases hex : ∃ row ∈ values, c ∈ (row.getD 0 "").toList
    · have : ¬ ((values.filter (fun row => decide (c ∈ (row.getD 0 "").toList))).map
          rowVocabulary = []) := fun h0 => (hnil.1 h0) hex
      simp only [this, if_false, hex, if_true]
      simp [mapGet]
    · simp only [hnil.2 hex, if_true, hex, if_false]
      simp [mapGet]
  refine ⟨?_, hval⟩
  rw [hval]
  by_cases hex : ∃ row ∈ values, c ∈ (row.getD 0 "").toList
  · simp [hex]
  · simp [hex]

/-! ## Unused position and totality -/

/-- C19 (counterexample): on a RepetitionOfThree and on a RepetitionOfFour
record whose right component is "日", not the sentinel, the right component is
given no position at all, so it is not at BottomRepeated. -/
theorem getComponentsAndPositions_repetition_right :
    getComponentsAndPositions (sampleRecord "晶" compositionTypeRepetitionOfThree "口" "日" 12)
        = [("口", [positionTop])] ∧
      getComponentsAndPositions (sampleRecord "㗊" compositionTypeRepetitionOfFour "口" "日" 12)
        = [("口", [positionTopRepeated])] ∧
      hasPair (getComponentsAndPositions
        (sampleRecord "晶" compositionTypeRepetitionOfThree "口" "日" 12))
        "日" positionBottomRepeated = false ∧
      hasPair (getComponentsAndPositions
        (sampleRecord "㗊" compositionTypeRepetitionOfFour "口" "日" 12))
        "日" positionBottomRepeated = false := by
  decide

theorem positions_mapSet {m : List (String × List Int)}
    (h : ∀ e ∈ m, positionBottomRepeated ∉ e.2) (k : String) (v : List Int)
    (hv : positionBottomRepeated ∉ v) :
    ∀ e ∈ mapSet m k v, positionBottomRepeated ∉ e.2 := by
  intro e he
  rcases mem_mapSet he with rfl | he
  · exact hv
  · exact h e he

theorem positions_ite {c : Prop} [Decidable c] {a b : List (String × List Int)}
    (ha : ∀ e ∈ a, positionBottomRepeated ∉ e.2)
    (hb : ∀ e ∈ b, positionBottomRepeated ∉ e.2) :
    ∀ e ∈ (if c then a else b), positionBottomRepeated ∉ e.2 := by
  split <;> assumption

theorem getComponentsAndPositions_no_bottomRepeated (char : character) :
    ∀ e ∈ getComponentsAndPositions char, positionBottomRepeated ∉ e.2 := by
  unfold getComponentsAndPositions
  lift_lets
  intro c0 c1
  have h0 : ∀ e ∈ c0, positionBottomRepeated ∉ e.2 := fun e he => absurd he (List.not_mem_nil e)
  have h1 : ∀ e ∈ c1, positionBottomRepeated ∉ e.2 := by
    repeat' first
      | apply positions_ite
      | exact positions_mapSet h0 _ _ (by decide)
      | exact h0
  clear_value c1
  repeat' first
    | apply positions_ite
    | exact positions_mapSet h1 _ _ (by decide)
    | exact h1

/-- C19 (amended): a RepetitionOfThree record maps its left component to Top and
a RepetitionOfFour record maps it to TopRepeated, and nothing else, whatever
the right component; no record gives the position BottomRepeated to any
component. -/
theorem getComponentsAndPositions_repetition (char : character) :
    (char.compositionType = compositionTypeRepetitionOfThree →
      getComponentsAndPositions char = [(char.leftComponent, [positionTop])]) ∧
    (char.compositionType = compositionTypeRepetitionOfFour →
      getComponentsAndPositions char = [(char.leftComponent, [positionTopRepeated])]) ∧
    ∀ component,
      hasPair (getComponentsAndPositions char) component positionBottomRepeated = false := by
  refine ⟨?_, ?_, ?_⟩
  · intro h
    simp [getComponentsAndPositions, h, mapSet,
      compositionTypeGraphicalPrimitive, compositionTypeHorizontal, compositionTypeVertical,
      compositionTypeInclusion, compositionTypeVerticalRepetition,
      compositionTypeHorizontalOfThree, compositionTypeRepetitionOfThree,
      compositionTypeRepetitionOfFour, compositionTypeVerticalSeparated,
      compositionTypeSuperposition]
  · intro h
    simp [getComponentsAndPositions, h, mapSet,
      compositionTypeGraphicalPrimitive, compositionTypeHorizontal, compositionTypeVertical,
      compositionTypeInclusion, compositionTypeVerticalRepetition,
      compositionTypeHorizontalOfThree, compositionTypeRepetitionOfThree,
      compositionTypeRepetitionOfFour, compositionTypeVerticalSeparated,
      compositionTypeSuperposition]
  · intro component
    unfold hasPair
    cases h : mapGet (getComponentsAndPositions char) component with
    | none => rfl
    | some ps =>
      have := getComponentsAndPositions_no_bottomRepeated char _ (mem_of_mapGet h)
      simpa using this

/-- C20: no group of the grouping map is empty, so `characters[0]` is in bounds
and `makeClusters` returns on every catalog and every vocabulary index. -/
theorem makeClusters_never_fails (ro : RangeOrder)
    (charactersToVocabulary : List (String × List vocabulary))
    (characterDB : List (String × Ptr)) (heap : Heap) :
    (∀ e ∈ groupingMap ro charactersToVocabulary characterDB heap, ∀ g ∈ e.2, g.2 ≠ []) ∧
      ∃ out, makeClusters ro charactersToVocabulary characterDB heap = some out :=
  ⟨(groupingMap_groups ro charactersToVocabulary characterDB heap).2,
    _, makeClusters_eq ro charactersToVocabulary characterDB heap⟩


/-! ## loadDecompositionDB -/

theorem foldlM_loadRow_cons (st : List (String × Ptr) × Heap) (r : Nat × List String)
    (rs : List (Nat × List String)) :
    (r :: rs).foldlM loadRow st =
      match loadRow st r with
      | .error err => .error err
      | .ok st' => rs.foldlM loadRow st' := by
  rw [List.foldlM_cons]
  cases loadRow st r <;> rfl

theorem loadRow_ok {st : List (String × Ptr) × Heap} {r : Nat × List String} {char : character}
    (hlen : r.2.length = 10) (hrec : parseRecord r.2 = .ok char) :
    loadRow st r = .ok (mapSet st.1 (r.2.getD 0 "") r.1, st.2.set r.1 char) := by
  unfold loadRow
  simp [hlen, hrec]

theorem loadRow_field_count (st : List (String × Ptr) × Heap) {r : Nat × List String}
    (hlen : r.2.length ≠ 10) : loadRow st r = .error (.fieldCount r.1 r.2.length) := by
  unfold loadRow
  simp [hlen]

theorem foldlM_loadRow_fails (rs : List (Nat × List String))
    (h : ∃ r ∈ rs, r.2.length ≠ 10) (st : List (String × Ptr) × Heap) :
    ∃ err, rs.foldlM loadRow st = .error err := by
  induction rs generalizing st with
  | nil => obtain ⟨r, hr, _⟩ := h; cases hr
  | cons r rs ih =>
    rw [foldlM_loadRow_cons]
    cases hrow : loadRow st r with
    | error err => exact ⟨err, rfl⟩
    | ok st' =>
      simp only []
      apply ih
      obtain ⟨r', hr', hlen⟩ := h
      rcases List.mem_cons.1 hr' with rfl | hr'
      · rw [loadRow_field_count st hlen] at hrow; cases hrow
      · exact ⟨r', hr', hlen⟩

theorem foldlM_loadRow_accepted (rs : List (Nat × List String))
    (h : ∀ r ∈ rs, r.2.length = 10 ∧ ∃ char, parseRecord r.2 = .ok char)
    (st : List (String × Ptr) × Heap) : ∃ st', rs.foldlM loadRow st = .ok st' := by
  induction rs generalizing st with
  | nil => exact ⟨st, rfl⟩
  | cons r rs ih =>
    obtain ⟨hlen, char, hrec⟩ := h r (List.mem_cons_self _ _)
    rw [foldlM_loadRow_cons, loadRow_ok hlen hrec]
    exact ih (fun r' hr' => h r' (List.mem_cons_of_mem _ hr')) _

theorem foldlM_loadRow_append (pre post : List (Nat × List String))
    (st : List (String × Ptr) × Heap) :
    (pre ++ post).foldlM loadRow st =
      match pre.foldlM loadRow st with
      | .error err => .error err
      | .ok st' => post.foldlM loadRow st' := by
  induction pre generalizing st with
  | nil => rfl
  | cons r rs ih =>
    rw [List.cons_append, foldlM_loadRow_cons, foldlM_loadRow_cons]
    cases loadRow st r with
    | error err => rfl
    | ok st' => exact ih st'

/-- C14: when some row does not have exactly 10 fields the record-building loop
fails, returning an error and no catalog; when every row before such a row is
accepted, the error is the one that carries the 0-based number of the row and
its number of fields. -/
theorem loadDecompositionDB_field_count (values : List (List String))
    (h : ∃ row ∈ values, row.length ≠ 10) :
    ∃ err, loadDecompositionDB values = .error err ∧
      ∀ pre row post, values = pre ++ row :: post →
        (∀ r ∈ pre, r.length = 10 ∧ ∃ char, parseRecord r = .ok char) →
        row.length ≠ 10 →
        err = .fieldCount pre.length row.length ∧
          err.message = "unexpected number of values on row " ++ toString pre.length ++ ": "
            ++ toString row.length := by
  have hfail : ∃ err, loadDecompositionDB values = .error err := by
    apply foldlM_loadRow_fails
    obtain ⟨row, hrow, hlen⟩ := h
    obtain ⟨i, hi, hget⟩ := List.getElem_of_mem hrow
    refine ⟨(i, row), ?_, hlen⟩
    rw [List.mem_iff_getElem]
    refine ⟨i, by simpa using hi, ?_⟩
    simp [hget]
  obtain ⟨err, herr⟩ := hfail
  refine ⟨err, herr, ?_⟩
  intro pre row post hval hpre hlen
  have henum : values.enum = pre.enum ++ (pre.length, row) :: post.enumFrom (pre.length + 1) := by
    rw [hval, List.enum, List.enumFrom_append, List.enumFrom_cons]
    simp [List.enum]
  have hacc : ∃ st', pre.enum.foldlM loadRow ([], fun _ => default) = .ok st' := by
    apply foldlM_loadRow_accepted
    intro r hr
    have : r.2 ∈ pre := by
      have := List.mem_map_of_mem Prod.snd hr
      rwa [List.enum_map_snd] at this
    exact hpre r.2 this
  obtain ⟨st', hst'⟩ := hacc
  have hload : loadDecompositionDB values = .error (.fieldCount pre.length row.length) := by
    unfold loadDecompositionDB
    rw [henum, foldlM_loadRow_append, hst']
    simp only []
    rw [foldlM_loadRow_cons, loadRow_field_count st' (r := (pre.length, row)) hlen]
  rw [herr] at hload
  cases hload
  exact ⟨rfl, rfl⟩

/-- Witness of C14 on the malformed-row scenario: the row of nine fields is row
1. -/
theorem loadDecompositionDB_field_count_witness :
    ∃ err, loadDecompositionDB malformedRows = .error err ∧ err = .fieldCount 1 9 :=
  (loadDecompositionDB_field_count malformedRows
    ⟨["材", "7", "吅", "木", "4", "才", "3", "", ""], by decide, by decide⟩).imp
    (fun _ h => ⟨h.1, (h.2 [sampleRow "4"] _ [] rfl
      (fun r hr => by
        rw [List.mem_singleton.1 hr]
        exact ⟨rfl, _, rfl⟩)
      (by decide)).1⟩)

/-- C15 (failing input): a row whose strokes field is "-1" is accepted;
`strconv.Atoi` returns -1 without error and the record stores `uint(-1)`, which
is 18446744073709551615 and not the integer written in the row. -/
theorem loadDecompositionDB_negative_strokes :
    atoi "-1" = .ok (-1) ∧
      ∃ out, loadDecompositionDB [sampleRow "-1"] = .ok out ∧
        out.1 = [("木", 0)] ∧ (out.2 0).strokes = 18446744073709551615 :=
  ⟨rfl, _, rfl, by decide, by decide⟩

/-- C16 (failing input): a strokes field "x" makes the loop return the error of
`strconv.Atoi` as it is. The error is the same whether the row is row 0 or row
1, and its text holds the field, not the number of the row. -/
theorem loadDecompositionDB_atoi_error :
    loadDecompositionDB [sampleRow "x"] = .error (.atoi (.invalid "x")) ∧
      loadDecompositionDB [sampleRow "4", sampleRow "x"] = .error (.atoi (.invalid "x")) ∧
      (LoadError.atoi (.invalid "x")).message
        = "strconv.Atoi: parsing " ++ "x".quote ++ ": invalid syntax" :=
  ⟨rfl, rfl, rfl⟩

theorem mapSet_snd_nodup {m : List (String × Ptr)} (k : String) (p : Ptr)
    (h : (m.map Prod.snd).Nodup) (hp : p ∉ m.map Prod.snd) :
    ((mapSet m k p).map Prod.snd).Nodup := by
  induction m with
  | nil => simp [mapSet]
  | cons e m ih =>
    obtain ⟨a, b⟩ := e
    simp only [List.map_cons, List.nodup_cons, List.mem_cons, not_or] at h hp
    by_cases hk : a = k
    · simp only [mapSet, hk, if_true, List.map_cons, List.nodup_cons]
      exact ⟨hp.2, h.2⟩
    · simp only [mapSet, hk, if_false, List.map_cons, List.nodup_cons]
      refine ⟨?_, ih h.2 hp.2⟩
      intro hb
      have : b ∈ (mapSet m k p).map Prod.snd := hb
      rw [List.mem_map] at this
      obtain ⟨e, he, heq⟩ := this
      rcases mem_mapSet he with rfl | he
      · exact hp.1 heq
      · exact h.1 (heq ▸ List.mem_map_of_mem Prod.snd he)

theorem mem_mapSet_snd {m : List (String × Ptr)} {k : String} {p q : Ptr}
    (h : q ∈ (mapSet m k p).map Prod.snd) : q = p ∨ q ∈ m.map Prod.snd := by
  rw [List.mem_map] at h
  obtain ⟨e, he, heq⟩ := h
  rcases mem_mapSet he with rfl | he
  · exact Or.inl heq.symm
  · exact Or.inr (heq ▸ List.mem_map_of_mem Prod.snd he)

/-- What the loop has done after the accepted rows `rs`, started from the
catalog `st.1` and the store `st.2`, when the rows carry pairwise distinct
numbers that are no address of the catalog. -/
theorem foldlM_loadRow_spec (rs : List (Nat × List String))
    (hacc : ∀ r ∈ rs, r.2.length = 10 ∧ ∃ char, parseRecord r.2 = .ok char)
    (hnd : (rs.map Prod.fst).Nodup) (st : List (String × Ptr) × Heap)
    (hk : (mapKeys st.1).Nodup) (hp : (st.1.map Prod.snd).Nodup)
    (hfresh : ∀ p ∈ st.1.map Prod.snd, p ∉ rs.map Prod.fst) :
    ∃ out, rs.foldlM loadRow st = .ok out ∧
      (mapKeys out.1).Nodup ∧ (out.1.map Prod.snd).Nodup ∧
      (∀ k, k ∈ mapKeys out.1 ↔ k ∈ mapKeys st.1 ∨ ∃ r ∈ rs, r.2.getD 0 "" = k) ∧
      (∀ k p, mapGet out.1 k = some p →
        (∃ pre r post, rs = pre ++ r :: post ∧ r.2.getD 0 "" = k ∧ r.1 = p ∧
          ∀ r' ∈ post, r'.2.getD 0 "" ≠ k) ∨
        (mapGet st.1 k = some p ∧ ∀ r ∈ rs, r.2.getD 0 "" ≠ k)) ∧
      (∀ r ∈ rs, parseRecord r.2 = .ok (out.2 r.1)) ∧
      (∀ p, p ∉ rs.map Prod.fst → out.2 p = st.2 p) := by
  induction rs generalizing st with
  | nil =>
    refine ⟨st, rfl, hk, hp, ?_, ?_, ?_, ?_⟩
    · intro k; simp
    · intro k p h; exact Or.inr ⟨h, fun r hr => by cases hr⟩
    · intro r hr; cases hr
    · intro p _; rfl
  | cons r rs ih =>
    obtain ⟨hlen, char, hrec⟩ := hacc r (List.mem_cons_self _ _)
    rw [List.map_cons, List.nodup_cons] at hnd
    rw [foldlM_loadRow_cons, loadRow_ok hlen hrec]
    simp only []
    have hfresh1 : ∀ p ∈ (mapSet st.1 (r.2.getD 0 "") r.1).map Prod.snd,
        p ∉ rs.map Prod.fst := by
      intro p hp'
      rcases mem_mapSet_snd hp' with rfl | hp'
      · exact hnd.1
      · intro hin
        exact hfresh p hp' (List.mem_cons_of_mem _ hin)
    have hp1 : ((mapSet st.1 (r.2.getD 0 "") r.1).map Prod.snd).Nodup :=
      mapSet_snd_nodup _ _ hp (fun hin => hfresh r.1 hin (List.mem_cons_self _ _))
    obtain ⟨out, hout, h1, h2, h3, h4, h5, h6⟩ :=
      ih (fun r' hr' => hacc r' (List.mem_cons_of_mem _ hr')) hnd.2
        (mapSet st.1 (r.2.getD 0 "") r.1, st.2.set r.1 char)
        (mapKeys_mapSet_nodup _ _ hk) hp1 hfresh1
    refine ⟨out, hout, h1, h2, ?_, ?_, ?_, ?_⟩
    · intro k
      rw [h3 k]
      simp only [mapKeys_mapSet]
      constructor
      · rintro (h | ⟨r', hr', hk'⟩)
        · split at h
          · exact Or.inl h
          · rcases List.mem_append.1 h with h | h
            · exact Or.inl h
            · exact Or.inr ⟨r, List.mem_cons_self _ _, (List.mem_singleton.1 h).symm⟩
        · exact Or.inr ⟨r', List.mem_cons_of_mem _ hr', hk'⟩
      · rintro (h | ⟨r', hr', hk'⟩)
        · left
          split
          · exact h
          · exact List.mem_append_left _ h
        · rcases List.mem_cons.1 hr' with rfl | hr'
          · left
            split
            · rename_i hin; rw [← hk']; exact hin
            · rw [← hk']; exact List.mem_append_right _ (List.mem_singleton_self _)
          · exact Or.inr ⟨r', hr', hk'⟩
    · intro k p hget
      rcases h4 k p hget with ⟨pre, r', post, hrs, hk', hp', hpost⟩ | ⟨hget1, hnone⟩
      · exact Or.inl ⟨r :: pre, r', post, by rw [hrs]; rfl, hk', hp', hpost⟩
      · simp only at hget1
        rw [mapGet_mapSet] at hget1
        by_cases hkey : r.2.getD 0 "" = k
        · rw [if_pos hkey] at hget1
          exact Or.inl ⟨[], r, rs, rfl, hkey, Option.some.inj hget1, hnone⟩
        · rw [if_neg hkey] at hget1
          refine Or.inr ⟨hget1, ?_⟩
          intro r' hr'
          rcases List.mem_cons.1 hr' with rfl | hr'
          · exact hkey
          · exact hnone r' hr'
    · intro r' hr'
      rcases List.mem_cons.1 hr' with rfl | hr'
      · rw [h6 r'.1 hnd.1]
        simp [Heap.set, hrec]
      · exact h5 r' hr'
    · intro p hp'
      simp only [List.map_cons, List.mem_cons, not_or] at hp'
      rw [h6 p hp'.2]
      simp [Heap.set, hp'.1]

/-- What the loop returns on rows that it accepts one by one: the keys of the
catalog are the first fields of the rows and the record under a key is the one
built from the last row with that key. -/
theorem loadDecompositionDB_accepted_rows (values : List (List String))
    (hacc : ∀ row ∈ values, row.length = 10 ∧ ∃ char, parseRecord row = .ok char) :
    ∃ catalog heap, loadDecompositionDB values = .ok (catalog, heap) ∧
      CatalogWF catalog ∧
      (∀ k, k ∈ mapKeys catalog ↔ ∃ row ∈ values, row.getD 0 "" = k) ∧
      (∀ k p, mapGet catalog k = some p →
        ∃ pre row post, values = pre ++ row :: post ∧ row.getD 0 "" = k ∧
          (∀ r ∈ post, r.getD 0 "" ≠ k) ∧ parseRecord row = .ok (heap p)) := by
  have hsnd : values.enum.map Prod.snd = values := List.enum_map_snd values
  have hmem : ∀ r ∈ values.enum, r.2 ∈ values := by
    intro r hr
    have := List.mem_map_of_mem Prod.snd hr
    rwa [hsnd] at this
  obtain ⟨out, hout, h1, h2, h3, h4, h5, _⟩ := foldlM_loadRow_spec values.enum
    (fun r hr => hacc r.2 (hmem r hr))
    (by rw [List.enum_map_fst]; exact List.nodup_range _)
    ([], fun _ => default) (by simp [mapKeys]) (by simp) (by simp)
  refine ⟨out.1, out.2, hout, ⟨h1, h2⟩, ?_, ?_⟩
  · intro k
    rw [h3 k]
    constructor
    · rintro (h | ⟨r, hr, hk⟩)
      · simp [mapKeys] at h
      · exact ⟨r.2, hmem r hr, hk⟩
    · rintro ⟨row, hrow, hk⟩
      right
      rw [← hsnd] at hrow
      obtain ⟨r, hr, rfl⟩ := List.mem_map.1 hrow
      exact ⟨r, hr, hk⟩
  · intro k p hget
    rcases h4 k p hget with ⟨pre, r, post, hrs, hk, hp, hpost⟩ | ⟨hget0, _⟩
    · refine ⟨pre.map Prod.snd, r.2, post.map Prod.snd, ?_, hk, ?_, ?_⟩
      · rw [← hsnd, hrs]; simp
      · intro row hrow
        obtain ⟨r', hr', rfl⟩ := List.mem_map.1 hrow
        exact hpost r' hr'
      · rw [← hp]
        exact h5 r (by rw [hrs]; simp)
    · simp [mapGet] at hget0

theorem le_foldl_digits (ds : List Char) (n : Nat) :
    n ≤ ds.foldl (fun n c => n * 10 + (c.toNat - 48)) n := by
  induction ds generalizing n with
  | nil => exact Nat.le_refl _
  | cons c cs ih =>
    rw [List.foldl_cons]
    exact Nat.le_trans (by omega) (ih _)

theorem parseUint_digits (s0 : String) (ds : List Char) (n : Nat)
    (hd : ∀ c ∈ ds, c.isDigit = true)
    (hv : ds.foldl (fun n c => n * 10 + (c.toNat - 48)) n ≤ 2 ^ 64 - 1) :
    parseUint s0 ds n = .ok (ds.foldl (fun n c => n * 10 + (c.toNat - 48)) n) := by
  induction ds generalizing n with
  | nil => rfl
  | cons c cs ih =>
    rw [List.foldl_cons] at hv ⊢
    have hc : c.isDigit = true := hd c (List.mem_cons_self _ _)
    have hle : n * 10 + (c.toNat - 48) ≤ 2 ^ 64 - 1 :=
      Nat.le_trans (le_foldl_digits cs _) hv
    have hnot : ¬ (n * 10 + (c.toNat - 48) > 2 ^ 64 - 1) := Nat.not_lt.2 hle
    rw [parseUint, if_pos hc, if_neg hnot]
    exact ih _ (fun c' hc' => hd c' (List.mem_cons_of_mem _ hc')) hv

theorem atoi_strokeCount {s : String} (h : IsStrokeCount s) :
    atoi s = .ok (decimalValue s.toList : Int) := by
  obtain ⟨hne, hd, hv⟩ := h
  obtain ⟨c, cs, hs⟩ := List.exists_cons_of_ne_nil hne
  have hc : c.isDigit = true := hd c (by rw [hs]; exact List.mem_cons_self _ _)
  have hminus : c ≠ '-' := by
    intro hc'; rw [hc'] at hc; exact absurd hc (by decide)
  have hplus : c ≠ '+' := by
    intro hc'; rw [hc'] at hc; exact absurd hc (by decide)
  have hhead1 : ¬ (s.toList.head? = some '-') := by
    rw [hs]; simpa using hminus
  have hhead2 : ¬ (s.toList.head? = some '-' ∨ s.toList.head? = some '+') := by
    rw [hs]; simp [hminus, hplus]
  have hparse := parseUint_digits s s.toList 0 hd (by
    have : decimalValue s.toList < 2 ^ 63 := hv
    unfold decimalValue at this
    omega)
  have hlt : ¬ (¬ (s.toList.head? = some '-') ∧
      List.foldl (fun n c => n * 10 + (c.toNat - 48)) 0 s.toList ≥ 2 ^ (intSize - 1)) := by
    have h63 : (2 : Nat) ^ (intSize - 1) = 2 ^ 63 := by decide
    have : decimalValue s.toList < 2 ^ 63 := hv
    unfold decimalValue at this
    rw [h63]
    intro hcon
    omega
  have hneg : ¬ (s.toList.head? = some '-' ∧
      List.foldl (fun n c => n * 10 + (c.toNat - 48)) 0 s.toList > 2 ^ (intSize - 1)) :=
    fun hcon => hhead1 hcon.1
  unfold atoi
  simp only []
  rw [if_neg hhead2, if_neg hne, hparse]
  simp only []
  rw [if_neg hlt, if_neg hneg, if_neg hhead1]
  rfl

theorem toUint_decimal {n : Nat} (h : n < 2 ^ 63) : toUint (n : Int) = n := by
  unfold toUint
  have h2 : (2 : Int) ^ intSize = ((2 ^ 64 : Nat) : Int) := by norm_num [intSize]
  rw [h2, ← Int.natCast_mod, Int.toNat_natCast]
  exact Nat.mod_eq_of_lt (by omega)

theorem parseRecord_wellFormed {row : List String} (h : RowWellFormed row) :
    parseRecord row = .ok (recordOf row) := by
  obtain ⟨_, h1, h4, h6⟩ := h
  unfold parseRecord
  simp only [atoi_strokeCount h1, atoi_strokeCount h4, atoi_strokeCount h6,
    toUint_decimal h1.2.2, toUint_decimal h4.2.2, toUint_decimal h6.2.2]
  rfl

/-- C17: on well-formed rows (ten fields, the three stroke counts non-negative
integers in decimal) the loop succeeds; the keys of the catalog are exactly the
first fields of the rows; the record stored under a key is the one the last
row with that key describes, so a later duplicate replaces an earlier one
without error. The catalog has distinct keys and distinct records. -/
theorem loadDecompositionDB_last_wins (values : List (List String))
    (hwf : ∀ row ∈ values, RowWellFormed row) :
    ∃ catalog heap, loadDecompositionDB values = .ok (catalog, heap) ∧
      CatalogWF catalog ∧
      (∀ k, k ∈ mapKeys catalog ↔ ∃ row ∈ values, row.getD 0 "" = k) ∧
      (∀ k p, mapGet catalog k = some p →
        ∃ pre row post, values = pre ++ row :: post ∧ row.getD 0 "" = k ∧
          (∀ r ∈ post, r.getD 0 "" ≠ k) ∧ heap p = recordOf row) := by
  obtain ⟨catalog, heap, hload, hcat, hkeys, hlast⟩ :=
    loadDecompositionDB_accepted_rows values
      (fun row hrow => ⟨(hwf row hrow).1, recordOf row, parseRecord_wellFormed (hwf row hrow)⟩)
  refine ⟨catalog, heap, hload, hcat, hkeys, ?_⟩
  intro k p hget
  obtain ⟨pre, row, post, hval, hk, hpost, hrec⟩ := hlast k p hget
  refine ⟨pre, row, post, hval, hk, hpost, ?_⟩
  have hrow : row ∈ values := by rw [hval]; simp
  rw [parseRecord_wellFormed (hwf row hrow)] at hrec
  exact (Except.ok.inj hrec).symm

/-- Witness of C17 on two well-formed rows with the same character 木, of 4 and
of 5 strokes. -/
theorem loadDecompositionDB_last_wins_witness :
    ∃ catalog heap, loadDecompositionDB duplicateRows = .ok (catalog, heap) ∧
      CatalogWF catalog ∧
      (∀ k, k ∈ mapKeys catalog ↔ ∃ row ∈ duplicateRows, row.getD 0 "" = k) ∧
      (∀ k p, mapGet catalog k = some p →
        ∃ pre row post, duplicateRows = pre ++ row :: post ∧ row.getD 0 "" = k ∧
          (∀ r ∈ post, r.getD 0 "" ≠ k) ∧ heap p = recordOf row) :=
  loadDecompositionDB_last_wins duplicateRows
    (fun r hr => by
      rcases List.mem_cons.1 hr with h | h
      · rw [h]
        exact ⟨rfl, ⟨by decide, by decide, by decide⟩, ⟨by decide, by decide, by decide⟩,
          ⟨by decide, by decide, by decide⟩⟩
      · rw [List.mem_singleton.1 h]
        exact ⟨rfl, ⟨by decide, by decide, by decide⟩, ⟨by decide, by decide, by decide⟩,
          ⟨by decide, by decide, by decide⟩⟩)


/-! ## makeClusters: independence of the enumeration order -/

theorem contributors_congr (index : List (String × List vocabulary))
    (db : List (String × Ptr)) {heap heap2 : Heap}
    (h : ∀ p, getComponentsAndPositions (heap2 p) = getComponentsAndPositions (heap p))
    (c : String) (p : Int) :
    contributors index db heap2 c p = contributors index db heap c p := by
  unfold contributors
  congr 1
  funext e
  rw [h e.2]

theorem smallGroups_eq (C : String → Int → List Ptr) (T : List (String × Int × List Ptr))
    (h : ∀ t ∈ T, t.2.2 ≠ [] ∧ t.2.2.Perm (C t.1 t.2.1)) :
    smallGroups T
      = ((T.filter (fun t => decide (t.2.2.length < 2))).map (fun t => (t.1, t.2.1))).filterMap
          (fun cp => (C cp.1 cp.2).head?) := by
  induction T with
  | nil => rfl
  | cons t ts ih =>
    have ih' := ih (fun t' ht' => h t' (List.mem_cons_of_mem _ ht'))
    obtain ⟨hne, hperm⟩ := h t (List.mem_cons_self _ _)
    obtain ⟨c, p, chars⟩ := t
    simp only at hne hperm
    unfold smallGroups at ih' ⊢
    cases chars with
    | nil => exact absurd rfl hne
    | cons x xs =>
      cases xs with
      | nil =>
        have hC : C c p = [x] := (List.singleton_perm.1 hperm).symm
        simp [List.filterMap_cons, List.filter_cons, hC, ih']
      | cons y ys =>
        have hlt : ¬ (ys.length + 1 + 1 < 2) := by omega
        simp [List.filterMap_cons, List.filter_cons, hlt, ih']

theorem mem_smallKeys (ro : RangeOrder) (index : List (String × List vocabulary))
    (db : List (String × Ptr)) (heap : Heap) (hk : (db.map Prod.fst).Nodup)
    (c : String) (p : Int) :
    (c, p) ∈ ((visited ro (groupingMap ro index db heap)).filter
        (fun t => decide (t.2.2.length < 2))).map (fun t => (t.1, t.2.1)) ↔
      (contributors index db heap c p).length = 1 := by
  simp only [List.mem_map, List.mem_filter, decide_eq_true_eq, Prod.mk.injEq]
  constructor
  · rintro ⟨⟨c', p', chars⟩, ⟨ht, hlt⟩, h1, h2⟩
    simp only at h1 h2 hlt
    subst h1; subst h2
    obtain ⟨hne, hperm⟩ := visited_group ro index db heap hk ht
    have hlen := hperm.length_eq
    rw [List.length_map] at hlen
    have hpos : 0 < chars.length := List.length_pos.2 hne
    omega
  · intro hlen
    have hne : contributors index db heap c p ≠ [] := by
      intro h0; rw [h0] at hlen; simp at hlen
    obtain ⟨chars, hmem⟩ := visited_of_contributors ro index db heap hk _ _ hne
    have hperm := (visited_group ro index db heap hk hmem).2
    refine ⟨(c, p, chars), ⟨hmem, ?_⟩, rfl, rfl⟩
    simp only [hperm.length_eq, List.length_map, hlen]
    decide

theorem smallKeys_nodup (ro : RangeOrder) (m : List (String × List (Int × List Ptr)))
    (h : GroupsWF m) :
    (((visited ro m).filter (fun t => decide (t.2.2.length < 2))).map
      (fun t => (t.1, t.2.1))).Nodup :=
  (List.Sublist.map _ (List.filter_sublist _)).nodup (visited_keys_nodup ro m h)

theorem bigGroups_transfer (ro1 ro2 : RangeOrder) (index : List (String × List vocabulary))
    (db : List (String × Ptr)) (heap heap2 : Heap) (hk : (db.map Prod.fst).Nodup)
    (h : ∀ p, getComponentsAndPositions (heap2 p) = getComponentsAndPositions (heap p))
    {cl : cluster} (hcl : cl ∈ bigGroups (visited ro1 (groupingMap ro1 index db heap))) :
    ∃ cl' ∈ bigGroups (visited ro2 (groupingMap ro2 index db heap2)),
      cl'.component = cl.component ∧ cl'.position = cl.position ∧
        cl'.characters.Perm cl.characters := by
  obtain ⟨hmem, hlen⟩ := mem_bigGroups.1 hcl
  obtain ⟨_, hperm⟩ := visited_group ro1 index db heap hk hmem
  have hne : contributors index db heap2 cl.component cl.position ≠ [] := by
    rw [contributors_congr index db h]
    intro h0
    rw [h0] at hperm
    have := hperm.length_eq
    rw [List.map_nil, List.length_nil] at this
    omega
  obtain ⟨chars, hmem2⟩ := visited_of_contributors ro2 index db heap2 hk _ _ hne
  have hperm2 := (visited_group ro2 index db heap2 hk hmem2).2
  rw [contributors_congr index db h] at hperm2
  have hpp : chars.Perm cl.characters := hperm2.trans hperm.symm
  refine ⟨⟨cl.component, cl.position, chars⟩, mem_bigGroups.2 ⟨hmem2, ?_⟩, rfl, rfl, hpp⟩
  simp only [hpp.length_eq]
  exact hlen

theorem sameGroups_of_extraction (ro1 ro2 : RangeOrder)
    (index : List (String × List vocabulary)) (db : List (String × Ptr)) (heap heap2 : Heap)
    (hk : (db.map Prod.fst).Nodup)
    (h : ∀ p, getComponentsAndPositions (heap2 p) = getComponentsAndPositions (heap p))
    (a b : Built)
    (ha : a.clusters = bigGroups (visited ro1 (groupingMap ro1 index db heap)))
    (ha' : a.isolatedCharacters = smallGroups (visited ro1 (groupingMap ro1 index db heap)))
    (hb : b.clusters = bigGroups (visited ro2 (groupingMap ro2 index db heap2)))
    (hb' : b.isolatedCharacters = smallGroups (visited ro2 (groupingMap ro2 index db heap2))) :
    SameGroups a b := by
  have h' : ∀ p, getComponentsAndPositions (heap p) = getComponentsAndPositions (heap2 p) :=
    fun p => (h p).symm
  have h12 : ∀ cl ∈ a.clusters, ∃ cl' ∈ b.clusters, cl'.component = cl.component ∧
      cl'.position = cl.position ∧ cl'.characters.Perm cl.characters := by
    intro cl hcl
    rw [ha] at hcl
    rw [hb]
    exact bigGroups_transfer ro1 ro2 index db heap heap2 hk h hcl
  have h21 : ∀ cl' ∈ b.clusters, ∃ cl ∈ a.clusters, cl.component = cl'.component ∧
      cl.position = cl'.position ∧ cl.characters.Perm cl'.characters := by
    intro cl hcl
    rw [hb] at hcl
    rw [ha]
    exact bigGroups_transfer ro2 ro1 index db heap2 heap hk h' hcl
  refine ⟨h12, h21, ?_, ?_⟩
  · have hn1 : (a.clusters.map (fun cl => (cl.component, cl.position))).Nodup := by
      rw [ha]
      exact bigGroups_keys_nodup (visited_keys_nodup ro1 _ (groupingMap_groups ro1 index db heap).1)
    have hn2 : (b.clusters.map (fun cl => (cl.component, cl.position))).Nodup := by
      rw [hb]
      exact bigGroups_keys_nodup (visited_keys_nodup ro2 _ (groupingMap_groups ro2 index db heap2).1)
    have hperm : (a.clusters.map (fun cl => (cl.component, cl.position))).Perm
        (b.clusters.map (fun cl => (cl.component, cl.position))) := by
      rw [List.perm_ext_iff_of_nodup hn1 hn2]
      intro k
      simp only [List.mem_map]
      constructor
      · rintro ⟨cl, hcl, rfl⟩
        obtain ⟨cl', hcl', hc, hp, _⟩ := h12 cl hcl
        exact ⟨cl', hcl', by rw [hc, hp]⟩
      · rintro ⟨cl, hcl, rfl⟩
        obtain ⟨cl', hcl', hc, hp, _⟩ := h21 cl hcl
        exact ⟨cl', hcl', by rw [hc, hp]⟩
    have := hperm.length_eq
    simpa using this
  · have e1 := smallGroups_eq (fun c p => (contributors index db heap c p).map Prod.snd)
      (visited ro1 (groupingMap ro1 index db heap))
      (fun t ht => visited_group ro1 index db heap hk ht)
    have e2 := smallGroups_eq (fun c p => (contributors index db heap c p).map Prod.snd)
      (visited ro2 (groupingMap ro2 index db heap2))
      (fun t ht => by
        have := visited_group ro2 index db heap2 hk ht
        rw [contributors_congr index db h] at this
        exact this)
    rw [ha', hb', e1, e2]
    apply List.Perm.filterMap
    rw [List.perm_ext_iff_of_nodup
      (smallKeys_nodup ro1 _ (groupingMap_groups ro1 index db heap).1)
      (smallKeys_nodup ro2 _ (groupingMap_groups ro2 index db heap2).1)]
    rintro ⟨c, p⟩
    rw [mem_smallKeys ro1 index db heap hk, mem_smallKeys ro2 index db heap2 hk,
      contributors_congr index db h]

/-- C18: whatever the orders in which the maps are enumerated, two runs of
`makeClusters` on the same catalog and index return the same groups: the same
clusters (component, position, members up to order) and the same isolated
characters up to order. This holds for a second run from the same store and for
a second run on the store left by the first. -/
theorem makeClusters_order_independent (ro1 ro2 : RangeOrder)
    (charactersToVocabulary : List (String × List vocabulary))
    (characterDB : List (String × Ptr)) (heap : Heap)
    (hk : (characterDB.map Prod.fst).Nodup) :
    ∃ out1 out2 out3,
      makeClusters ro1 charactersToVocabulary characterDB heap = some out1 ∧
      makeClusters ro2 charactersToVocabulary characterDB heap = some out2 ∧
      makeClusters ro2 charactersToVocabulary characterDB out1.heap = some out3 ∧
      SameGroups out1 out2 ∧ SameGroups out1 out3 :=
  ⟨_, _, _, makeClusters_eq ro1 charactersToVocabulary characterDB heap,
    makeClusters_eq ro2 charactersToVocabulary characterDB heap,
    makeClusters_eq ro2 charactersToVocabulary characterDB _,
    sameGroups_of_extraction ro1 ro2 charactersToVocabulary characterDB heap heap hk
      (fun _ => rfl) _ _ rfl rfl rfl rfl,
    sameGroups_of_extraction ro1 ro2 charactersToVocabulary characterDB heap
      (attachedHeap ro1 charactersToVocabulary characterDB heap) hk
      (fun p => attachedHeap_extraction ro1 charactersToVocabulary characterDB heap p)
      _ _ rfl rfl rfl rfl⟩

/-- Witness of C18 on the round-trip scenario, the first run enumerating every
map in insertion order and the second in reverse order. -/
theorem makeClusters_order_independent_witness :
    ∃ out1 out2 out3,
      makeClusters RangeOrder.insertion (loadSourceVocabulary RangeOrder.insertion sampleRows)
        sampleCatalog sampleHeap = some out1 ∧
      makeClusters RangeOrder.reversed (loadSourceVocabulary RangeOrder.insertion sampleRows)
        sampleCatalog sampleHeap = some out2 ∧
      makeClusters RangeOrder.reversed (loadSourceVocabulary RangeOrder.insertion sampleRows)
        sampleCatalog out1.heap = some out3 ∧
      SameGroups out1 out2 ∧ SameGroups out1 out3 :=
  makeClusters_order_independent RangeOrder.insertion RangeOrder.reversed
    (loadSourceVocabulary RangeOrder.insertion sampleRows) sampleCatalog sampleHeap (by decide)

end ChineseDecompose

